import Mathlib

/-!
doublelist: a doubly linked list with sentinel head/tail nodes

Shallow embedding of `src/doublelist/doublelist.cpp`.

* Nodes live in a heap, a `List (Node α)` addressed by index.  A pointer
  (`std::shared_ptr<Node>` or `std::weak_ptr<Node>`) is an `Option Nat`;
  `none` is the null / empty pointer.  `std::make_shared` appends a cell, so
  the address it returns is always fresh.
* Cells are never reclaimed: a node stays readable as long as somebody can
  name it, which is what shared ownership gives to every holder of a handle.
  `weak_ptr::lock()` therefore yields the stored target; every backward link
  followed by the operations below targets a node that is owned by the
  forward chain of the list or by the handle passed in.
* Dereferencing a null pointer is undefined behaviour in the source; here it
  is the fault `nullDeref`.  `throw std::runtime_error("List is empty")` is
  the fault `listIsEmpty`, which carries the state in which it was raised.
* `std::size_t len` is a 64-bit unsigned counter: `len += 1` and `len -= 1`
  wrap modulo `2 ^ 64`.
* The `while` loops take a fuel argument; running out of it is the fault
  `outOfFuel`.
* The element type `T` is a type `α`; `T()` is `default`, and `T`'s `==` and
  `!=` are decidable equality and its negation.  Allocation always succeeds.
* A `List` object is a value of `DList` that an operation takes and returns
  next to the heap.  `operator==` compares the addresses of its operands, so
  it takes them from an object store; `Swap` and the move operations are
  modelled for two distinct objects, which is how the source calls them.
* The shared pointers that `Swap` overwrites are dropped without any effect
  on the heap: their nodes stay in place, unreachable from the list.
* A well-formed list is described by `WF l h ps`, where `ps` lists the
  addresses of the user nodes in forward order, and its contents by
  `Holds h ps xs`.
-/

namespace DoubleList

/-- `ItemPtr`: a node address, or `none` for the null pointer. -/
abbrev ItemPtr := Option Nat

/-- `struct Node`: the payload, the backward (weak) link and the forward
(shared) link. -/
structure Node (α : Type) where
  data : α
  prev : ItemPtr
  next : ItemPtr
deriving DecidableEq

/-- The node store. -/
abbrev Heap (α : Type) := List (Node α)

/-- `struct List`: the fields `head`, `tail` and `len`. -/
structure DList where
  head : ItemPtr
  tail : ItemPtr
  len : Nat
deriving DecidableEq

/-- Number of values of `std::size_t`. -/
def SIZE_RANGE : Nat := 2 ^ 64

/-- Ways in which a call does not return normally. -/
inductive Fault (α : Type) where
  | listIsEmpty (l : DList) (h : Heap α)
  | nullDeref
  | outOfFuel
deriving DecidableEq

deriving instance DecidableEq for Except

/-- Result of running a piece of the program. -/
abbrev Exec (α : Type) (ρ : Type) := Except (Fault α) ρ

section Memory
variable {α : Type}

/-- `std::make_shared<Item>(data)`: the node constructor leaves both links
empty. -/
def make_shared (h : Heap α) (data : α) : ItemPtr × Heap α :=
  (some h.length, h ++ [{ data := data, prev := none, next := none }])

/-- Read through a pointer (`p->...`). -/
def load (h : Heap α) : ItemPtr → Exec α (Node α)
  | none => .error .nullDeref
  | some a =>
    match h[a]? with
    | some n => .ok n
    | none => .error .nullDeref

/-- Overwrite the cell a pointer refers to. -/
def store (h : Heap α) : ItemPtr → Node α → Heap α
  | none, _ => h
  | some a, n => h.set a n

/-- Value of `p->next`. -/
def getNext (h : Heap α) (p : ItemPtr) : Exec α ItemPtr :=
  (load h p).map Node.next

/-- Value of `p->prev` (and of `p->prev.lock()`). -/
def getPrev (h : Heap α) (p : ItemPtr) : Exec α ItemPtr :=
  (load h p).map Node.prev

/-- Value of `p->data`. -/
def getData (h : Heap α) (p : ItemPtr) : Exec α α :=
  (load h p).map Node.data

/-- Assignment `p->next = v`. -/
def setNext (h : Heap α) (p v : ItemPtr) : Exec α (Heap α) :=
  (load h p).map fun n => store h p { n with next := v }

/-- Assignment `p->prev = v`. -/
def setPrev (h : Heap α) (p v : ItemPtr) : Exec α (Heap α) :=
  (load h p).map fun n => store h p { n with prev := v }

/-- Assignment `p->data = d`. -/
def setData (h : Heap α) (p : ItemPtr) (d : α) : Exec α (Heap α) :=
  (load h p).map fun n => store h p { n with data := d }

end Memory

section Operations
variable {α : Type}

/-- `List::List()`. -/
def List_default [Inhabited α] (h : Heap α) : Exec α (DList × Heap α) := do
  let (head, h) := make_shared h (default : α)
  let (tail, h) := make_shared h (default : α)
  let h ← setNext h head tail
  let h ← setPrev h tail head
  pure ({ head := head, tail := tail, len := 0 }, h)

/-- `List::PushFront(const ItemPtr& node)`. -/
def PushFrontNode (l : DList) (node : ItemPtr) (h : Heap α) : Exec α (DList × Heap α) := do
  let h ← setPrev h node l.head
  let hn ← getNext h l.head
  let h ← setNext h node hn
  let hn ← getNext h l.head
  let h ← setPrev h hn node
  let h ← setNext h l.head node
  pure ({ l with len := (l.len + 1) % SIZE_RANGE }, h)

/-- `List::PushFront(T data)`. -/
def PushFront (l : DList) (data : α) (h : Heap α) : Exec α (DList × Heap α) :=
  let (node, h) := make_shared h data
  PushFrontNode l node h

/-- `List::PushBack(const ItemPtr& node)`. -/
def PushBackNode (l : DList) (node : ItemPtr) (h : Heap α) : Exec α (DList × Heap α) := do
  let tp ← getPrev h l.tail
  let h ← setPrev h node tp
  let h ← setNext h node l.tail
  let tp ← getPrev h l.tail
  let h ← setNext h tp node
  let h ← setPrev h l.tail node
  pure ({ l with len := (l.len + 1) % SIZE_RANGE }, h)

/-- `List::PushBack(T data)`. -/
def PushBack (l : DList) (data : α) (h : Heap α) : Exec α (DList × Heap α) :=
  let (node, h) := make_shared h data
  PushBackNode l node h

/-- `List::PushBack(const std::initializer_list<T>& items)`. -/
def PushBackItems (l : DList) : List α → Heap α → Exec α (DList × Heap α)
  | [], h => pure (l, h)
  | item :: items, h => do
    let (l, h) ← PushBack l item h
    PushBackItems l items h

/-- `List::List(const std::initializer_list<T>& items)`. -/
def List_init [Inhabited α] (items : List α) (h : Heap α) : Exec α (DList × Heap α) := do
  let (l, h) ← List_default h
  PushBackItems l items h

/-- `List::Remove(ItemPtr node)`. -/
def Remove (l : DList) (node : ItemPtr) (h : Heap α) : Exec α (DList × Heap α) :=
  if node = none then pure (l, h)
  else do
    let np ← getPrev h node
    let nn ← getNext h node
    let h ← setNext h np nn
    let nn ← getNext h node
    let np ← getPrev h node
    let h ← setPrev h nn np
    let h ← setPrev h node none
    let h ← setNext h node none
    pure ({ l with len := (l.len + SIZE_RANGE - 1) % SIZE_RANGE }, h)

/-- `List::MoveToFront(ItemPtr node)`. -/
def MoveToFront (l : DList) (node : ItemPtr) (h : Heap α) : Exec α (DList × Heap α) :=
  if node = none then pure (l, h)
  else do
    let (l, h) ← Remove l node h
    PushFrontNode l node h

/-- `List::MoveToBack(ItemPtr node)`. -/
def MoveToBack (l : DList) (node : ItemPtr) (h : Heap α) : Exec α (DList × Heap α) :=
  if node = none then pure (l, h)
  else do
    let (l, h) ← Remove l node h
    PushBackNode l node h

/-- `List::Back()`. -/
def Back (l : DList) (h : Heap α) : Exec α (ItemPtr × DList × Heap α) := do
  let hn ← getNext h l.head
  if hn = l.tail then throw (Fault.listIsEmpty l h)
  else do
    let tp ← getPrev h l.tail
    pure (tp, l, h)

/-- `List::Front()`. -/
def Front (l : DList) (h : Heap α) : Exec α (ItemPtr × DList × Heap α) := do
  let hn ← getNext h l.head
  if hn = l.tail then throw (Fault.listIsEmpty l h)
  else do
    let hn ← getNext h l.head
    pure (hn, l, h)

/-- The `while (current != tail)` loop of `List::Search`. -/
def Search.loop [DecidableEq α] (tail : ItemPtr) (target : α) (h : Heap α) :
    Nat → ItemPtr → Exec α ItemPtr
  | 0, _ => throw Fault.outOfFuel
  | fuel + 1, current =>
    if current ≠ tail then do
      let d ← getData h current
      if d = target then pure current
      else do
        let nx ← getNext h current
        Search.loop tail target h fuel nx
    else pure none

/-- `List::Search(const T& target)`. -/
def Search [DecidableEq α] (fuel : Nat) (l : DList) (target : α) (h : Heap α) :
    Exec α (ItemPtr × DList × Heap α) := do
  let current ← getNext h l.head
  let r ← Search.loop l.tail target h fuel current
  pure (r, l, h)

/-- The `while` loop of `List::Reverse`; the four conjuncts of its condition
are evaluated left to right. -/
def Reverse.loop (head tail : ItemPtr) : Nat → Heap α → ItemPtr → ItemPtr → Exec α (Heap α)
  | 0, _, _, _ => throw Fault.outOfFuel
  | fuel + 1, h, i, j =>
    if i ≠ tail ∧ j ≠ head ∧ i ≠ j then do
      let ip ← getPrev h i
      if ip ≠ j then do
        let di ← getData h i
        let dj ← getData h j
        let h ← setData h i dj
        let h ← setData h j di
        let i ← getNext h i
        let j ← getPrev h j
        Reverse.loop head tail fuel h i j
      else pure h
    else pure h

/-- `List::Reverse()`. -/
def Reverse (fuel : Nat) (l : DList) (h : Heap α) : Exec α (DList × Heap α) := do
  let i ← getNext h l.head
  let j ← getPrev h l.tail
  let h ← Reverse.loop l.head l.tail fuel h i j
  pure (l, h)

/-- The `while` loop of `List::operator==`. -/
def operator_eq.loop [DecidableEq α] (tail rtail : ItemPtr) (h : Heap α) :
    Nat → ItemPtr → ItemPtr → Exec α Bool
  | 0, _, _ => throw Fault.outOfFuel
  | fuel + 1, node1, node2 =>
    if node1 ≠ tail ∧ node2 ≠ rtail then do
      let d1 ← getData h node1
      let d2 ← getData h node2
      if d1 ≠ d2 then pure false
      else do
        let node1 ← getNext h node1
        let node2 ← getNext h node2
        operator_eq.loop tail rtail h fuel node1 node2
    else pure true

/-- `List::operator==(const List& rhs)`.  The two operands are given by the
addresses `this` and `rhs` of their `List` objects in the object store
`objs`, so that `this == &rhs` is the comparison of the two addresses. -/
def operator_eq [DecidableEq α] (fuel : Nat) (objs : Nat → DList) (this rhs : Nat)
    (h : Heap α) : Exec α Bool :=
  if this = rhs then pure true
  else if (objs this).len ≠ (objs rhs).len then pure false
  else do
    let node1 ← getNext h (objs this).head
    let node2 ← getNext h (objs rhs).head
    operator_eq.loop (objs this).tail (objs rhs).tail h fuel node1 node2

/-- `List::IsEmpty()`. -/
def IsEmpty (l : DList) (h : Heap α) : Exec α Bool := do
  let hn ← getNext h l.head
  pure (decide (hn = l.tail))

/-- `List::Size()`. -/
def Size (l : DList) : Nat := l.len

/-- The traversal of `List::Print()`: the element values written between
`List(` and `)`, in the order in which the loop writes them. -/
def Print.loop (tail : ItemPtr) (h : Heap α) : Nat → ItemPtr → Exec α (List α)
  | 0, _ => throw Fault.outOfFuel
  | fuel + 1, current =>
    if current ≠ tail then do
      let d ← getData h current
      let nx ← getNext h current
      let rest ← Print.loop tail h fuel nx
      pure (d :: rest)
    else pure []

/-- `List::Print()`, as the sequence of values it writes. -/
def Print (fuel : Nat) (l : DList) (h : Heap α) : Exec α (List α) := do
  let current ← getNext h l.head
  Print.loop l.tail h fuel current

/-- The `while (current != rhs.tail)` loop of the copy constructor. -/
def List_copy.loop (rtail : ItemPtr) :
    Nat → DList → Heap α → ItemPtr → Exec α (DList × Heap α)
  | 0, _, _, _ => throw Fault.outOfFuel
  | fuel + 1, l, h, current =>
    if current ≠ rtail then do
      let d ← getData h current
      let (l, h) ← PushBack l d h
      let current ← getNext h current
      List_copy.loop rtail fuel l h current
    else pure (l, h)

/-- `List::List(const List& rhs)`: returns the new list. -/
def List_copy [Inhabited α] (fuel : Nat) (rhs : DList) (h : Heap α) :
    Exec α (DList × Heap α) := do
  let (l, h) ← List_default h
  let current ← getNext h rhs.head
  List_copy.loop rhs.tail fuel l h current

/-- `List::Swap(List& rhs)` for two distinct objects, as in both of its
callers: the pair is the new `*this` and the new `rhs`.  Each field of `*this`
receives `std::exchange(rhs.field, nullptr or 0)`. -/
def Swap (_this rhs : DList) : DList × DList :=
  ({ head := rhs.head, tail := rhs.tail, len := rhs.len },
   { head := none, tail := none, len := 0 })

/-- `List::List(List&& rhs)`: returns the new list, the moved-from `rhs` and
the heap. -/
def List_move [Inhabited α] (rhs : DList) (h : Heap α) : Exec α (DList × DList × Heap α) := do
  let (l, h) ← List_default h
  let (l, rhs) := Swap l rhs
  pure (l, rhs, h)

/-- Body of `List::operator=(List rhs)`.  The parameter `rhs` is an object of
its own, so `this != &rhs` holds; the pair is the new `*this` and the
parameter after the call. -/
def operator_assign (this rhs : DList) : DList × DList :=
  Swap this rhs

/-- The loop of `List::~List()`. -/
def List_destroy.loop (tail : ItemPtr) : Nat → Heap α → ItemPtr → Exec α (Heap α)
  | 0, _, _ => throw Fault.outOfFuel
  | fuel + 1, h, current =>
    if current ≠ tail then do
      let tmp := current
      let current ← getNext h current
      let h ← setNext h tmp none
      let h ← setPrev h tmp none
      List_destroy.loop tail fuel h current
    else pure h

/-- `List::~List()`. -/
def List_destroy (fuel : Nat) (l : DList) (h : Heap α) : Exec α (Heap α) :=
  List_destroy.loop l.tail fuel h l.head

/-- The assignment `b = std::move(a)` for two distinct objects: the parameter
of `operator=` is move-constructed from `a`, the body runs on `b`, and the
parameter is destroyed.  Returns the new `b`, the moved-from `a` and the
heap. -/
def move_assign [Inhabited α] (fuel : Nat) (b a : DList) (h : Heap α) :
    Exec α (DList × DList × Heap α) := do
  let (rhs, a, h) ← List_move a h
  let (b, rhs) := operator_assign b rhs
  let h ← List_destroy fuel rhs h
  pure (b, a, h)

/-- The assignment `b = a` for two distinct objects: the parameter of
`operator=` is copy-constructed from `a`, the body runs on `b`, and the
parameter is destroyed.  Returns the new `b` and the heap. -/
def copy_assign [Inhabited α] (fuel : Nat) (b a : DList) (h : Heap α) :
    Exec α (DList × Heap α) := do
  let (rhs, h) ← List_copy fuel a h
  let (b, rhs) := operator_assign b rhs
  let h ← List_destroy fuel rhs h
  pure (b, h)

/-- The loop `while (!list.IsEmpty()) list.Remove(list.Front());` of `main`;
the first component of the result counts the iterations. -/
def drain : Nat → DList → Heap α → Exec α (Nat × DList × Heap α)
  | 0, _, _ => throw Fault.outOfFuel
  | fuel + 1, l, h => do
    let e ← IsEmpty l h
    if e = false then do
      let (f, l, h) ← Front l h
      let (l, h) ← Remove l f h
      let (n, l, h) ← drain fuel l h
      pure (n + 1, l, h)
    else pure (0, l, h)

end Operations

section Views
variable {α : Type}

/-- Forward link stored at address `a` (`none` when the cell is absent). -/
def nextOf (h : Heap α) (a : Nat) : ItemPtr :=
  match h[a]? with
  | some n => n.next
  | none => none

/-- Backward link stored at address `a` (`none` when the cell is absent). -/
def prevOf (h : Heap α) (a : Nat) : ItemPtr :=
  match h[a]? with
  | some n => n.prev
  | none => none

/-- Payload stored at address `a`. -/
def dataOf (h : Heap α) (a : Nat) : Option α :=
  match h[a]? with
  | some n => some n.data
  | none => none

/-- The heap after `a->next = v`, when cell `a` exists. -/
def updNext (h : Heap α) (a : Nat) (v : ItemPtr) : Heap α :=
  match h[a]? with
  | some n => h.set a { n with next := v }
  | none => h

/-- The heap after `a->prev = v`, when cell `a` exists. -/
def updPrev (h : Heap α) (a : Nat) (v : ItemPtr) : Heap α :=
  match h[a]? with
  | some n => h.set a { n with prev := v }
  | none => h

/-- The heap after `a->data = d`, when cell `a` exists. -/
def updData (h : Heap α) (a : Nat) (d : α) : Heap α :=
  match h[a]? with
  | some n => h.set a { n with data := d }
  | none => h

end Views

section Shape
variable {α : Type}

/-- Bidirectional consistency along a sequence of nodes: each node's forward
link targets its successor and the successor's backward link targets it. -/
def Linked (h : Heap α) : List Nat → Prop
  | [] => True
  | a :: rest =>
    match rest with
    | [] => True
    | b :: _ => (nextOf h a = some b ∧ prevOf h b = some a) ∧ Linked h rest

instance Linked.decidable (h : Heap α) : (c : List Nat) → Decidable (Linked h c)
  | [] => isTrue trivial
  | [_] => isTrue trivial
  | a :: b :: rest =>
    have : Decidable (Linked h (b :: rest)) := Linked.decidable h (b :: rest)
    inferInstanceAs
      (Decidable ((nextOf h a = some b ∧ prevOf h b = some a) ∧ Linked h (b :: rest)))

/-- Well-formed list whose user nodes are, in order, `ps`: the sentinels are
non-null, `head :: ps ++ [tail]` is a sequence of distinct nodes that is
linked in both directions, and `len` is the number of user nodes (a
`std::size_t` value). -/
def WF (l : DList) (h : Heap α) (ps : List Nat) : Prop :=
  match l.head, l.tail with
  | some hd, some tl =>
    Linked h (hd :: ps ++ [tl]) ∧ (hd :: ps ++ [tl]).Nodup ∧
      l.len = ps.length ∧ ps.length < SIZE_RANGE
  | _, _ => False

instance WF.decidable (l : DList) (h : Heap α) (ps : List Nat) : Decidable (WF l h ps) := by
  unfold WF
  split <;> infer_instance

/-- The user nodes `ps` hold, in order, the values `xs`. -/
def Holds (h : Heap α) (ps : List Nat) (xs : List α) : Prop :=
  ps.map (dataOf h) = xs.map some

instance Holds.decidable [DecidableEq α] (h : Heap α) (ps : List Nat) (xs : List α) :
    Decidable (Holds h ps xs) := by
  unfold Holds
  infer_instance

/-- The heap `h2` has the same links and payloads as `h` at every address
below `n`. -/
def SameBelow (n : Nat) (h h2 : Heap α) : Prop :=
  ∀ a, a < n → nextOf h2 a = nextOf h a ∧ prevOf h2 a = prevOf h a ∧ dataOf h2 a = dataOf h a

/-- Forward reachability: following forward links from `a` passes through
the nodes `ps` and then arrives at `b`. -/
def Reaches (h : Heap α) : Nat → List Nat → Nat → Prop
  | a, [], b => nextOf h a = some b
  | a, p :: ps, b => nextOf h a = some p ∧ Reaches h p ps b

instance Reaches.decidable (h : Heap α) :
    (a : Nat) → (ps : List Nat) → (b : Nat) → Decidable (Reaches h a ps b)
  | a, [], b => inferInstanceAs (Decidable (nextOf h a = some b))
  | a, p :: ps, b =>
    have : Decidable (Reaches h p ps b) := Reaches.decidable h p ps b
    inferInstanceAs (Decidable (nextOf h a = some p ∧ Reaches h p ps b))

/-- The data-model invariants on the forward chain: the sentinels are
non-null, head's forward chain reaches tail through the nodes `ps`, none of
which is a sentinel, and the count equals their number. -/
def FwdInv (l : DList) (h : Heap α) (ps : List Nat) : Prop :=
  match l.head, l.tail with
  | some hd, some tl => Reaches h hd ps tl ∧ hd ∉ ps ∧ tl ∉ ps ∧ l.len = ps.length
  | _, _ => False

end Shape

section Examples

/-- An object store with two `List` objects, at addresses 0 and 1, both
describing the list stored in `exHeap`. -/
def exObjs : Nat → DList := fun _ => { head := some 0, tail := some 1, len := 3 }

/-- A heap holding one list: sentinels at addresses 0 and 1, user nodes at
addresses 2, 3 and 4 with payloads 7, 8 and 9. -/
def exHeap : Heap Nat :=
  [{ data := 0, prev := none, next := some 2 },
   { data := 0, prev := some 4, next := none },
   { data := 7, prev := some 0, next := some 3 },
   { data := 8, prev := some 2, next := some 4 },
   { data := 9, prev := some 3, next := some 1 }]

/-- The `List` object of the list stored in `exHeap`. -/
def exList : DList := { head := some 0, tail := some 1, len := 3 }

/-- The heap `exHeap` with one more allocated node, at address 5, that is
linked nowhere. -/
def exHeapSpare : Heap Nat :=
  exHeap ++ [{ data := 5, prev := none, next := none }]

/-- The heap that `PushFront(node)` leaves when it is called on `exHeap` with
the node at address 3, which is linked in the list at position 1. -/
def exHeapCycle : Heap Nat :=
  [{ data := 0, prev := none, next := some 3 },
   { data := 0, prev := some 4, next := none },
   { data := 7, prev := some 3, next := some 3 },
   { data := 8, prev := some 0, next := some 2 },
   { data := 9, prev := some 3, next := some 1 }]

/-- The heap `exHeap` with a second, empty list on the sentinels 5 and 6. -/
def exHeapTwo : Heap Nat :=
  exHeap ++ [{ data := 0, prev := none, next := some 6 },
             { data := 0, prev := some 5, next := none }]

/-- The `List` object of the empty list stored in `exHeapTwo`. -/
def exEmpty : DList := { head := some 5, tail := some 6, len := 0 }

end Examples

section ViewLemmas
variable {α : Type}

theorem cell_of_lt {h : Heap α} {a : Nat} (ha : a < h.length) : ∃ n, h[a]? = some n :=
  ⟨h[a], List.getElem?_eq_getElem ha⟩

theorem lt_of_nextOf {h : Heap α} {a : Nat} {b : Nat} (e : nextOf h a = some b) :
    a < h.length := by
  by_contra hlt
  have : h[a]? = none := List.getElem?_eq_none (Nat.le_of_not_lt hlt)
  simp [nextOf, this] at e

theorem lt_of_prevOf {h : Heap α} {a : Nat} {b : Nat} (e : prevOf h a = some b) :
    a < h.length := by
  by_contra hlt
  have : h[a]? = none := List.getElem?_eq_none (Nat.le_of_not_lt hlt)
  simp [prevOf, this] at e

theorem lt_of_dataOf {h : Heap α} {a : Nat} {d : α} (e : dataOf h a = some d) :
    a < h.length := by
  by_contra hlt
  have : h[a]? = none := List.getElem?_eq_none (Nat.le_of_not_lt hlt)
  simp [dataOf, this] at e

theorem dataOf_isSome {h : Heap α} {a : Nat} (ha : a < h.length) : ∃ d, dataOf h a = some d := by
  obtain ⟨n, hn⟩ := cell_of_lt ha
  exact ⟨n.data, by simp [dataOf, hn]⟩

theorem getNext_some {h : Heap α} {a : Nat} (ha : a < h.length) :
    getNext h (some a) = .ok (nextOf h a) := by
  obtain ⟨n, hn⟩ := cell_of_lt ha
  simp [getNext, load, nextOf, hn, Except.map]

theorem getPrev_some {h : Heap α} {a : Nat} (ha : a < h.length) :
    getPrev h (some a) = .ok (prevOf h a) := by
  obtain ⟨n, hn⟩ := cell_of_lt ha
  simp [getPrev, load, prevOf, hn, Except.map]

theorem getData_some {h : Heap α} {a : Nat} {d : α} (e : dataOf h a = some d) :
    getData h (some a) = .ok d := by
  obtain ⟨n, hn⟩ := cell_of_lt (lt_of_dataOf e)
  simp [dataOf, hn] at e
  simp [getData, load, hn, Except.map, e]

theorem setNext_some {h : Heap α} {a : Nat} (ha : a < h.length) (v : ItemPtr) :
    setNext h (some a) v = .ok (updNext h a v) := by
  obtain ⟨n, hn⟩ := cell_of_lt ha
  simp [setNext, load, updNext, store, hn, Except.map]

theorem setPrev_some {h : Heap α} {a : Nat} (ha : a < h.length) (v : ItemPtr) :
    setPrev h (some a) v = .ok (updPrev h a v) := by
  obtain ⟨n, hn⟩ := cell_of_lt ha
  simp [setPrev, load, updPrev, store, hn, Except.map]

theorem setData_some {h : Heap α} {a : Nat} (ha : a < h.length) (d : α) :
    setData h (some a) d = .ok (updData h a d) := by
  obtain ⟨n, hn⟩ := cell_of_lt ha
  simp [setData, load, updData, store, hn, Except.map]

@[simp] theorem length_updNext (h : Heap α) (a : Nat) (v : ItemPtr) :
    (updNext h a v).length = h.length := by
  unfold updNext; split <;> simp

@[simp] theorem length_updPrev (h : Heap α) (a : Nat) (v : ItemPtr) :
    (updPrev h a v).length = h.length := by
  unfold updPrev; split <;> simp

@[simp] theorem length_updData (h : Heap α) (a : Nat) (d : α) :
    (updData h a d).length = h.length := by
  unfold updData; split <;> simp

theorem nextOf_updNext {h : Heap α} {a : Nat} (ha : a < h.length) (v : ItemPtr) (b : Nat) :
    nextOf (updNext h a v) b = if b = a then v else nextOf h b := by
  obtain ⟨n, hn⟩ := cell_of_lt ha
  by_cases hb : b = a
  · subst hb; simp [nextOf, updNext, hn, List.getElem?_set, ha]
  · have hab : a ≠ b := fun e => hb e.symm
    simp [nextOf, updNext, hn, List.getElem?_set, hb, hab]

@[simp] theorem prevOf_updNext (h : Heap α) (a : Nat) (v : ItemPtr) (b : Nat) :
    prevOf (updNext h a v) b = prevOf h b := by
  unfold updNext
  split
  · rename_i n hn
    by_cases hb : a = b
    · subst hb
      have ha : a < h.length := (List.getElem?_eq_some.mp hn).1
      simp [prevOf, hn, List.getElem?_set, ha]
    · simp [prevOf, List.getElem?_set, hb]
  · rfl

@[simp] theorem dataOf_updNext (h : Heap α) (a : Nat) (v : ItemPtr) (b : Nat) :
    dataOf (updNext h a v) b = dataOf h b := by
  unfold updNext
  split
  · rename_i n hn
    by_cases hb : a = b
    · subst hb
      have ha : a < h.length := (List.getElem?_eq_some.mp hn).1
      simp [dataOf, hn, List.getElem?_set, ha]
    · simp [dataOf, List.getElem?_set, hb]
  · rfl

theorem prevOf_updPrev {h : Heap α} {a : Nat} (ha : a < h.length) (v : ItemPtr) (b : Nat) :
    prevOf (updPrev h a v) b = if b = a then v else prevOf h b := by
  obtain ⟨n, hn⟩ := cell_of_lt ha
  by_cases hb : b = a
  · subst hb; simp [prevOf, updPrev, hn, List.getElem?_set, ha]
  · have hab : a ≠ b := fun e => hb e.symm
    simp [prevOf, updPrev, hn, List.getElem?_set, hb, hab]

@[simp] theorem nextOf_updPrev (h : Heap α) (a : Nat) (v : ItemPtr) (b : Nat) :
    nextOf (updPrev h a v) b = nextOf h b := by
  unfold updPrev
  split
  · rename_i n hn
    by_cases hb : a = b
    · subst hb
      have ha : a < h.length := (List.getElem?_eq_some.mp hn).1
      simp [nextOf, hn, List.getElem?_set, ha]
    · simp [nextOf, List.getElem?_set, hb]
  · rfl

@[simp] theorem dataOf_updPrev (h : Heap α) (a : Nat) (v : ItemPtr) (b : Nat) :
    dataOf (updPrev h a v) b = dataOf h b := by
  unfold updPrev
  split
  · rename_i n hn
    by_cases hb : a = b
    · subst hb
      have ha : a < h.length := (List.getElem?_eq_some.mp hn).1
      simp [dataOf, hn, List.getElem?_set, ha]
    · simp [dataOf, List.getElem?_set, hb]
  · rfl

theorem dataOf_updData {h : Heap α} {a : Nat} (ha : a < h.length) (d : α) (b : Nat) :
    dataOf (updData h a d) b = if b = a then some d else dataOf h b := by
  obtain ⟨n, hn⟩ := cell_of_lt ha
  by_cases hb : b = a
  · subst hb; simp [dataOf, updData, hn, List.getElem?_set, ha]
  · have hab : a ≠ b := fun e => hb e.symm
    simp [dataOf, updData, hn, List.getElem?_set, hb, hab]

@[simp] theorem nextOf_updData (h : Heap α) (a : Nat) (d : α) (b : Nat) :
    nextOf (updData h a d) b = nextOf h b := by
  unfold updData
  split
  · rename_i n hn
    by_cases hb : a = b
    · subst hb
      have ha : a < h.length := (List.getElem?_eq_some.mp hn).1
      simp [nextOf, hn, List.getElem?_set, ha]
    · simp [nextOf, List.getElem?_set, hb]
  · rfl

@[simp] theorem prevOf_updData (h : Heap α) (a : Nat) (d : α) (b : Nat) :
    prevOf (updData h a d) b = prevOf h b := by
  unfold updData
  split
  · rename_i n hn
    by_cases hb : a = b
    · subst hb
      have ha : a < h.length := (List.getElem?_eq_some.mp hn).1
      simp [prevOf, hn, List.getElem?_set, ha]
    · simp [prevOf, List.getElem?_set, hb]
  · rfl

theorem nextOf_alloc (h : Heap α) (n : Node α) (b : Nat) :
    nextOf (h ++ [n]) b = if b = h.length then n.next else nextOf h b := by
  by_cases hb : b = h.length
  · subst hb; simp [nextOf]
  · rcases Nat.lt_or_gt_of_ne hb with hlt | hgt
    · simp [nextOf, List.getElem?_append_left hlt, hb]
    · have h1 : (h ++ [n])[b]? = none := List.getElem?_eq_none (by simp; omega)
      have h2 : h[b]? = none := List.getElem?_eq_none (by omega)
      simp [nextOf, h1, h2, hb]

theorem prevOf_alloc (h : Heap α) (n : Node α) (b : Nat) :
    prevOf (h ++ [n]) b = if b = h.length then n.prev else prevOf h b := by
  by_cases hb : b = h.length
  · subst hb; simp [prevOf]
  · rcases Nat.lt_or_gt_of_ne hb with hlt | hgt
    · simp [prevOf, List.getElem?_append_left hlt, hb]
    · have h1 : (h ++ [n])[b]? = none := List.getElem?_eq_none (by simp; omega)
      have h2 : h[b]? = none := List.getElem?_eq_none (by omega)
      simp [prevOf, h1, h2, hb]

theorem dataOf_alloc (h : Heap α) (n : Node α) (b : Nat) :
    dataOf (h ++ [n]) b = if b = h.length then some n.data else dataOf h b := by
  by_cases hb : b = h.length
  · subst hb; simp [dataOf]
  · rcases Nat.lt_or_gt_of_ne hb with hlt | hgt
    · simp [dataOf, List.getElem?_append_left hlt, hb]
    · have h1 : (h ++ [n])[b]? = none := List.getElem?_eq_none (by simp; omega)
      have h2 : h[b]? = none := List.getElem?_eq_none (by omega)
      simp [dataOf, h1, h2, hb]

end ViewLemmas

section LinkedLemmas
variable {α : Type}

theorem Linked_cons_cons (h : Heap α) (a b : Nat) (c : List Nat) :
    Linked h (a :: b :: c) ↔
      (nextOf h a = some b ∧ prevOf h b = some a) ∧ Linked h (b :: c) := Iff.rfl

theorem Linked_split (h : Heap α) (X : List Nat) (y : Nat) (Y : List Nat) :
    Linked h (X ++ y :: Y) ↔ Linked h (X ++ [y]) ∧ Linked h (y :: Y) := by
  induction X with
  | nil => simp [Linked]
  | cons x X ih =>
    cases X with
    | nil => simp [Linked]
    | cons x2 X2 =>
      simp only [List.cons_append, Linked_cons_cons] at ih ⊢
      rw [ih]
      tauto

theorem Linked_frame {h h2 : Heap α} {c : List Nat} (hL : Linked h c)
    (hn : ∀ x ∈ c.dropLast, nextOf h2 x = nextOf h x)
    (hp : ∀ y ∈ c.tail, prevOf h2 y = prevOf h y) : Linked h2 c := by
  induction c with
  | nil => trivial
  | cons a c ih =>
    cases c with
    | nil => trivial
    | cons b c =>
      rw [Linked_cons_cons] at hL ⊢
      refine ⟨⟨?_, ?_⟩, ih hL.2 ?_ ?_⟩
      · rw [hn a (by simp)]; exact hL.1.1
      · rw [hp b (by simp)]; exact hL.1.2
      · intro x hx; exact hn x (by simp [List.dropLast_cons₂]; exact Or.inr hx)
      · intro y hy; exact hp y (by simp at hy ⊢; exact Or.inr hy)

theorem Linked_frame_all {h h2 : Heap α} {c : List Nat} (hL : Linked h c)
    (hn : ∀ x ∈ c, nextOf h2 x = nextOf h x)
    (hp : ∀ y ∈ c, prevOf h2 y = prevOf h y) : Linked h2 c :=
  Linked_frame hL (fun x hx => hn x (List.mem_of_mem_dropLast hx))
    (fun y hy => hp y (List.mem_of_mem_tail hy))

/-- Every node of a linked sequence of at least two nodes is allocated. -/
theorem Linked_lt {h : Heap α} {c : List Nat} (hL : Linked h c) (hc : 2 ≤ c.length) :
    ∀ x ∈ c, x < h.length := by
  induction c with
  | nil => simp
  | cons a c ih =>
    cases c with
    | nil => simp at hc
    | cons b c =>
      rw [Linked_cons_cons] at hL
      intro x hx
      rcases List.mem_cons.mp hx with rfl | hx
      · exact lt_of_nextOf hL.1.1
      · cases c with
        | nil =>
          simp at hx; subst hx; exact lt_of_prevOf hL.1.2
        | cons c1 c2 => exact ih hL.2 (by simp) x hx

/-- Splicing the node `A` in between the adjacent nodes `a` and `b`. -/
theorem Linked_insert {h h2 : Heap α} {X Y : List Nat} {a b A : Nat}
    (hL : Linked h (X ++ a :: b :: Y)) (hnd : (X ++ a :: b :: Y).Nodup)
    (hA : A ∉ X ++ a :: b :: Y)
    (hn : ∀ x, nextOf h2 x = if x = a then some A else if x = A then some b else nextOf h x)
    (hp : ∀ x, prevOf h2 x = if x = b then some A else if x = A then some a else prevOf h x) :
    Linked h2 (X ++ a :: A :: b :: Y) := by
  rw [Linked_split] at hL ⊢
  obtain ⟨hL1, hL2⟩ := hL
  rw [Linked_cons_cons] at hL2
  simp only [List.nodup_append, List.nodup_cons, List.mem_cons, List.mem_append, not_or] at hnd hA
  obtain ⟨hX, ⟨⟨hab, haY⟩, hbY, hY⟩, hdis⟩ := hnd
  obtain ⟨hAX, hAa, hAb, hAY⟩ := hA
  have hXa : ∀ x ∈ X, x ≠ a := fun x hx e => hdis hx (by simp [e])
  have hXb : ∀ x ∈ X, x ≠ b := fun x hx e => hdis hx (by simp [e])
  have hXA : ∀ x ∈ X, x ≠ A := fun x hx e => hAX (e ▸ hx)
  have hYa : ∀ x ∈ Y, x ≠ a := fun x hx e => haY (e ▸ hx)
  have hYb : ∀ x ∈ Y, x ≠ b := fun x hx e => hbY (e ▸ hx)
  have hYA : ∀ x ∈ Y, x ≠ A := fun x hx e => hAY (e ▸ hx)
  refine ⟨Linked_frame hL1 ?_ ?_, ?_⟩
  · intro x hx
    simp only [List.dropLast_concat] at hx
    rw [hn, if_neg (hXa x hx), if_neg (hXA x hx)]
  · intro y hy
    have hy2 := List.mem_of_mem_tail hy
    rw [hp]
    rcases List.mem_append.mp hy2 with hy3 | hy3
    · rw [if_neg (hXb y hy3), if_neg (hXA y hy3)]
    · simp at hy3; subst hy3
      rw [if_neg hab, if_neg (Ne.symm hAa)]
  · rw [Linked_cons_cons, Linked_cons_cons]
    refine ⟨⟨?_, ?_⟩, ⟨?_, ?_⟩, Linked_frame hL2.2 ?_ ?_⟩
    · rw [hn, if_pos rfl]
    · rw [hp, if_neg hAb, if_pos rfl]
    · rw [hn, if_neg hAa, if_pos rfl]
    · rw [hp, if_pos rfl]
    · intro x hx
      have hx2 := List.mem_of_mem_dropLast hx
      rw [hn]
      rcases List.mem_cons.mp hx2 with rfl | hx3
      · rw [if_neg (Ne.symm hab), if_neg (Ne.symm hAb)]
      · rw [if_neg (hYa x hx3), if_neg (hYA x hx3)]
    · intro y hy
      simp only [List.tail_cons] at hy
      rw [hp, if_neg (hYb y hy), if_neg (hYA y hy)]

/-- Splicing the node `p` out from between its neighbours `a` and `b`. -/
theorem Linked_remove {h h2 : Heap α} {X Y : List Nat} {a b p : Nat}
    (hL : Linked h (X ++ a :: p :: b :: Y)) (hnd : (X ++ a :: p :: b :: Y).Nodup)
    (hn : ∀ x, x ≠ p → nextOf h2 x = if x = a then some b else nextOf h x)
    (hp : ∀ x, x ≠ p → prevOf h2 x = if x = b then some a else prevOf h x) :
    Linked h2 (X ++ a :: b :: Y) := by
  rw [Linked_split] at hL ⊢
  obtain ⟨hL1, hL2⟩ := hL
  rw [Linked_cons_cons, Linked_cons_cons] at hL2
  simp only [List.nodup_append, List.nodup_cons, List.mem_cons, List.mem_append, not_or] at hnd
  obtain ⟨hX, ⟨⟨hap, hab, haY⟩, ⟨hpb, hpY⟩, hbY, hY⟩, hdis⟩ := hnd
  have hXa : ∀ x ∈ X, x ≠ a := fun x hx e => hdis hx (by simp [e])
  have hXp : ∀ x ∈ X, x ≠ p := fun x hx e => hdis hx (by simp [e])
  have hXb : ∀ x ∈ X, x ≠ b := fun x hx e => hdis hx (by simp [e])
  have hYa : ∀ x ∈ Y, x ≠ a := fun x hx e => haY (e ▸ hx)
  have hYp : ∀ x ∈ Y, x ≠ p := fun x hx e => hpY (e ▸ hx)
  have hYb : ∀ x ∈ Y, x ≠ b := fun x hx e => hbY (e ▸ hx)
  refine ⟨Linked_frame hL1 ?_ ?_, ?_⟩
  · intro x hx
    simp only [List.dropLast_concat] at hx
    rw [hn x (hXp x hx), if_neg (hXa x hx)]
  · intro y hy
    have hy2 := List.mem_of_mem_tail hy
    rcases List.mem_append.mp hy2 with hy3 | hy3
    · rw [hp y (hXp y hy3), if_neg (hXb y hy3)]
    · simp at hy3; subst hy3
      rw [hp y hap, if_neg hab]
  · rw [Linked_cons_cons]
    refine ⟨⟨?_, ?_⟩, Linked_frame hL2.2.2 ?_ ?_⟩
    · rw [hn a hap, if_pos rfl]
    · rw [hp b (Ne.symm hpb), if_pos rfl]
    · intro x hx
      have hx2 := List.mem_of_mem_dropLast hx
      rcases List.mem_cons.mp hx2 with rfl | hx3
      · rw [hn x (Ne.symm hpb), if_neg (Ne.symm hab)]
      · rw [hn x (hYp x hx3), if_neg (hYa x hx3)]
    · intro y hy
      simp only [List.tail_cons] at hy
      rw [hp y (hYp y hy), if_neg (hYb y hy)]

end LinkedLemmas

section Splice
variable {α : Type}

theorem WF_iff (l : DList) (h : Heap α) (ps : List Nat) :
    WF l h ps ↔ ∃ hd tl, l.head = some hd ∧ l.tail = some tl ∧
      Linked h (hd :: ps ++ [tl]) ∧ (hd :: ps ++ [tl]).Nodup ∧
      l.len = ps.length ∧ ps.length < SIZE_RANGE := by
  unfold WF
  constructor
  · intro hw
    split at hw
    · rename_i hd tl e1 e2
      exact ⟨hd, tl, e1, e2, hw⟩
    · exact hw.elim
  · rintro ⟨hd, tl, e1, e2, hw⟩
    simp only [e1, e2]
    exact hw

theorem nodup_insert {X Y : List Nat} {a b A : Nat} (hnd : (X ++ a :: b :: Y).Nodup)
    (hA : A ∉ X ++ a :: b :: Y) : (X ++ a :: A :: b :: Y).Nodup := by
  have e : X ++ a :: A :: b :: Y = (X ++ [a]) ++ A :: (b :: Y) := by simp
  rw [e, List.nodup_middle, List.nodup_cons]
  exact ⟨by simpa using hA, by simpa using hnd⟩

theorem nodup_remove {X Y : List Nat} {a b p : Nat} (hnd : (X ++ a :: p :: b :: Y).Nodup) :
    (X ++ a :: b :: Y).Nodup := by
  have e : X ++ a :: p :: b :: Y = (X ++ [a]) ++ p :: (b :: Y) := by simp
  rw [e, List.nodup_middle, List.nodup_cons] at hnd
  simpa using hnd.2

@[simp] theorem pure_eq_ok {ε ρ : Type} (x : ρ) : (pure x : Except ε ρ) = Except.ok x := rfl

@[simp] theorem throw_eq_error {ε ρ : Type} (e : ε) :
    (throw e : Except ε ρ) = Except.error e := rfl

@[simp] theorem error_bind {ε ρ τ : Type} (e : ε) (f : ρ → Except ε τ) :
    (Except.error e >>= f) = Except.error e := rfl

@[simp] theorem ok_bind {ε ρ τ : Type} (x : ρ) (f : ρ → Except ε τ) :
    (Except.ok x >>= f) = f x := rfl

/-- What `PushFront(node)` computes when `head` and its successor exist. -/
theorem PushFrontNode_eq {l : DList} {h : Heap α} {hd f A : Nat}
    (hhead : l.head = some hd) (hA : A < h.length) (hnext : nextOf h hd = some f)
    (hf : f < h.length) :
    PushFrontNode l (some A) h = .ok ({ l with len := (l.len + 1) % SIZE_RANGE },
      updNext (updPrev (updNext (updPrev h A (some hd)) A (some f)) f (some A)) hd (some A)) := by
  have hhd : hd < h.length := lt_of_nextOf hnext
  simp [PushFrontNode, hhead, setPrev_some, getNext_some, setNext_some, hA, hhd, hf,
    nextOf_updNext, hnext]

/-- What `PushBack(node)` computes when `tail` and its predecessor exist. -/
theorem PushBackNode_eq {l : DList} {h : Heap α} {tl a A : Nat}
    (htail : l.tail = some tl) (hA : A < h.length) (hprev : prevOf h tl = some a)
    (ha : a < h.length) :
    PushBackNode l (some A) h = .ok ({ l with len := (l.len + 1) % SIZE_RANGE },
      updPrev (updNext (updNext (updPrev h A (some a)) A (some tl)) a (some A)) tl (some A)) := by
  have htl : tl < h.length := lt_of_prevOf hprev
  simp [PushBackNode, htail, setPrev_some, getPrev_some, setNext_some, hA, htl, ha,
    prevOf_updPrev, hprev]

/-- What `Remove(node)` computes when the node and both its neighbours exist. -/
theorem Remove_eq {l : DList} {h : Heap α} {p a b : Nat}
    (hprev : prevOf h p = some a) (hnext : nextOf h p = some b)
    (ha : a < h.length) (hb : b < h.length) :
    Remove l (some p) h = .ok ({ l with len := (l.len + SIZE_RANGE - 1) % SIZE_RANGE },
      updNext (updPrev (updPrev (updNext h a (some b)) b (some a)) p none) p none) := by
  have hp : p < h.length := lt_of_nextOf hnext
  simp [Remove, setPrev_some, getPrev_some, getNext_some, setNext_some, hp, ha, hb,
    prevOf_updPrev, nextOf_updNext, hprev, hnext]

/-- `PushFront(node)` on a well-formed list, for an allocated node that is
not one of the list's nodes. -/
theorem PushFrontNode_spec {l : DList} {h : Heap α} {ps : List Nat} {A : Nat}
    (hwf : WF l h ps) (hA : A < h.length) (hAh : l.head ≠ some A) (hAt : l.tail ≠ some A)
    (hAps : A ∉ ps) (hlen : ps.length + 1 < SIZE_RANGE) :
    ∃ h2, PushFrontNode l (some A) h = .ok ({ l with len := ps.length + 1 }, h2) ∧
      WF { l with len := ps.length + 1 } h2 (A :: ps) ∧
      h2.length = h.length ∧ (∀ x, dataOf h2 x = dataOf h x) ∧
      (∀ x, some x ≠ l.head → x ≠ A → nextOf h2 x = nextOf h x) ∧
      (∀ x, x ∉ ps → some x ≠ l.tail → x ≠ A → prevOf h2 x = prevOf h x) := by
  obtain ⟨hd, tl, e1, e2, hL, hnd, hlen1, hlen2⟩ := (WF_iff l h ps).mp hwf
  obtain ⟨f, Y, hfY⟩ : ∃ f Y, ps ++ [tl] = f :: Y := by
    cases ps with
    | nil => exact ⟨tl, [], rfl⟩
    | cons p ps => exact ⟨p, ps ++ [tl], rfl⟩
  have hc : hd :: ps ++ [tl] = [] ++ hd :: f :: Y := by simp [hfY]
  rw [hc] at hL hnd
  have hL0 := hL
  simp only [List.nil_append, Linked_cons_cons] at hL0
  have hflt : f < h.length := lt_of_prevOf hL0.1.2
  have hhdlt : hd < h.length := lt_of_nextOf hL0.1.1
  have hAc : A ∉ [] ++ hd :: f :: Y := by
    rw [← hc]
    simp only [List.cons_append, List.mem_cons, List.mem_append, List.not_mem_nil, or_false,
      not_or]
    exact ⟨fun e => hAh (by rw [e1, e]), hAps, fun e => hAt (by rw [e2, e])⟩
  refine ⟨updNext (updPrev (updNext (updPrev h A (some hd)) A (some f)) f (some A)) hd (some A),
    ?_, ?_, ?_, ?_, ?_, ?_⟩
  · rw [PushFrontNode_eq e1 hA hL0.1.1 hflt, hlen1, Nat.mod_eq_of_lt hlen]
  · rw [WF_iff]
    refine ⟨hd, tl, e1, e2, ?_, ?_, rfl, hlen⟩
    · have : hd :: (A :: ps) ++ [tl] = [] ++ hd :: A :: f :: Y := by simp [hfY]
      rw [this]
      refine Linked_insert hL hnd hAc ?_ ?_
      · intro x; simp [nextOf_updNext, hhdlt, hA]
      · intro x; simp [prevOf_updPrev, hflt, hA]
    · have : hd :: (A :: ps) ++ [tl] = hd :: A :: f :: Y := by simp [hfY]
      rw [this]
      simp only [List.nil_append, List.nodup_cons, List.mem_cons, not_or] at hnd hAc ⊢
      obtain ⟨⟨h1, h2⟩, h3, h4⟩ := hnd
      obtain ⟨h5, h6, h7⟩ := hAc
      exact ⟨⟨Ne.symm h5, h1, h2⟩, ⟨h6, h7⟩, h3, h4⟩
  · simp
  · intro x; simp
  · intro x hx1 hx2
    have : x ≠ hd := fun e => hx1 (by rw [e1, e])
    simp [nextOf_updNext, hhdlt, hA, this, hx2]
  · intro x hx1 hx2 hx3
    have : x ≠ f := by
      intro e
      have : x ∈ ps ++ [tl] := by rw [hfY, e]; simp
      rcases List.mem_append.mp this with hm | hm
      · exact hx1 hm
      · simp at hm; exact hx2 (by rw [e2, hm])
    simp [prevOf_updPrev, hflt, hA, this, hx3]

/-- `PushBack(node)` on a well-formed list, for an allocated node that is
not one of the list's nodes. -/
theorem PushBackNode_spec {l : DList} {h : Heap α} {ps : List Nat} {A : Nat}
    (hwf : WF l h ps) (hA : A < h.length) (hAh : l.head ≠ some A) (hAt : l.tail ≠ some A)
    (hAps : A ∉ ps) (hlen : ps.length + 1 < SIZE_RANGE) :
    ∃ h2, PushBackNode l (some A) h = .ok ({ l with len := ps.length + 1 }, h2) ∧
      WF { l with len := ps.length + 1 } h2 (ps ++ [A]) ∧
      h2.length = h.length ∧ (∀ x, dataOf h2 x = dataOf h x) ∧
      (∀ x, x ∉ ps → some x ≠ l.head → x ≠ A → nextOf h2 x = nextOf h x) ∧
      (∀ x, some x ≠ l.tail → x ≠ A → prevOf h2 x = prevOf h x) := by
  obtain ⟨hd, tl, e1, e2, hL, hnd, hlen1, hlen2⟩ := (WF_iff l h ps).mp hwf
  obtain ⟨X, a, hXa⟩ : ∃ X a, hd :: ps = X ++ [a] := by
    rcases List.eq_nil_or_concat ps with hp | ⟨L, b, hp⟩
    · exact ⟨[], hd, by simp [hp]⟩
    · exact ⟨hd :: L, b, by simp [hp]⟩
  have hc : hd :: ps ++ [tl] = X ++ a :: tl :: [] := by
    rw [hXa]; simp
  have hAc : A ∉ X ++ a :: tl :: [] := by
    rw [← hc]
    simp only [List.cons_append, List.mem_cons, List.mem_append, List.not_mem_nil, or_false,
      not_or]
    exact ⟨fun e => hAh (by rw [e1, e]), hAps, fun e => hAt (by rw [e2, e])⟩
  rw [hc] at hL hnd
  have hL0 := (Linked_split h X a [tl]).mp hL
  rw [Linked_cons_cons] at hL0
  have halt : a < h.length := lt_of_nextOf hL0.2.1.1
  have htllt : tl < h.length := lt_of_prevOf hL0.2.1.2
  have hc2 : hd :: (ps ++ [A]) ++ [tl] = X ++ a :: A :: tl :: [] := by
    show ((hd :: ps) ++ [A]) ++ [tl] = _
    rw [hXa]; simp
  refine ⟨updPrev (updNext (updNext (updPrev h A (some a)) A (some tl)) a (some A)) tl (some A),
    ?_, ?_, ?_, ?_, ?_, ?_⟩
  · rw [PushBackNode_eq e2 hA hL0.2.1.2 halt, hlen1, Nat.mod_eq_of_lt hlen]
  · rw [WF_iff]
    refine ⟨hd, tl, e1, e2, ?_, ?_, by simp, by simpa using hlen⟩
    · rw [hc2]
      refine Linked_insert hL hnd hAc ?_ ?_
      · intro x; simp [nextOf_updNext, halt, hA]
      · intro x; simp [prevOf_updPrev, htllt, hA]
    · rw [hc2]
      exact nodup_insert hnd hAc
  · simp
  · intro x; simp
  · intro x hx1 hx2 hx3
    have : x ≠ a := by
      intro e
      have : x ∈ hd :: ps := by rw [hXa, e]; simp
      rcases List.mem_cons.mp this with hm | hm
      · exact hx2 (by rw [e1, hm])
      · exact hx1 hm
    simp [nextOf_updNext, halt, hA, this, hx3]
  · intro x hx1 hx2
    have : x ≠ tl := fun e => hx1 (by rw [e2, e])
    simp [prevOf_updPrev, htllt, hA, this, hx2]

/-- `Remove(node)` on a well-formed list, for the user node `p` of the list
that comes after the user nodes `pre` and before the user nodes `post`. -/
theorem Remove_spec {l : DList} {h : Heap α} {pre post : List Nat} {p : Nat}
    (hwf : WF l h (pre ++ p :: post)) :
    ∃ h2, Remove l (some p) h = .ok ({ l with len := pre.length + post.length }, h2) ∧
      WF { l with len := pre.length + post.length } h2 (pre ++ post) ∧
      h2.length = h.length ∧ (∀ x, dataOf h2 x = dataOf h x) ∧
      nextOf h2 p = none ∧ prevOf h2 p = none ∧
      (∀ x, x ≠ p → prevOf h p ≠ some x → nextOf h2 x = nextOf h x) ∧
      (∀ x, x ≠ p → nextOf h p ≠ some x → prevOf h2 x = prevOf h x) := by
  obtain ⟨hd, tl, e1, e2, hL, hnd, hlen1, hlen2⟩ := (WF_iff l h _).mp hwf
  obtain ⟨X, a, hXa⟩ : ∃ X a, hd :: pre = X ++ [a] := by
    rcases List.eq_nil_or_concat pre with hp | ⟨L, b, hp⟩
    · exact ⟨[], hd, by simp [hp]⟩
    · exact ⟨hd :: L, b, by simp [hp]⟩
  obtain ⟨b, Y, hbY⟩ : ∃ b Y, post ++ [tl] = b :: Y := by
    cases post with
    | nil => exact ⟨tl, [], rfl⟩
    | cons q qs => exact ⟨q, qs ++ [tl], rfl⟩
  have hc : hd :: (pre ++ p :: post) ++ [tl] = X ++ a :: p :: b :: Y := by
    have : hd :: (pre ++ p :: post) ++ [tl] = (hd :: pre) ++ p :: (post ++ [tl]) := by simp
    rw [this, hXa, hbY]; simp
  have hc2 : hd :: (pre ++ post) ++ [tl] = X ++ a :: b :: Y := by
    have : hd :: (pre ++ post) ++ [tl] = (hd :: pre) ++ (post ++ [tl]) := by simp
    rw [this, hXa, hbY]; simp
  rw [hc] at hL hnd
  have hL0 := (Linked_split h X a (p :: b :: Y)).mp hL
  rw [Linked_cons_cons, Linked_cons_cons] at hL0
  obtain ⟨-, ⟨hap1, hap2⟩, ⟨hpb1, hpb2⟩, -⟩ := hL0
  have halt : a < h.length := lt_of_nextOf hap1
  have hplt : p < h.length := lt_of_nextOf hpb1
  have hblt : b < h.length := lt_of_prevOf hpb2
  have hlenval : (l.len + SIZE_RANGE - 1) % SIZE_RANGE = pre.length + post.length := by
    rw [hlen1]
    simp only [List.length_append, List.length_cons, SIZE_RANGE] at hlen2 ⊢
    omega
  refine ⟨updNext (updPrev (updPrev (updNext h a (some b)) b (some a)) p none) p none,
    ?_, ?_, ?_, ?_, ?_, ?_, ?_, ?_⟩
  · rw [Remove_eq hap2 hpb1 halt hblt, hlenval]
  · rw [WF_iff]
    refine ⟨hd, tl, e1, e2, ?_, ?_, by simp, ?_⟩
    · rw [hc2]
      refine Linked_remove hL hnd ?_ ?_
      · intro x hx; simp [nextOf_updNext, halt, hplt, hx]
      · intro x hx; simp [prevOf_updPrev, hblt, hplt, hx]
    · rw [hc2]
      exact nodup_remove hnd
    · simp only [List.length_append, List.length_cons] at hlen2 ⊢
      omega
  · simp
  · intro x; simp
  · simp [nextOf_updNext, hplt]
  · simp [prevOf_updPrev, hplt]
  · intro x hx1 hx2
    have : x ≠ a := fun e => hx2 (by rw [hap2, e])
    simp [nextOf_updNext, halt, hplt, hx1, this]
  · intro x hx1 hx2
    have : x ≠ b := fun e => hx2 (by rw [hpb1, e])
    simp [prevOf_updPrev, hblt, hplt, hx1, this]

end Splice

section Contents
variable {α : Type}

theorem Holds_nil (h : Heap α) (xs : List α) : Holds h [] xs ↔ xs = [] := by
  unfold Holds
  cases xs <;> simp

theorem Holds_cons (h : Heap α) (p : Nat) (ps : List Nat) (xs : List α) :
    Holds h (p :: ps) xs ↔ ∃ x xs2, xs = x :: xs2 ∧ dataOf h p = some x ∧ Holds h ps xs2 := by
  unfold Holds
  cases xs with
  | nil => simp
  | cons x xs =>
    simp only [List.map_cons, List.cons.injEq]
    constructor
    · rintro ⟨a, b⟩; exact ⟨x, xs, ⟨rfl, rfl⟩, a, b⟩
    · rintro ⟨_, _, ⟨rfl, rfl⟩, a, b⟩; exact ⟨a, b⟩

theorem Holds_length {h : Heap α} {ps : List Nat} {xs : List α} (hh : Holds h ps xs) :
    ps.length = xs.length := by
  have := congrArg List.length hh
  simpa using this

theorem Holds_append {h : Heap α} {ps qs : List Nat} {xs ys : List α}
    (h1 : Holds h ps xs) (h2 : Holds h qs ys) : Holds h (ps ++ qs) (xs ++ ys) := by
  unfold Holds at *
  simp [h1, h2]

theorem Holds_congr {h h2 : Heap α} {ps : List Nat} {xs : List α}
    (hd : ∀ p ∈ ps, dataOf h2 p = dataOf h p) (hh : Holds h ps xs) : Holds h2 ps xs := by
  unfold Holds at *
  rw [← hh]
  exact List.map_congr_left hd

theorem Holds_unique {h : Heap α} {ps : List Nat} {xs ys : List α}
    (h1 : Holds h ps xs) (h2 : Holds h ps ys) : xs = ys := by
  unfold Holds at *
  rw [h1] at h2
  exact List.map_injective_iff.mpr (Option.some_injective α) h2

/-- Splitting the contents along a split of the node sequence. -/
theorem Holds_split {h : Heap α} {ps qs : List Nat} {xs : List α}
    (hh : Holds h (ps ++ qs) xs) :
    Holds h ps (xs.take ps.length) ∧ Holds h qs (xs.drop ps.length) := by
  unfold Holds at *
  rw [List.map_append] at hh
  have hl : (ps.map (dataOf h)).length = ps.length := by simp
  constructor
  · rw [List.map_take, ← hh, ← hl, List.take_left]
  · rw [List.map_drop, ← hh, ← hl, List.drop_left]

/-- The nodes of a well-formed list are allocated. -/
theorem WF_lt {l : DList} {h : Heap α} {ps : List Nat} (hwf : WF l h ps) :
    (∀ p ∈ ps, p < h.length) ∧ (∀ a, l.head = some a → a < h.length) ∧
      (∀ a, l.tail = some a → a < h.length) := by
  obtain ⟨hd, tl, e1, e2, hL, -, -, -⟩ := (WF_iff l h ps).mp hwf
  have hall := Linked_lt hL (by simp)
  refine ⟨fun p hp => hall p (by simp [hp]), fun a ha => hall a ?_, fun a ha => hall a ?_⟩
  · rw [e1] at ha; cases ha; simp
  · rw [e2] at ha; cases ha; simp

/-- A well-formed list has contents. -/
theorem WF_contents {l : DList} {h : Heap α} {ps : List Nat} (hwf : WF l h ps) :
    ∃ xs, Holds h ps xs := by
  have hlt := (WF_lt hwf).1
  clear hwf
  induction ps with
  | nil => exact ⟨[], rfl⟩
  | cons p ps ih =>
    obtain ⟨xs, hxs⟩ := ih (fun q hq => hlt q (by simp [hq]))
    obtain ⟨d, hd⟩ := dataOf_isSome (hlt p (by simp))
    exact ⟨d :: xs, (Holds_cons h p ps _).mpr ⟨d, xs, rfl, hd, hxs⟩⟩

/-- Allocation does not disturb a well-formed list. -/
theorem WF_alloc {l : DList} {h : Heap α} {ps : List Nat} (hwf : WF l h ps) (n : Node α) :
    WF l (h ++ [n]) ps := by
  obtain ⟨hd, tl, e1, e2, hL, hnd, hl1, hl2⟩ := (WF_iff l h ps).mp hwf
  have hall := Linked_lt hL (by simp)
  rw [WF_iff]
  refine ⟨hd, tl, e1, e2, Linked_frame_all hL ?_ ?_, hnd, hl1, hl2⟩
  · intro x hx
    rw [nextOf_alloc, if_neg (Nat.ne_of_lt (hall x hx))]
  · intro x hx
    rw [prevOf_alloc, if_neg (Nat.ne_of_lt (hall x hx))]

theorem dataOf_alloc_lt {h : Heap α} (n : Node α) {a : Nat} (ha : a < h.length) :
    dataOf (h ++ [n]) a = dataOf h a := by
  rw [dataOf_alloc, if_neg (Nat.ne_of_lt ha)]

/-- The traversal loop of `Print` walks a linked stretch of nodes up to `tail`
and yields their values. -/
theorem Print_loop_spec {h : Heap α} {tl : Nat} :
    ∀ (ps : List Nat) (xs : List α) (a : Nat) (fuel : Nat),
      Linked h (a :: ps ++ [tl]) → tl ∉ ps → Holds h ps xs → ps.length < fuel →
      Print.loop (some tl) h fuel (nextOf h a) = .ok xs := by
  intro ps
  induction ps with
  | nil =>
    intro xs a fuel hL _ hh hf
    obtain ⟨k, rfl⟩ : ∃ k, fuel = k + 1 := ⟨fuel - 1, by simp at hf; omega⟩
    simp only [List.cons_append, List.nil_append, Linked_cons_cons] at hL
    rw [(Holds_nil h xs).mp hh, hL.1.1]
    simp [Print.loop]
  | cons p ps ih =>
    intro xs a fuel hL htl hh hf
    obtain ⟨k, rfl⟩ : ∃ k, fuel = k + 1 := ⟨fuel - 1, by simp at hf; omega⟩
    obtain ⟨x, xs2, rfl, hx, hh2⟩ := (Holds_cons h p ps xs).mp hh
    simp only [List.cons_append, Linked_cons_cons] at hL
    have hL2 : Linked h (p :: ps ++ [tl]) := hL.2
    have hp : p ≠ tl := fun e => htl (by simp [e])
    have hplt : p < h.length := lt_of_prevOf hL.1.2
    have hrec := ih xs2 p k hL2 (fun e => htl (by simp [e])) hh2 (by simp at hf; omega)
    rw [hL.1.1]
    simp [Print.loop, hp, getData_some hx, getNext_some hplt, hrec]

/-- Traversing a well-formed list yields its contents. -/
theorem Print_spec {l : DList} {h : Heap α} {ps : List Nat} {xs : List α}
    (hwf : WF l h ps) (hh : Holds h ps xs) {fuel : Nat} (hf : xs.length < fuel) :
    Print fuel l h = .ok xs := by
  obtain ⟨hd, tl, e1, e2, hL, hnd, -, -⟩ := (WF_iff l h ps).mp hwf
  have hhd : hd < h.length := (WF_lt hwf).2.1 hd e1
  have htl : tl ∉ ps := by
    intro hm
    have : (ps ++ [tl]).Nodup := (List.nodup_cons.mp hnd).2
    rw [List.nodup_append] at this
    exact this.2.2 hm (by simp)
  have := Print_loop_spec ps xs hd fuel hL htl hh (by rw [Holds_length hh]; exact hf)
  simp [Print, e1, e2, getNext_some hhd, this]

end Contents

section Build
variable {α : Type}

/-- `List()` builds an empty well-formed list out of two fresh nodes and leaves
every existing cell alone. -/
theorem List_default_spec [Inhabited α] (h : Heap α) :
    ∃ h2, List_default h =
        .ok ({ head := some h.length, tail := some (h.length + 1), len := 0 }, h2) ∧
      WF { head := some h.length, tail := some (h.length + 1), len := 0 } h2 [] ∧
      h2.length = h.length + 2 ∧
      (∀ a, a < h.length →
        nextOf h2 a = nextOf h a ∧ prevOf h2 a = prevOf h a ∧ dataOf h2 a = dataOf h a) := by
  let d : Node α := { data := default, prev := none, next := none }
  have h1 : h.length < ((h ++ [d]) ++ [d]).length := by simp
  have h2 : h.length + 1 < ((h ++ [d]) ++ [d]).length := by simp
  refine ⟨updPrev (updNext ((h ++ [d]) ++ [d]) h.length (some (h.length + 1)))
    (h.length + 1) (some h.length), ?_, ?_, ?_, ?_⟩
  · simp only [List_default, make_shared, List.length_append, List.length_singleton]
    rw [setNext_some h1, ok_bind, setPrev_some (by simp)]
    rfl
  · rw [WF_iff]
    refine ⟨h.length, h.length + 1, rfl, rfl, ?_, by simp, rfl, by simp [SIZE_RANGE]⟩
    simp only [List.cons_append, List.nil_append, Linked_cons_cons]
    refine ⟨⟨?_, ?_⟩, trivial⟩
    · simp [nextOf_updNext, h1]
    · simp [prevOf_updPrev, h2]
  · simp
  · intro a ha
    have e1 : a ≠ h.length := Nat.ne_of_lt ha
    have e2 : a ≠ h.length + 1 := by omega
    have e3 : a < (h ++ [d]).length := by simp; omega
    have e4 : a ≠ (h ++ [d]).length := Nat.ne_of_lt e3
    refine ⟨?_, ?_, ?_⟩
    · rw [nextOf_updPrev, nextOf_updNext h1, if_neg e1, nextOf_alloc, if_neg e4, nextOf_alloc,
        if_neg e1]
    · rw [prevOf_updPrev (by simp), if_neg e2, prevOf_updNext, prevOf_alloc,
        if_neg e4, prevOf_alloc, if_neg e1]
    · rw [dataOf_updPrev, dataOf_updNext, dataOf_alloc, if_neg e4, dataOf_alloc, if_neg e1]

/-- `PushFront(value)` on a well-formed list. -/
theorem PushFront_spec {l : DList} {h : Heap α} {ps : List Nat} {xs : List α} (v : α)
    (hwf : WF l h ps) (hh : Holds h ps xs) (hlen : ps.length + 1 < SIZE_RANGE) :
    ∃ h2, PushFront l v h = .ok ({ l with len := ps.length + 1 }, h2) ∧
      WF { l with len := ps.length + 1 } h2 (h.length :: ps) ∧
      Holds h2 (h.length :: ps) (v :: xs) ∧ h2.length = h.length + 1 ∧
      (∀ a, a < h.length → dataOf h2 a = dataOf h a) ∧
      (∀ a, a < h.length → some a ≠ l.head → nextOf h2 a = nextOf h a) ∧
      (∀ a, a < h.length → a ∉ ps → some a ≠ l.tail → prevOf h2 a = prevOf h a) := by
  let n : Node α := { data := v, prev := none, next := none }
  obtain ⟨hps, hhd, htl⟩ := WF_lt hwf
  have hA : h.length < (h ++ [n]).length := by simp
  have hAh : l.head ≠ some h.length := fun e => Nat.lt_irrefl _ (hhd _ e)
  have hAt : l.tail ≠ some h.length := fun e => Nat.lt_irrefl _ (htl _ e)
  have hAps : h.length ∉ ps := fun e => Nat.lt_irrefl _ (hps _ e)
  obtain ⟨h2, hrun, hwf2, hl2, hd2, hn2, hp2⟩ :=
    PushFrontNode_spec (WF_alloc hwf n) hA hAh hAt hAps hlen
  refine ⟨h2, hrun, hwf2, ?_, by simp [hl2], ?_, ?_, ?_⟩
  · rw [Holds_cons]
    refine ⟨v, xs, rfl, ?_, Holds_congr ?_ hh⟩
    · rw [hd2, dataOf_alloc, if_pos rfl]
    · intro p hp
      rw [hd2, dataOf_alloc_lt n (hps p hp)]
  · intro a ha
    rw [hd2, dataOf_alloc_lt n ha]
  · intro a ha hah
    rw [hn2 a hah (Nat.ne_of_lt ha), nextOf_alloc, if_neg (Nat.ne_of_lt ha)]
  · intro a ha hap hat
    rw [hp2 a hap hat (Nat.ne_of_lt ha), prevOf_alloc, if_neg (Nat.ne_of_lt ha)]

/-- `PushBack(value)` on a well-formed list. -/
theorem PushBack_spec {l : DList} {h : Heap α} {ps : List Nat} {xs : List α} (v : α)
    (hwf : WF l h ps) (hh : Holds h ps xs) (hlen : ps.length + 1 < SIZE_RANGE) :
    ∃ h2, PushBack l v h = .ok ({ l with len := ps.length + 1 }, h2) ∧
      WF { l with len := ps.length + 1 } h2 (ps ++ [h.length]) ∧
      Holds h2 (ps ++ [h.length]) (xs ++ [v]) ∧ h2.length = h.length + 1 ∧
      (∀ a, a < h.length → dataOf h2 a = dataOf h a) ∧
      (∀ a, a < h.length → a ∉ ps → some a ≠ l.head → nextOf h2 a = nextOf h a) ∧
      (∀ a, a < h.length → some a ≠ l.tail → prevOf h2 a = prevOf h a) := by
  let n : Node α := { data := v, prev := none, next := none }
  obtain ⟨hps, hhd, htl⟩ := WF_lt hwf
  have hA : h.length < (h ++ [n]).length := by simp
  have hAh : l.head ≠ some h.length := fun e => Nat.lt_irrefl _ (hhd _ e)
  have hAt : l.tail ≠ some h.length := fun e => Nat.lt_irrefl _ (htl _ e)
  have hAps : h.length ∉ ps := fun e => Nat.lt_irrefl _ (hps _ e)
  obtain ⟨h2, hrun, hwf2, hl2, hd2, hn2, hp2⟩ :=
    PushBackNode_spec (WF_alloc hwf n) hA hAh hAt hAps hlen
  refine ⟨h2, hrun, hwf2, ?_, by simp [hl2], ?_, ?_, ?_⟩
  · refine Holds_append (Holds_congr ?_ hh) ?_
    · intro p hp
      rw [hd2, dataOf_alloc_lt n (hps p hp)]
    · rw [Holds_cons]
      exact ⟨v, [], rfl, by rw [hd2, dataOf_alloc, if_pos rfl], rfl⟩
  · intro a ha
    rw [hd2, dataOf_alloc_lt n ha]
  · intro a ha hap hah
    rw [hn2 a hap hah (Nat.ne_of_lt ha), nextOf_alloc, if_neg (Nat.ne_of_lt ha)]
  · intro a ha hat
    rw [hp2 a hat (Nat.ne_of_lt ha), prevOf_alloc, if_neg (Nat.ne_of_lt ha)]

/-- `PushBack(items)` on a well-formed list: one fresh node per item, appended
in order. -/
theorem PushBackItems_spec (items : List α) :
    ∀ {l : DList} {h : Heap α} {ps : List Nat} {xs : List α},
      WF l h ps → Holds h ps xs → ps.length + items.length < SIZE_RANGE →
      ∃ h2, PushBackItems l items h = .ok ({ l with len := ps.length + items.length }, h2) ∧
        WF { l with len := ps.length + items.length } h2
          (ps ++ List.range' h.length items.length) ∧
        Holds h2 (ps ++ List.range' h.length items.length) (xs ++ items) ∧
        h2.length = h.length + items.length ∧
        (∀ a, a < h.length → dataOf h2 a = dataOf h a) := by
  induction items with
  | nil =>
    intro l h ps xs hwf hh hlen
    obtain ⟨hd, tl, e1, e2, hL, hnd, hl1, hl2⟩ := (WF_iff l h ps).mp hwf
    have el : ({ l with len := ps.length + ([] : List α).length } : DList) = l := by
      cases l; simp at hl1 ⊢; exact hl1.symm
    refine ⟨h, ?_, ?_, ?_, by simp, fun a _ => rfl⟩
    · rw [el]; rfl
    · rw [el]; simpa using hwf
    · simpa using hh
  | cons v items ih =>
    intro l h ps xs hwf hh hlen
    simp only [List.length_cons] at hlen
    obtain ⟨h1, hrun1, hwf1, hh1, hl1, hd1, -, -⟩ :=
      PushBack_spec v hwf hh (by omega)
    obtain ⟨h2, hrun2, hwf2, hh2, hl2, hd2⟩ :=
      ih hwf1 hh1 (by simp only [List.length_append, List.length_singleton]; omega)
    have hlen3 : (ps ++ [h.length]).length + items.length = ps.length + (items.length + 1) := by
      simp only [List.length_append, List.length_singleton]; omega
    have hps3 : ps ++ [h.length] ++ List.range' h1.length items.length =
        ps ++ List.range' h.length (items.length + 1) := by
      rw [hl1, List.range'_succ]; simp
    simp only [hlen3, hps3, List.append_assoc, List.singleton_append] at hrun2 hwf2 hh2
    refine ⟨h2, ?_, hwf2, hh2, by rw [hl2, hl1, List.length_cons]; omega, ?_⟩
    · simp only [PushBackItems, hrun1, ok_bind, List.length_cons]
      exact hrun2
    · intro a ha
      rw [hd2 a (by rw [hl1]; omega), hd1 a ha]

end Build

section Access
variable {α : Type}

/-- `Front()` on a non-empty well-formed list returns the first user node. -/
theorem Front_spec {l : DList} {h : Heap α} {p : Nat} {ps : List Nat}
    (hwf : WF l h (p :: ps)) : Front l h = .ok (some p, l, h) := by
  obtain ⟨hd, tl, e1, e2, hL, hnd, -, -⟩ := (WF_iff l h _).mp hwf
  simp only [List.cons_append, Linked_cons_cons] at hL
  have hhd : hd < h.length := lt_of_nextOf hL.1.1
  have hne : p ≠ tl := by
    intro e
    simp [e] at hnd
  simp [Front, e1, e2, getNext_some hhd, hL.1.1, hne]

/-- `Back()` on a non-empty well-formed list returns the last user node. -/
theorem Back_spec {l : DList} {h : Heap α} {p : Nat} {ps : List Nat}
    (hwf : WF l h (ps ++ [p])) : Back l h = .ok (some p, l, h) := by
  obtain ⟨hd, tl, e1, e2, hL, hnd, -, -⟩ := (WF_iff l h _).mp hwf
  have hc : hd :: (ps ++ [p]) ++ [tl] = (hd :: ps) ++ p :: [tl] := by simp
  rw [hc] at hL
  have hL2 := ((Linked_split h (hd :: ps) p [tl]).mp hL).2
  rw [Linked_cons_cons] at hL2
  have htl : tl < h.length := lt_of_prevOf hL2.1.2
  obtain ⟨f, Y, hfY⟩ : ∃ f Y, ps ++ [p] = f :: Y := by
    cases ps with
    | nil => exact ⟨p, [], rfl⟩
    | cons q qs => exact ⟨q, qs ++ [p], rfl⟩
  have hwf2 := hwf
  rw [hfY] at hwf2
  have hfront := Front_spec hwf2
  obtain ⟨hd2, tl2, e3, e4, hL3, hnd3, -, -⟩ := (WF_iff l h _).mp hwf2
  simp only [List.cons_append, Linked_cons_cons] at hL3
  have hhd : hd2 < h.length := lt_of_nextOf hL3.1.1
  have hne : f ≠ tl2 := by
    intro e
    simp [e] at hnd3
  have e5 : tl2 = tl := by rw [e2] at e4; exact (Option.some.inj e4).symm
  subst e5
  simp [Back, e3, e2, getNext_some hhd, hL3.1.1, hne, getPrev_some htl, hL2.1.2]

/-- On an empty well-formed list `Front()` and `Back()` raise the empty-list
error. -/
theorem Front_Back_nil {l : DList} {h : Heap α} (hwf : WF l h []) :
    Front l h = .error (.listIsEmpty l h) ∧ Back l h = .error (.listIsEmpty l h) := by
  obtain ⟨hd, tl, e1, e2, hL, hnd, -, -⟩ := (WF_iff l h _).mp hwf
  simp only [List.cons_append, List.nil_append, Linked_cons_cons] at hL
  have hhd : hd < h.length := lt_of_nextOf hL.1.1
  constructor
  · simp [Front, e1, e2, getNext_some hhd, hL.1.1]
  · simp [Back, e1, e2, getNext_some hhd, hL.1.1]

end Access

section Positions
variable {α : Type}

theorem eq_nil_or_snoc {β : Type} (l : List β) : l = [] ∨ ∃ L b, l = L ++ [b] := by
  rcases List.eq_nil_or_concat l with e | ⟨L, b, e⟩
  · exact Or.inl e
  · exact Or.inr ⟨L, b, by rw [e, List.concat_eq_append]⟩

theorem map_eraseIdx {β γ : Type} (f : β → γ) :
    ∀ (l : List β) (i : Nat), (l.eraseIdx i).map f = (l.map f).eraseIdx i
  | [], _ => rfl
  | _ :: _, 0 => rfl
  | b :: l, i + 1 => by
    simp only [List.eraseIdx_cons_succ, List.map_cons, map_eraseIdx f l i]

theorem split_at {β : Type} {l : List β} {i : Nat} {a : β} (e : l[i]? = some a) :
    l = l.take i ++ a :: l.drop (i + 1) := by
  obtain ⟨hi, rfl⟩ := List.getElem?_eq_some.mp e
  rw [← List.drop_eq_getElem_cons hi, List.take_append_drop]

theorem Holds_eraseIdx {h : Heap α} {ps : List Nat} {xs : List α} (hh : Holds h ps xs)
    (i : Nat) : Holds h (ps.eraseIdx i) (xs.eraseIdx i) := by
  unfold Holds at *
  rw [map_eraseIdx, map_eraseIdx, hh]

/-- The node at position `i` holds the value at position `i`. -/
theorem Holds_at {h : Heap α} {ps : List Nat} {xs : List α} (hh : Holds h ps xs)
    {i p : Nat} (e : ps[i]? = some p) : ∃ x, xs[i]? = some x ∧ dataOf h p = some x := by
  unfold Holds at hh
  have e2 : (ps.map (dataOf h))[i]? = (xs.map some)[i]? := by rw [hh]
  rw [List.getElem?_map, List.getElem?_map, e] at e2
  cases hx : xs[i]? with
  | none => rw [hx] at e2; simp at e2
  | some x =>
    rw [hx] at e2
    simp only [Option.map_some'] at e2
    exact ⟨x, rfl, Option.some.inj e2⟩

theorem PushBackItems_eq_foldlM (items : List α) :
    ∀ (l : DList) (h : Heap α),
      PushBackItems l items h = items.foldlM (fun s v => PushBack s.1 v s.2) (l, h) := by
  induction items with
  | nil => intro l h; rfl
  | cons v items ih =>
    intro l h
    simp only [PushBackItems, List.foldlM_cons]
    cases hr : PushBack l v h with
    | error e => rfl
    | ok r =>
      obtain ⟨l1, h1⟩ := r
      simp only [ok_bind]
      exact ih l1 h1

/-- `Remove` of the user node at position `i` of a well-formed list. -/
theorem Remove_at {l : DList} {h : Heap α} {ps : List Nat} {i p : Nat}
    (hwf : WF l h ps) (hp : ps[i]? = some p) :
    ∃ h2, Remove l (some p) h = .ok ({ l with len := ps.length - 1 }, h2) ∧
      WF { l with len := ps.length - 1 } h2 (ps.eraseIdx i) ∧
      h2.length = h.length ∧ (∀ x, dataOf h2 x = dataOf h x) ∧
      nextOf h2 p = none ∧ prevOf h2 p = none ∧
      (∀ x, x ≠ p → prevOf h p ≠ some x → nextOf h2 x = nextOf h x) ∧
      (∀ x, x ≠ p → nextOf h p ≠ some x → prevOf h2 x = prevOf h x) := by
  have hs := split_at hp
  have hi : i < ps.length := (List.getElem?_eq_some.mp hp).1
  have hl : (ps.take i).length + (ps.drop (i + 1)).length = ps.length - 1 := by
    simp only [List.length_take, List.length_drop]; omega
  rw [hs] at hwf
  obtain ⟨h2, hrun, hwf2, hrest⟩ := Remove_spec hwf
  rw [hl] at hrun hwf2
  rw [← List.eraseIdx_eq_take_drop_succ] at hwf2
  exact ⟨h2, hrun, hwf2, hrest⟩

end Positions

section Scan
variable {α : Type} [DecidableEq α]

/-- The loop of `Search` stops at the first node whose value equals the
target. -/
theorem Search_loop_found {h : Heap α} {tl : Nat} (t : α) :
    ∀ (ps : List Nat) (xs : List α) (a fuel i p : Nat),
      Linked h (a :: ps ++ [tl]) → tl ∉ ps → Holds h ps xs → ps.length < fuel →
      xs[i]? = some t → (∀ j, j < i → xs[j]? ≠ some t) → ps[i]? = some p →
      Search.loop (some tl) t h fuel (nextOf h a) = .ok (some p) := by
  intro ps
  induction ps with
  | nil =>
    intro xs a fuel i p _ _ _ _ _ _ hp
    simp at hp
  | cons q ps ih =>
    intro xs a fuel i p hL htl hh hf hi hmin hp
    obtain ⟨k, rfl⟩ : ∃ k, fuel = k + 1 := ⟨fuel - 1, by simp at hf; omega⟩
    obtain ⟨x, xs2, rfl, hx, hh2⟩ := (Holds_cons h q ps xs).mp hh
    simp only [List.cons_append, Linked_cons_cons] at hL
    have hL2 : Linked h (q :: ps ++ [tl]) := hL.2
    have hq : q ≠ tl := fun e => htl (by simp [e])
    have hqlt : q < h.length := lt_of_prevOf hL.1.2
    rw [hL.1.1]
    cases i with
    | zero =>
      simp only [List.getElem?_cons_zero, Option.some.injEq] at hi hp
      subst hi hp
      simp [Search.loop, hq, getData_some hx]
    | succ i =>
      have hxt : x ≠ t := by
        intro e
        exact hmin 0 (Nat.succ_pos i) (by simp [e])
      simp only [List.getElem?_cons_succ] at hi hp
      have hrec := ih xs2 q k i p hL2 (fun e => htl (by simp [e])) hh2 (by simp at hf; omega)
        hi (fun j hj => by simpa using hmin (j + 1) (Nat.succ_lt_succ hj)) hp
      simp [Search.loop, hq, getData_some hx, hxt, getNext_some hqlt, hrec]

/-- The loop of `Search` runs to `tail` and returns null when no value equals
the target. -/
theorem Search_loop_absent {h : Heap α} {tl : Nat} (t : α) :
    ∀ (ps : List Nat) (xs : List α) (a fuel : Nat),
      Linked h (a :: ps ++ [tl]) → tl ∉ ps → Holds h ps xs → ps.length < fuel →
      t ∉ xs → Search.loop (some tl) t h fuel (nextOf h a) = .ok none := by
  intro ps
  induction ps with
  | nil =>
    intro xs a fuel hL _ _ hf _
    obtain ⟨k, rfl⟩ : ∃ k, fuel = k + 1 := ⟨fuel - 1, by simp at hf; omega⟩
    simp only [List.cons_append, List.nil_append, Linked_cons_cons] at hL
    rw [hL.1.1]
    simp [Search.loop]
  | cons q ps ih =>
    intro xs a fuel hL htl hh hf ht
    obtain ⟨k, rfl⟩ : ∃ k, fuel = k + 1 := ⟨fuel - 1, by simp at hf; omega⟩
    obtain ⟨x, xs2, rfl, hx, hh2⟩ := (Holds_cons h q ps xs).mp hh
    simp only [List.cons_append, Linked_cons_cons] at hL
    have hL2 : Linked h (q :: ps ++ [tl]) := hL.2
    have hq : q ≠ tl := fun e => htl (by simp [e])
    have hqlt : q < h.length := lt_of_prevOf hL.1.2
    have hxt : x ≠ t := fun e => ht (by simp [e])
    have hrec := ih xs2 q k hL2 (fun e => htl (by simp [e])) hh2 (by simp at hf; omega)
      (fun e => ht (by simp [e]))
    rw [hL.1.1]
    simp [Search.loop, hq, getData_some hx, hxt, getNext_some hqlt, hrec]

/-- The sentinels are not among the user nodes. -/
theorem WF_sentinels {β : Type} {l : DList} {h : Heap β} {ps : List Nat} (hwf : WF l h ps) :
    ∀ p ∈ ps, l.head ≠ some p ∧ l.tail ≠ some p := by
  obtain ⟨hd, tl, e1, e2, -, hnd, -, -⟩ := (WF_iff l h ps).mp hwf
  intro p hp
  simp only [List.cons_append, List.nodup_cons, List.mem_append, List.mem_singleton,
    not_or, List.nodup_append] at hnd
  refine ⟨?_, ?_⟩
  · rw [e1]; intro e; cases e; exact hnd.1.1 hp
  · rw [e2]; intro e; cases e
    exact hnd.2.2.2 hp (by simp)

/-- `Search` on a well-formed list, when the target first occurs at position
`i`. -/
theorem Search_found {l : DList} {h : Heap α} {ps : List Nat} {xs : List α} (t : α)
    {fuel i : Nat} (hwf : WF l h ps) (hh : Holds h ps xs) (hf : xs.length < fuel)
    (hi : xs[i]? = some t) (hmin : ∀ j, j < i → xs[j]? ≠ some t) :
    ∃ p, ps[i]? = some p ∧ Search fuel l t h = .ok (some p, l, h) := by
  obtain ⟨hd, tl, e1, e2, hL, hnd, -, -⟩ := (WF_iff l h ps).mp hwf
  have hhd : hd < h.length := (WF_lt hwf).2.1 hd e1
  have htl : tl ∉ ps := fun hm => (WF_sentinels hwf tl hm).2 e2
  have hlen := Holds_length hh
  have hilt : i < ps.length := by rw [hlen]; exact (List.getElem?_eq_some.mp hi).1
  refine ⟨ps[i], List.getElem?_eq_getElem hilt, ?_⟩
  have := Search_loop_found t ps xs hd fuel i ps[i] hL htl hh (by rw [hlen]; exact hf) hi hmin
    (List.getElem?_eq_getElem hilt)
  simp [Search, e1, e2, getNext_some hhd, this]

/-- `Search` on a well-formed list in which the target does not occur. -/
theorem Search_absent {l : DList} {h : Heap α} {ps : List Nat} {xs : List α} (t : α)
    {fuel : Nat} (hwf : WF l h ps) (hh : Holds h ps xs) (hf : xs.length < fuel)
    (ht : t ∉ xs) : Search fuel l t h = .ok (none, l, h) := by
  obtain ⟨hd, tl, e1, e2, hL, hnd, -, -⟩ := (WF_iff l h ps).mp hwf
  have hhd : hd < h.length := (WF_lt hwf).2.1 hd e1
  have htl : tl ∉ ps := fun hm => (WF_sentinels hwf tl hm).2 e2
  have := Search_loop_absent t ps xs hd fuel hL htl hh (by rw [Holds_length hh]; exact hf) ht
  simp [Search, e1, e2, getNext_some hhd, this]

end Scan

section Mirror
variable {α : Type}

theorem Linked_next_head {h : Heap α} {P Q : List Nat} {a y : Nat}
    (hL : Linked h (P ++ a :: Q)) (hy : Q.head? = some y) : nextOf h a = some y := by
  obtain ⟨Q2, rfl⟩ := List.head?_eq_some_iff.mp hy
  have := ((Linked_split h P a (y :: Q2)).mp hL).2
  rw [Linked_cons_cons] at this
  exact this.1.1

theorem Linked_prev_last {h : Heap α} {P Q : List Nat} {b x : Nat}
    (hL : Linked h (P ++ b :: Q)) (hx : P.getLast? = some x) : prevOf h b = some x := by
  obtain ⟨P2, rfl⟩ := List.getLast?_eq_some_iff.mp hx
  have e : P2 ++ [x] ++ b :: Q = P2 ++ x :: b :: Q := by simp
  rw [e] at hL
  have := ((Linked_split h P2 x (b :: Q)).mp hL).2
  rw [Linked_cons_cons] at this
  exact this.1.2

/-- The loop of `Reverse`, started with the forward cursor on the first node
of the stretch `M` (or just after it when `M` is empty) and the backward
cursor on its last node (or just before it), the stretch having as many user
nodes `F` before it as user nodes `B` after it: it terminates, reverses the
values held by `M` and changes nothing else. -/
theorem Reverse_loop_spec {hd tl : Nat} :
    ∀ (fuel : Nat) (h : Heap α) (F M B : List Nat) (ys : List α) (i j : Nat),
      Linked h (hd :: (F ++ M ++ B) ++ [tl]) → (hd :: (F ++ M ++ B) ++ [tl]).Nodup →
      F.length = B.length → Holds h M ys → M.length < fuel →
      (M ++ B ++ [tl]).head? = some i → (hd :: F ++ M).getLast? = some j →
      ∃ h2, Reverse.loop (some hd) (some tl) fuel h (some i) (some j) = .ok h2 ∧
        Holds h2 M ys.reverse ∧ (∀ x, x ∉ M → dataOf h2 x = dataOf h x) ∧
        (∀ x, nextOf h2 x = nextOf h x) ∧ (∀ x, prevOf h2 x = prevOf h x) ∧
        h2.length = h.length := by
  intro fuel
  induction fuel with
  | zero =>
    intro h F M B ys i j _ _ _ _ hf
    simp at hf
  | succ k ih =>
    intro h F M B ys i j hL hnd hFB hh hf hi hj
    cases M with
    | nil =>
      have hys : ys = [] := (Holds_nil h ys).mp hh
      subst hys
      refine ⟨h, ?_, rfl, fun _ _ => rfl, fun _ => rfl, fun _ => rfl, rfl⟩
      cases B with
      | nil =>
        have hia : tl = i := by simpa using hi
        subst hia
        simp [Reverse.loop]
      | cons b0 B2 =>
        have hia : b0 = i := by simpa using hi
        subst hia
        have e : hd :: (F ++ [] ++ b0 :: B2) ++ [tl] = (hd :: F) ++ b0 :: (B2 ++ [tl]) := by
          simp
        rw [e] at hL
        have hp := Linked_prev_last hL (by simpa using hj)
        have hilt : b0 < h.length := lt_of_prevOf hp
        simp [Reverse.loop, getPrev_some hilt, hp]
    | cons a M1 =>
      have hia : a = i := by simpa using hi
      subst hia
      rcases eq_nil_or_snoc M1 with e | ⟨M2, b, e⟩
      · subst e
        have hja : a = j := by
          have : hd :: F ++ [a] = (hd :: F) ++ [a] := rfl
          rw [this, List.getLast?_concat] at hj
          exact Option.some.inj hj
        subst hja
        obtain ⟨ya, ys2, rfl, hya, hh2⟩ := (Holds_cons h a [] ys).mp hh
        have : ys2 = [] := (Holds_nil h ys2).mp hh2
        subst this
        refine ⟨h, ?_, by simpa using hh, fun _ _ => rfl, fun _ => rfl, fun _ => rfl, rfl⟩
        simp [Reverse.loop]
      · subst e
        have ej : hd :: F ++ a :: (M2 ++ [b]) = (hd :: F ++ a :: M2) ++ [b] := by simp
        rw [ej, List.getLast?_concat] at hj
        have hj2 : b = j := Option.some.inj hj
        subst hj2
        -- contents of the stretch
        obtain ⟨ya, ys1, rfl, hya, hh1⟩ := (Holds_cons h a (M2 ++ [b]) ys).mp hh
        obtain ⟨hhM2, hhb⟩ := Holds_split hh1
        obtain ⟨yb, yrest, eyb, hyb, hnilb⟩ := (Holds_cons h b [] _).mp hhb
        have hyrest : yrest = [] := (Holds_nil h yrest).mp hnilb
        subst hyrest
        have eys1 : ys1 = ys1.take M2.length ++ [yb] := by
          rw [← eyb, List.take_append_drop]
        -- the node before the stretch
        obtain ⟨P, x, hPx⟩ : ∃ P x, hd :: F = P ++ [x] := by
          rcases eq_nil_or_snoc (hd :: F) with e | e
          · simp at e
          · exact e
        have eC : hd :: (F ++ a :: (M2 ++ [b]) ++ B) ++ [tl] =
            (hd :: F) ++ a :: (M2 ++ b :: (B ++ [tl])) := by simp
        rw [eC] at hL hnd
        have hpa : prevOf h a = some x :=
          Linked_prev_last hL (by rw [hPx, List.getLast?_concat])
        obtain ⟨i2, hi2⟩ : ∃ i2, (M2 ++ b :: (B ++ [tl])).head? = some i2 := by
          cases M2 <;> simp
        obtain ⟨j2, hj2⟩ : ∃ j2, (hd :: F ++ a :: M2).getLast? = some j2 := by
          rcases eq_nil_or_snoc M2 with e | ⟨M3, m, e⟩
          · refine ⟨a, ?_⟩
            have : hd :: F ++ a :: M2 = (hd :: F) ++ [a] := by rw [e]
            rw [this, List.getLast?_concat]
          · refine ⟨m, ?_⟩
            have : hd :: F ++ a :: M2 = (hd :: F ++ a :: M3) ++ [m] := by rw [e]; simp
            rw [this, List.getLast?_concat]
        have hna : nextOf h a = some i2 := Linked_next_head hL hi2
        have eC2 : (hd :: F) ++ a :: (M2 ++ b :: (B ++ [tl])) =
            (hd :: F ++ a :: M2) ++ b :: (B ++ [tl]) := by simp
        have hpb : prevOf h b = some j2 := Linked_prev_last (eC2 ▸ hL) hj2
        have halt : a < h.length := lt_of_nextOf hna
        have hblt : b < h.length := lt_of_prevOf hpb
        -- distinctness
        have hxmem : x ∈ hd :: F := by rw [hPx]; simp
        have hnd2 := hnd
        simp only [List.nodup_append, List.nodup_cons, List.mem_append, List.mem_cons,
          not_or] at hnd2
        obtain ⟨-, ⟨⟨haM2, hab, haB, hatl0⟩, hM2, ⟨⟨hbB, hbtl⟩, -⟩, hM2d⟩, hFd⟩ := hnd2
        have hatl : a ≠ tl := hatl0.1
        have hxb : x ≠ b := by
          intro e
          exact hFd hxmem (by simp [e])
        have hbhd : b ≠ hd := by
          intro e
          exact hFd (List.mem_cons_self hd F) (by simp [e])
        have hbM2 : b ∉ M2 := fun hm => hM2d hm (by simp)
        -- the heap after the exchange
        have hd1 : ∀ y, dataOf (updData (updData h a yb) b ya) y =
            if y = b then some ya else if y = a then some yb else dataOf h y := by
          intro y
          rw [dataOf_updData (by simpa using hblt), dataOf_updData halt]
        obtain ⟨h3, hrun, hh3, hd3, hn3, hp3, hl3⟩ :=
          ih (updData (updData h a yb) b ya) (F ++ [a]) M2 (b :: B) (ys1.take M2.length) i2 j2
            (by
              have e3 : hd :: (F ++ [a] ++ M2 ++ b :: B) ++ [tl] =
                  (hd :: F) ++ a :: (M2 ++ b :: (B ++ [tl])) := by simp
              rw [e3]
              exact Linked_frame_all hL (fun y _ => by simp) (fun y _ => by simp))
            (by
              have e3 : hd :: (F ++ [a] ++ M2 ++ b :: B) ++ [tl] =
                  (hd :: F) ++ a :: (M2 ++ b :: (B ++ [tl])) := by simp
              rw [e3]; exact hnd)
            (by simp [hFB])
            (Holds_congr (fun y hy => by
              have h1 : y ≠ b := fun e => hbM2 (e ▸ hy)
              have h2 : y ≠ a := fun e => haM2 (e ▸ hy)
              rw [hd1, if_neg h1, if_neg h2]) hhM2)
            (by simp at hf; omega)
            (by simpa using hi2)
            (by simpa using hj2)
        refine ⟨h3, ?_, ?_, ?_, ?_, ?_, ?_⟩
        · simp [Reverse.loop, hatl, hbhd, hab, getPrev_some halt, hpa, hxb, getData_some hya,
            getData_some hyb, setData_some halt, setData_some, hblt, getNext_some, halt,
            getPrev_some, hna, hpb, hrun]
        · have hda : dataOf h3 a = some yb := by
            rw [hd3 a haM2, hd1, if_neg hab, if_pos rfl]
          have hdb : dataOf h3 b = some ya := by
            rw [hd3 b hbM2, hd1, if_pos rfl]
          rw [eys1]
          unfold Holds at hh3 ⊢
          simp [hda, hdb, hh3]
        · intro y hy
          simp only [List.mem_cons, List.mem_append, List.mem_singleton, not_or, List.not_mem_nil,
            or_false] at hy
          rw [hd3 y hy.2.1, hd1, if_neg hy.2.2, if_neg hy.1]
        · intro y; rw [hn3]; simp
        · intro y; rw [hp3]; simp
        · rw [hl3]; simp

/-- `Reverse()` on a well-formed list: the values are reversed in place and
the links are untouched. -/
theorem Reverse_spec {l : DList} {h : Heap α} {ps : List Nat} {xs : List α} {fuel : Nat}
    (hwf : WF l h ps) (hh : Holds h ps xs) (hf : xs.length < fuel) :
    ∃ h2, Reverse fuel l h = .ok (l, h2) ∧ WF l h2 ps ∧ Holds h2 ps xs.reverse ∧
      (∀ x, x ∉ ps → dataOf h2 x = dataOf h x) ∧
      (∀ x, nextOf h2 x = nextOf h x) ∧ (∀ x, prevOf h2 x = prevOf h x) ∧
      h2.length = h.length := by
  obtain ⟨hd, tl, e1, e2, hL, hnd, hl1, hl2⟩ := (WF_iff l h ps).mp hwf
  obtain ⟨hps, hhd, htl⟩ := WF_lt hwf
  obtain ⟨i, hi⟩ : ∃ i, (ps ++ [tl]).head? = some i := by
    cases ps <;> simp
  obtain ⟨j, hj⟩ : ∃ j, (hd :: ps).getLast? = some j := by
    rcases eq_nil_or_snoc ps with e | ⟨P, m, e⟩
    · exact ⟨hd, by rw [e]; simp⟩
    · refine ⟨m, ?_⟩
      have : hd :: ps = (hd :: P) ++ [m] := by rw [e]; simp
      rw [this, List.getLast?_concat]
  have hni : nextOf h hd = some i := by
    have : Linked h ([] ++ hd :: (ps ++ [tl])) := by simpa using hL
    exact Linked_next_head this hi
  have hpj : prevOf h tl = some j := by
    have : Linked h ((hd :: ps) ++ tl :: []) := by simpa using hL
    exact Linked_prev_last this hj
  obtain ⟨h2, hrun, hh2, hd2, hn2, hp2, hlen2⟩ :=
    Reverse_loop_spec fuel h [] ps [] xs i j (by simpa using hL) (by simpa using hnd) rfl hh
      (by rw [Holds_length hh]; exact hf) (by simpa using hi) (by simpa using hj)
  refine ⟨h2, ?_, ?_, hh2, hd2, hn2, hp2, hlen2⟩
  · simp [Reverse, e1, e2, getNext_some (hhd hd e1), getPrev_some (htl tl e2), hni, hpj, hrun]
  · rw [WF_iff]
    exact ⟨hd, tl, e1, e2, Linked_frame_all hL (fun y _ => hn2 y) (fun y _ => hp2 y), hnd,
      hl1, hl2⟩

end Mirror

section Compare
variable {α : Type} [DecidableEq α]

/-- The loop of `operator==` on two linked stretches with the same number of
nodes decides whether they hold the same values. -/
theorem eq_loop_spec {h : Heap α} {tl1 tl2 : Nat} :
    ∀ (ps qs : List Nat) (xs ys : List α) (a b fuel : Nat),
      Linked h (a :: ps ++ [tl1]) → Linked h (b :: qs ++ [tl2]) → tl1 ∉ ps → tl2 ∉ qs →
      Holds h ps xs → Holds h qs ys → ps.length = qs.length → ps.length < fuel →
      operator_eq.loop (some tl1) (some tl2) h fuel (nextOf h a) (nextOf h b) =
        .ok (decide (xs = ys)) := by
  intro ps
  induction ps with
  | nil =>
    intro qs xs ys a b fuel hL1 hL2 _ _ hh1 hh2 hlen hf
    obtain ⟨k, rfl⟩ : ∃ k, fuel = k + 1 := ⟨fuel - 1, by simp at hf; omega⟩
    have hq : qs = [] := List.length_eq_zero.mp hlen.symm
    subst hq
    rw [(Holds_nil h xs).mp hh1, (Holds_nil h ys).mp hh2]
    simp only [List.cons_append, List.nil_append, Linked_cons_cons] at hL1
    rw [hL1.1.1]
    simp [operator_eq.loop]
  | cons p ps ih =>
    intro qs xs ys a b fuel hL1 hL2 ht1 ht2 hh1 hh2 hlen hf
    obtain ⟨k, rfl⟩ : ∃ k, fuel = k + 1 := ⟨fuel - 1, by simp at hf; omega⟩
    cases qs with
    | nil => simp at hlen
    | cons q qs =>
      obtain ⟨x, xs2, rfl, hx, hh12⟩ := (Holds_cons h p ps xs).mp hh1
      obtain ⟨y, ys2, rfl, hy, hh22⟩ := (Holds_cons h q qs ys).mp hh2
      simp only [List.cons_append, Linked_cons_cons] at hL1 hL2
      have hL12 : Linked h (p :: ps ++ [tl1]) := hL1.2
      have hL22 : Linked h (q :: qs ++ [tl2]) := hL2.2
      have hp : p ≠ tl1 := fun e => ht1 (by simp [e])
      have hq : q ≠ tl2 := fun e => ht2 (by simp [e])
      have hplt : p < h.length := lt_of_prevOf hL1.1.2
      have hqlt : q < h.length := lt_of_prevOf hL2.1.2
      have hrec := ih qs xs2 ys2 p q k hL12 hL22 (fun e => ht1 (by simp [e]))
        (fun e => ht2 (by simp [e])) hh12 hh22 (by simpa using hlen) (by simp at hf; omega)
      rw [hL1.1.1, hL2.1.1]
      by_cases hxy : x = y
      · subst hxy
        simp [operator_eq.loop, hp, hq, getData_some hx, getData_some hy, getNext_some hplt,
          getNext_some hqlt, hrec]
      · simp [operator_eq.loop, hp, hq, getData_some hx, getData_some hy, hxy]

omit [DecidableEq α] in
/-- Two linked stretches of the same length that start at the same node
consist of the same nodes. -/
theorem Linked_unique {h : Heap α} {t1 t2 : Nat} :
    ∀ (ps qs : List Nat) (a : Nat), Linked h (a :: ps ++ [t1]) → Linked h (a :: qs ++ [t2]) →
      ps.length = qs.length → ps = qs := by
  intro ps
  induction ps with
  | nil => intro qs a _ _ hlen; exact (List.length_eq_zero.mp hlen.symm).symm
  | cons p ps ih =>
    intro qs a hL1 hL2 hlen
    cases qs with
    | nil => simp at hlen
    | cons q qs =>
      simp only [List.cons_append, Linked_cons_cons] at hL1 hL2
      have e : p = q := by
        have := hL1.1.1
        rw [hL2.1.1] at this
        exact (Option.some.inj this).symm
      subst e
      rw [ih qs p hL1.2 hL2.2 (by simpa using hlen)]

/-- `operator==` on two well-formed lists of one heap decides equality of
their contents. -/
theorem operator_eq_spec {objs : Nat → DList} {this rhs : Nat} {h : Heap α}
    {ps qs : List Nat} {xs ys : List α} {fuel : Nat}
    (hw1 : WF (objs this) h ps) (hw2 : WF (objs rhs) h qs)
    (hh1 : Holds h ps xs) (hh2 : Holds h qs ys) (hf : xs.length < fuel) :
    operator_eq fuel objs this rhs h = .ok (decide (xs = ys)) := by
  obtain ⟨hd1, tl1, e1, e2, hL1, hnd1, hl1, -⟩ := (WF_iff _ h ps).mp hw1
  obtain ⟨hd2, tl2, e3, e4, hL2, hnd2, hl2, -⟩ := (WF_iff _ h qs).mp hw2
  have hlx := Holds_length hh1
  have hly := Holds_length hh2
  by_cases hsame : this = rhs
  · subst hsame
    rw [e1] at e3
    cases e3
    have hpq : ps = qs := Linked_unique ps qs hd1 hL1 hL2 (by rw [← hl1, hl2])
    subst hpq
    have hxy : xs = ys := Holds_unique hh1 hh2
    simp [operator_eq, hxy]
  · by_cases hlen : (objs this).len = (objs rhs).len
    · have ht1 : tl1 ∉ ps := fun hm => (WF_sentinels hw1 tl1 hm).2 e2
      have ht2 : tl2 ∉ qs := fun hm => (WF_sentinels hw2 tl2 hm).2 e4
      have hloop := eq_loop_spec ps qs xs ys hd1 hd2 fuel hL1 hL2 ht1 ht2 hh1 hh2
        (by rw [← hl1, ← hl2, hlen]) (by rw [hlx]; exact hf)
      have hhd1 : hd1 < h.length := (WF_lt hw1).2.1 hd1 e1
      have hhd2 : hd2 < h.length := (WF_lt hw2).2.1 hd2 e3
      simp only [operator_eq, hsame, hlen, e1, e2, e3, e4, getNext_some hhd1,
        getNext_some hhd2, ok_bind]
      simpa using hloop
    · have hxy : xs ≠ ys := by
        intro e
        apply hlen
        rw [hl1, hl2, hlx, hly, e]
      simp [operator_eq, hsame, hlen, hxy]

end Compare

section Moves
variable {α : Type}

theorem DList_len_eq {l : DList} {n : Nat} (e : l.len = n) : ({ l with len := n } : DList) = l := by
  cases l
  simp at e ⊢
  exact e.symm

/-- `MoveToFront` of a user node of a well-formed list. -/
theorem MoveToFront_spec {l : DList} {h : Heap α} {pre post : List Nat} {p : Nat}
    (hwf : WF l h (pre ++ p :: post)) :
    ∃ h2, MoveToFront l (some p) h = .ok (l, h2) ∧ WF l h2 (p :: (pre ++ post)) ∧
      h2.length = h.length ∧ (∀ x, dataOf h2 x = dataOf h x) := by
  obtain ⟨hd, tl, e1, e2, hL, hnd, hl1, hl2⟩ := (WF_iff l h _).mp hwf
  obtain ⟨hsh, hst⟩ := WF_sentinels hwf p (by simp)
  have hplt : p < h.length := (WF_lt hwf).1 p (by simp)
  have hpn : p ∉ pre ++ post := by
    have h1 : (pre ++ p :: post).Nodup := by
      have := (List.nodup_cons.mp hnd).2
      exact (List.nodup_append.mp this).1
    rw [List.nodup_middle, List.nodup_cons] at h1
    exact h1.1
  obtain ⟨h1, hrun1, hwf1, hlen1, hd1, -⟩ := Remove_spec hwf
  have hlen3 : (pre ++ post).length + 1 < SIZE_RANGE := by
    simp only [List.length_append, List.length_cons] at hl2 ⊢
    omega
  obtain ⟨h2, hrun2, hwf2, hlen2, hd2, -⟩ :=
    PushFrontNode_spec hwf1 (by rw [hlen1]; exact hplt) hsh hst hpn hlen3
  have el : ({ l with len := (pre ++ post).length + 1 } : DList) = l :=
    DList_len_eq (by rw [hl1]; simp only [List.length_append, List.length_cons]; omega)
  simp only [el] at hrun2 hwf2
  refine ⟨h2, ?_, hwf2, by rw [hlen2, hlen1], fun x => by rw [hd2, hd1]⟩
  simp only [MoveToFront, hrun1, ok_bind]
  simpa using hrun2

/-- `MoveToBack` of a user node of a well-formed list. -/
theorem MoveToBack_spec {l : DList} {h : Heap α} {pre post : List Nat} {p : Nat}
    (hwf : WF l h (pre ++ p :: post)) :
    ∃ h2, MoveToBack l (some p) h = .ok (l, h2) ∧ WF l h2 ((pre ++ post) ++ [p]) ∧
      h2.length = h.length ∧ (∀ x, dataOf h2 x = dataOf h x) := by
  obtain ⟨hd, tl, e1, e2, hL, hnd, hl1, hl2⟩ := (WF_iff l h _).mp hwf
  obtain ⟨hsh, hst⟩ := WF_sentinels hwf p (by simp)
  have hplt : p < h.length := (WF_lt hwf).1 p (by simp)
  have hpn : p ∉ pre ++ post := by
    have h1 : (pre ++ p :: post).Nodup := by
      have := (List.nodup_cons.mp hnd).2
      exact (List.nodup_append.mp this).1
    rw [List.nodup_middle, List.nodup_cons] at h1
    exact h1.1
  obtain ⟨h1, hrun1, hwf1, hlen1, hd1, -⟩ := Remove_spec hwf
  have hlen3 : (pre ++ post).length + 1 < SIZE_RANGE := by
    simp only [List.length_append, List.length_cons] at hl2 ⊢
    omega
  obtain ⟨h2, hrun2, hwf2, hlen2, hd2, -⟩ :=
    PushBackNode_spec hwf1 (by rw [hlen1]; exact hplt) hsh hst hpn hlen3
  have el : ({ l with len := (pre ++ post).length + 1 } : DList) = l :=
    DList_len_eq (by rw [hl1]; simp only [List.length_append, List.length_cons]; omega)
  simp only [el] at hrun2 hwf2
  refine ⟨h2, ?_, hwf2, by rw [hlen2, hlen1], fun x => by rw [hd2, hd1]⟩
  simp only [MoveToBack, hrun1, ok_bind]
  simpa using hrun2

end Moves

section Frames
variable {α : Type}

theorem SameBelow_refl (n : Nat) (h : Heap α) : SameBelow n h h :=
  fun _ _ => ⟨rfl, rfl, rfl⟩

theorem SameBelow_trans {n : Nat} {h h2 h3 : Heap α} (h12 : SameBelow n h h2)
    (h23 : SameBelow n h2 h3) : SameBelow n h h3 := by
  intro a ha
  obtain ⟨a1, a2, a3⟩ := h12 a ha
  obtain ⟨b1, b2, b3⟩ := h23 a ha
  exact ⟨b1.trans a1, b2.trans a2, b3.trans a3⟩

theorem SameBelow_mono {n m : Nat} {h h2 : Heap α} (hnm : n ≤ m) (hs : SameBelow m h h2) :
    SameBelow n h h2 :=
  fun a ha => hs a (Nat.lt_of_lt_of_le ha hnm)

/-- A well-formed list whose nodes all lie below `n` is not affected by
changes at or above `n`. -/
theorem WF_below {l : DList} {h h2 : Heap α} {ps : List Nat} {n : Nat} (hwf : WF l h ps)
    (hn : ∀ a, (l.head = some a ∨ a ∈ ps ∨ l.tail = some a) → a < n)
    (hs : SameBelow n h h2) : WF l h2 ps := by
  obtain ⟨hd, tl, e1, e2, hL, hnd, hl1, hl2⟩ := (WF_iff l h ps).mp hwf
  rw [WF_iff]
  have hmem : ∀ x ∈ hd :: ps ++ [tl], x < n := by
    intro x hx
    simp only [List.cons_append, List.mem_cons, List.mem_append, List.not_mem_nil,
      or_false] at hx
    rcases hx with rfl | hx | rfl
    · exact hn x (Or.inl e1)
    · exact hn x (Or.inr (Or.inl hx))
    · exact hn x (Or.inr (Or.inr e2))
  exact ⟨hd, tl, e1, e2,
    Linked_frame_all hL (fun x hx => (hs x (hmem x hx)).1) (fun x hx => (hs x (hmem x hx)).2.1),
    hnd, hl1, hl2⟩

theorem Holds_below {h h2 : Heap α} {ps : List Nat} {xs : List α} {n : Nat}
    (hh : Holds h ps xs) (hn : ∀ a ∈ ps, a < n) (hs : SameBelow n h h2) : Holds h2 ps xs :=
  Holds_congr (fun p hp => (hs p (hn p hp)).2.2) hh

/-- The nodes of a well-formed list, sentinels included, lie below the heap
length. -/
theorem WF_nodes_lt {l : DList} {h : Heap α} {ps : List Nat} (hwf : WF l h ps) :
    ∀ a, (l.head = some a ∨ a ∈ ps ∨ l.tail = some a) → a < h.length := by
  obtain ⟨h1, h2, h3⟩ := WF_lt hwf
  intro a ha
  rcases ha with e | e | e
  · exact h2 a e
  · exact h1 a e
  · exact h3 a e

/-- The loop of the copy constructor: `rest` are the source nodes still to be
visited, all below `n`, while the list under construction lives at or above
`n`. -/
theorem copy_loop_spec {rtl n : Nat} :
    ∀ (rest : List Nat) (xr : List α) (fuel : Nat) (l : DList) (h : Heap α) (a : Nat)
      (qs : List Nat) (ys : List α),
      Linked h (a :: rest ++ [rtl]) → rtl ∉ rest → Holds h rest xr → rest.length < fuel →
      (∀ x ∈ a :: rest ++ [rtl], x < n) →
      WF l h qs → Holds h qs ys →
      (∀ x, (l.head = some x ∨ x ∈ qs ∨ l.tail = some x) → n ≤ x) → n ≤ h.length →
      qs.length + rest.length < SIZE_RANGE →
      ∃ h2 qs2, List_copy.loop (some rtl) fuel l h (nextOf h a) =
          .ok ({ l with len := qs.length + rest.length }, h2) ∧
        WF { l with len := qs.length + rest.length } h2 (qs ++ qs2) ∧
        Holds h2 (qs ++ qs2) (ys ++ xr) ∧ (∀ x ∈ qs2, n ≤ x) ∧ SameBelow n h h2 ∧
        h.length ≤ h2.length := by
  intro rest
  induction rest with
  | nil =>
    intro xr fuel l h a qs ys hL _ hh hf _ hwf hhq _ _ _
    obtain ⟨k, rfl⟩ : ∃ k, fuel = k + 1 := ⟨fuel - 1, by simp at hf; omega⟩
    simp only [List.cons_append, List.nil_append, Linked_cons_cons] at hL
    have hxr : xr = [] := (Holds_nil h xr).mp hh
    subst hxr
    obtain ⟨-, -, -, -, -, -, hl1, -⟩ := (WF_iff l h qs).mp hwf
    have el : ({ l with len := qs.length + ([] : List Nat).length } : DList) = l := by
      cases l; simp at hl1 ⊢; exact hl1.symm
    refine ⟨h, [], ?_, ?_, by simpa using hhq, by simp, SameBelow_refl n h, Nat.le_refl _⟩
    · rw [el, hL.1.1]; simp [List_copy.loop]
    · rw [el]; simpa using hwf
  | cons p rest ih =>
    intro xr fuel l h a qs ys hL hrtl hh hf hlt hwf hhq hge hnh hsz
    obtain ⟨k, rfl⟩ : ∃ k, fuel = k + 1 := ⟨fuel - 1, by simp at hf; omega⟩
    obtain ⟨x, xr2, rfl, hx, hh2⟩ := (Holds_cons h p rest xr).mp hh
    simp only [List.cons_append, Linked_cons_cons] at hL
    have hL2 : Linked h (p :: rest ++ [rtl]) := hL.2
    have hp : p ≠ rtl := fun e => hrtl (by simp [e])
    have hpn : p < n := hlt p (by simp)
    simp only [List.length_cons] at hsz
    obtain ⟨h1, hrun1, hwf1, hh1, hlen1, hd1, hn1, hp1⟩ :=
      PushBack_spec x hwf hhq (by omega)
    have hsame : SameBelow n h h1 := by
      intro b hb
      have hbl : b < h.length := Nat.lt_of_lt_of_le hb hnh
      refine ⟨hn1 b hbl ?_ ?_, hp1 b hbl ?_, hd1 b hbl⟩
      · intro hm; exact Nat.lt_irrefl _ (Nat.lt_of_lt_of_le hb (hge b (Or.inr (Or.inl hm))))
      · intro e; exact Nat.lt_irrefl _ (Nat.lt_of_lt_of_le hb (hge b (Or.inl e.symm)))
      · intro e
        exact Nat.lt_irrefl _ (Nat.lt_of_lt_of_le hb (hge b (Or.inr (Or.inr e.symm))))
    have hlt2 : ∀ y ∈ p :: rest ++ [rtl], y < n := fun y hy => hlt y (by simp at hy ⊢; tauto)
    have hL3 : Linked h1 (p :: rest ++ [rtl]) :=
      Linked_frame_all hL2 (fun y hy => (hsame y (hlt2 y hy)).1)
        (fun y hy => (hsame y (hlt2 y hy)).2.1)
    have hh3 : Holds h1 rest xr2 :=
      Holds_below hh2 (fun y hy => hlt2 y (by simp [hy])) hsame
    obtain ⟨h2, qs2, hrun2, hwf2, hhq2, hge2, hsame2, hlen2⟩ :=
      ih xr2 k { l with len := qs.length + 1 } h1 p (qs ++ [h.length]) (ys ++ [x]) hL3
        (fun e => hrtl (by simp [e])) hh3 (by simp at hf; omega) hlt2 hwf1 hh1
        (by
          intro y hy
          rcases hy with e | e | e
          · exact hge y (Or.inl e)
          · rcases List.mem_append.mp e with e | e
            · exact hge y (Or.inr (Or.inl e))
            · simp at e; rw [e]; exact hnh
          · exact hge y (Or.inr (Or.inr e)))
        (by rw [hlen1]; omega)
        (by simp only [List.length_append, List.length_singleton]; omega)
    have hlen3 : (qs ++ [h.length]).length + rest.length = qs.length + (rest.length + 1) := by
      simp only [List.length_append, List.length_singleton]; omega
    simp only [hlen3, List.append_assoc, List.singleton_append] at hrun2 hwf2 hhq2
    refine ⟨h2, h.length :: qs2, ?_, hwf2, hhq2, ?_, SameBelow_trans hsame hsame2, ?_⟩
    · have hplt : p < h1.length := by rw [hlen1]; exact Nat.lt_succ_of_lt (Nat.lt_of_lt_of_le hpn hnh)
      rw [hL.1.1]
      simp only [List_copy.loop, List.length_cons]
      rw [if_pos (by simpa using hp), getData_some hx, ok_bind, hrun1, ok_bind,
        getNext_some hplt, ok_bind]
      exact hrun2
    · intro y hy
      rcases List.mem_cons.mp hy with e | e
      · rw [e]; exact hnh
      · exact hge2 y e
    · rw [hlen1] at hlen2; omega

/-- The copy constructor on a well-formed list: the copy is a well-formed
list of fresh nodes with the same contents, and every cell that existed
before is left alone. -/
theorem List_copy_spec [Inhabited α] {src : DList} {h : Heap α} {ps : List Nat}
    {xs : List α} {fuel : Nat} (hwf : WF src h ps) (hh : Holds h ps xs)
    (hf : xs.length < fuel) :
    ∃ cp h2 qs, List_copy fuel src h = .ok (cp, h2) ∧ WF cp h2 qs ∧ Holds h2 qs xs ∧
      cp.len = xs.length ∧
      (∀ a, (cp.head = some a ∨ a ∈ qs ∨ cp.tail = some a) → h.length ≤ a) ∧
      SameBelow h.length h h2 ∧ WF src h2 ps ∧ Holds h2 ps xs ∧ h.length ≤ h2.length := by
  obtain ⟨hd, tl, e1, e2, hL, hnd, hl1, hl2⟩ := (WF_iff src h ps).mp hwf
  have hnodes := WF_nodes_lt hwf
  have hlx := Holds_length hh
  obtain ⟨h1, hrun1, hwf1, hlen1, hfr1⟩ := List_default_spec h
  have hs1 : SameBelow h.length h h1 := fun a ha => hfr1 a ha
  have hLsrc : Linked h1 (hd :: ps ++ [tl]) := by
    obtain ⟨hd2, tl2, e3, e4, hL2, -⟩ := (WF_iff src h1 ps).mp (WF_below hwf hnodes hs1)
    rw [e1] at e3; rw [e2] at e4; cases e3; cases e4
    exact hL2
  have htl : tl ∉ ps := fun hm => (WF_sentinels hwf tl hm).2 e2
  have hmem : ∀ x ∈ hd :: ps ++ [tl], x < h.length := by
    intro x hx
    simp only [List.cons_append, List.mem_cons, List.mem_append, List.not_mem_nil,
      or_false] at hx
    rcases hx with rfl | hx | rfl
    · exact hnodes x (Or.inl e1)
    · exact hnodes x (Or.inr (Or.inl hx))
    · exact hnodes x (Or.inr (Or.inr e2))
  obtain ⟨h2, qs2, hrun2, hwf2, hh2, hge2, hs2, hlen2⟩ :=
    copy_loop_spec ps xs fuel { head := some h.length, tail := some (h.length + 1), len := 0 }
      h1 hd [] [] hLsrc htl (Holds_below hh (fun a ha => hnodes a (Or.inr (Or.inl ha))) hs1)
      (by rw [hlx]; exact hf) hmem hwf1 rfl
      (by
        intro x hx
        rcases hx with e | e | e
        · simp at e; omega
        · simp at e
        · simp at e; omega)
      (by rw [hlen1]; omega) (by simpa using hl2)
  simp only [List.nil_append, List.length_nil, Nat.zero_add] at hrun2 hwf2 hh2
  have hs : SameBelow h.length h h2 := SameBelow_trans hs1 hs2
  have hhd1 : hd < h1.length := by rw [hlen1]; exact Nat.lt_of_lt_of_le (hnodes hd (Or.inl e1)) (by omega)
  refine ⟨_, h2, qs2, ?_, hwf2, hh2, by simp [hlx], ?_, hs, WF_below hwf hnodes hs,
    Holds_below hh (fun a ha => hnodes a (Or.inr (Or.inl ha))) hs, by rw [hlen1] at hlen2; omega⟩
  · simp only [List_copy, hrun1, ok_bind, e1, e2, getNext_some hhd1]
    exact hrun2
  · intro a ha
    rcases ha with e | e | e
    · simp at e; omega
    · exact hge2 a e
    · simp at e; omega

/-- Writing a payload leaves every well-formed list well-formed. -/
theorem WF_updData {l : DList} {h : Heap α} {ps : List Nat} (hwf : WF l h ps) (p : Nat)
    (d : α) : WF l (updData h p d) ps := by
  obtain ⟨hd, tl, e1, e2, hL, hnd, hl1, hl2⟩ := (WF_iff l h ps).mp hwf
  rw [WF_iff]
  exact ⟨hd, tl, e1, e2, Linked_frame_all hL (fun x _ => by simp) (fun x _ => by simp), hnd,
    hl1, hl2⟩

/-- Writing the payload of the node at position `i`. -/
theorem Holds_updData_at {h : Heap α} {p : Nat} (d : α) (hp : p < h.length) :
    ∀ (ps : List Nat) (xs : List α) (i : Nat), Holds h ps xs → ps.Nodup → ps[i]? = some p →
      Holds (updData h p d) ps (xs.set i d) := by
  intro ps
  induction ps with
  | nil => intro xs i _ _ hi; simp at hi
  | cons q ps ih =>
    intro xs i hh hnd hi
    obtain ⟨x, xs2, rfl, hx, hh2⟩ := (Holds_cons h q ps xs).mp hh
    rw [List.nodup_cons] at hnd
    cases i with
    | zero =>
      have e : q = p := by simpa using hi
      subst e
      rw [List.set_cons_zero, Holds_cons]
      refine ⟨d, xs2, rfl, by rw [dataOf_updData hp, if_pos rfl], Holds_congr ?_ hh2⟩
      intro y hy
      have : y ≠ q := fun e => hnd.1 (e ▸ hy)
      rw [dataOf_updData hp, if_neg this]
    | succ i =>
      have hi2 : ps[i]? = some p := by simpa using hi
      have hqp : q ≠ p := fun e => hnd.1 (e ▸ List.getElem?_mem hi2)
      rw [List.set_cons_succ, Holds_cons]
      exact ⟨x, xs2.set i d, rfl, by rw [dataOf_updData hp, if_neg hqp, hx],
        ih xs2 i hh2 hnd.2 hi2⟩

/-- Writing the payload of a node outside `ps`. -/
theorem Holds_updData_off {h : Heap α} {ps : List Nat} {xs : List α} {p : Nat} (d : α)
    (hp : p < h.length) (hh : Holds h ps xs) (hps : p ∉ ps) : Holds (updData h p d) ps xs :=
  Holds_congr (fun y hy => by
    have : y ≠ p := fun e => hps (e ▸ hy)
    rw [dataOf_updData hp, if_neg this]) hh

theorem WF_nodup {l : DList} {h : Heap α} {ps : List Nat} (hwf : WF l h ps) : ps.Nodup := by
  obtain ⟨hd, tl, -, -, -, hnd, -, -⟩ := (WF_iff l h ps).mp hwf
  have := (List.nodup_cons.mp hnd).2
  exact (List.nodup_append.mp this).1

end Frames

section Lifecycle
variable {α : Type}

theorem DList_eta (l : DList) : ({ head := l.head, tail := l.tail, len := l.len } : DList) = l := by
  cases l; rfl

/-- Destroying a list whose sentinels are both null does nothing. -/
theorem List_destroy_null (k : Nat) (h : Heap α) :
    List_destroy (k + 1) { head := none, tail := none, len := 0 } h = .ok h := by
  simp [List_destroy, List_destroy.loop]

/-- The move constructor hands the internals of `a` to the new list and
leaves `a` with null sentinels and count 0. -/
theorem List_move_spec [Inhabited α] {a : DList} {h : Heap α} {ps : List Nat} {xs : List α}
    (hwa : WF a h ps) (hha : Holds h ps xs) :
    ∃ h1, List_move a h = .ok (a, { head := none, tail := none, len := 0 }, h1) ∧
      WF a h1 ps ∧ Holds h1 ps xs ∧ SameBelow h.length h h1 := by
  obtain ⟨h1, hrun1, -, -, hfr1⟩ := List_default_spec h
  have hs1 : SameBelow h.length h h1 := fun x hx => hfr1 x hx
  have hnodes := WF_nodes_lt hwa
  refine ⟨h1, ?_, WF_below hwa hnodes hs1,
    Holds_below hha (fun x hx => hnodes x (Or.inr (Or.inl hx))) hs1, hs1⟩
  simp only [List_move, hrun1, ok_bind, Swap, DList_eta]
  rfl

/-- The assignment `b = std::move(a)`. -/
theorem move_assign_spec [Inhabited α] {a : DList} (b : DList) {h : Heap α} {ps : List Nat}
    {xs : List α} (k : Nat) (hwa : WF a h ps) (hha : Holds h ps xs) :
    ∃ h1, move_assign (k + 1) b a h = .ok (a, { head := none, tail := none, len := 0 }, h1) ∧
      WF a h1 ps ∧ Holds h1 ps xs ∧ SameBelow h.length h h1 := by
  obtain ⟨h1, hrun1, hw1, hh1, hs1⟩ := List_move_spec hwa hha
  refine ⟨h1, ?_, hw1, hh1, hs1⟩
  simp only [move_assign, hrun1, ok_bind, operator_assign, Swap, DList_eta, List_destroy_null]
  rfl

/-- `IsEmpty()` on a well-formed list. -/
theorem IsEmpty_spec {l : DList} {h : Heap α} {ps : List Nat} (hwf : WF l h ps) :
    IsEmpty l h = .ok (decide (ps = [])) := by
  obtain ⟨hd, tl, e1, e2, hL, hnd, -, -⟩ := (WF_iff l h ps).mp hwf
  cases ps with
  | nil =>
    simp only [List.cons_append, List.nil_append, Linked_cons_cons] at hL
    simp [IsEmpty, e1, e2, getNext_some (lt_of_nextOf hL.1.1), hL.1.1]
  | cons p ps =>
    simp only [List.cons_append, Linked_cons_cons] at hL
    have hne : p ≠ tl := by
      intro e
      simp [e] at hnd
    simp [IsEmpty, e1, e2, getNext_some (lt_of_nextOf hL.1.1), hL.1.1, hne]

/-- The backward link of `tail` in a well-formed list targets the last user
node, or `head` when there is none. -/
theorem WF_tail_prev {l : DList} {h : Heap α} {ps : List Nat} (hwf : WF l h ps) :
    ∃ hd tl j, l.head = some hd ∧ l.tail = some tl ∧ (hd :: ps).getLast? = some j ∧
      getPrev h (some tl) = .ok (some j) := by
  obtain ⟨hd, tl, e1, e2, hL, -, -, -⟩ := (WF_iff l h ps).mp hwf
  obtain ⟨j, hj⟩ : ∃ j, (hd :: ps).getLast? = some j := by
    rcases eq_nil_or_snoc ps with e | ⟨P, m, e⟩
    · exact ⟨hd, by rw [e]; simp⟩
    · refine ⟨m, ?_⟩
      have : hd :: ps = (hd :: P) ++ [m] := by rw [e]; simp
      rw [this, List.getLast?_concat]
  have hL2 : Linked h ((hd :: ps) ++ tl :: []) := by simpa using hL
  have hp := Linked_prev_last hL2 hj
  exact ⟨hd, tl, j, e1, e2, hj, by rw [getPrev_some (lt_of_prevOf hp), hp]⟩

/-- The loop `while (!IsEmpty()) Remove(Front())` on a well-formed list runs
once per user node and ends with the empty list on the same sentinels. -/
theorem drain_spec :
    ∀ (ps : List Nat) (l : DList) (h : Heap α) (fuel : Nat), WF l h ps → ps.length < fuel →
      ∃ h2, drain fuel l h = .ok (ps.length, { l with len := 0 }, h2) ∧
        WF { l with len := 0 } h2 [] ∧ h2.length = h.length := by
  intro ps
  induction ps with
  | nil =>
    intro l h fuel hwf hf
    obtain ⟨k, rfl⟩ : ∃ k, fuel = k + 1 := ⟨fuel - 1, by simp at hf; omega⟩
    obtain ⟨-, -, -, -, -, -, hl1, -⟩ := (WF_iff l h []).mp hwf
    have el : ({ l with len := 0 } : DList) = l := DList_len_eq (by simpa using hl1)
    rw [el]
    exact ⟨h, by simp [drain, IsEmpty_spec hwf], hwf, rfl⟩
  | cons p ps ih =>
    intro l h fuel hwf hf
    obtain ⟨k, rfl⟩ : ∃ k, fuel = k + 1 := ⟨fuel - 1, by simp at hf; omega⟩
    obtain ⟨h1, hrun1, hwf1, hlen1, -⟩ :=
      Remove_spec (show WF l h ([] ++ p :: ps) from hwf)
    simp only [List.nil_append, List.length_nil, Nat.zero_add] at hrun1 hwf1
    obtain ⟨h2, hrun2, hwf2, hlen2⟩ := ih _ h1 k hwf1 (by simp at hf; omega)
    refine ⟨h2, ?_, hwf2, by rw [hlen2, hlen1]⟩
    simp only [drain, IsEmpty_spec hwf, ok_bind, Front_spec hwf, hrun1]
    simp only [List.length_cons] at hrun2 ⊢
    simp [hrun2]

/-- A well-formed list stays well-formed when no link changes. -/
theorem WF_same_links {l : DList} {h h2 : Heap α} {ps : List Nat} (hwf : WF l h ps)
    (hn : ∀ a, nextOf h2 a = nextOf h a) (hp : ∀ a, prevOf h2 a = prevOf h a) :
    WF l h2 ps := by
  obtain ⟨hd, tl, e1, e2, hL, hnd, hl1, hl2⟩ := (WF_iff l h ps).mp hwf
  rw [WF_iff]
  exact ⟨hd, tl, e1, e2, Linked_frame_all hL (fun x _ => hn x) (fun x _ => hp x), hnd, hl1, hl2⟩

/-- Two heaps in which the nodes `ps` hold the same values agree on the
payload of each of these nodes. -/
theorem Holds_same {h h2 : Heap α} {ps : List Nat} {xs : List α} (h1 : Holds h ps xs)
    (h3 : Holds h2 ps xs) : ∀ p ∈ ps, dataOf h2 p = dataOf h p := by
  unfold Holds at h1 h3
  rw [← h1] at h3
  exact List.map_inj_left.mp h3

/-- Reversing twice restores every payload and leaves every link alone. -/
theorem Reverse_twice_spec {l : DList} {h : Heap α} {ps : List Nat} {xs : List α}
    {fuel : Nat} (hwf : WF l h ps) (hh : Holds h ps xs) (hf : xs.length < fuel) :
    ∃ h2 h3, Reverse fuel l h = .ok (l, h2) ∧ Reverse fuel l h2 = .ok (l, h3) ∧
      WF l h3 ps ∧ Holds h3 ps xs ∧
      (∀ a, dataOf h3 a = dataOf h a ∧ nextOf h3 a = nextOf h a ∧ prevOf h3 a = prevOf h a) := by
  obtain ⟨h2, hrun2, hwf2, hh2, hd2, hn2, hp2, -⟩ := Reverse_spec hwf hh hf
  obtain ⟨h3, hrun3, hwf3, hh3, hd3, hn3, hp3, -⟩ :=
    Reverse_spec hwf2 hh2 (by simpa using hf)
  rw [List.reverse_reverse] at hh3
  refine ⟨h2, h3, hrun2, hrun3, hwf3, hh3, fun a => ⟨?_, by rw [hn3, hn2], by rw [hp3, hp2]⟩⟩
  by_cases ha : a ∈ ps
  · exact Holds_same hh hh3 a ha
  · rw [hd3 a ha, hd2 a ha]

theorem Linked_Reaches {h : Heap α} {b : Nat} :
    ∀ (ps : List Nat) (a : Nat), Linked h (a :: ps ++ [b]) → Reaches h a ps b := by
  intro ps
  induction ps with
  | nil =>
    intro a hL
    simp only [List.cons_append, List.nil_append, Linked_cons_cons] at hL
    exact hL.1.1
  | cons p ps ih =>
    intro a hL
    simp only [List.cons_append, Linked_cons_cons] at hL
    exact ⟨hL.1.1, ih p hL.2⟩

/-- A well-formed list satisfies the invariants on the forward chain. -/
theorem WF_FwdInv {l : DList} {h : Heap α} {ps : List Nat} (hwf : WF l h ps) :
    FwdInv l h ps := by
  obtain ⟨hd, tl, e1, e2, hL, -, hl1, -⟩ := (WF_iff l h ps).mp hwf
  have hs := WF_sentinels hwf
  unfold FwdInv
  simp only [e1, e2]
  exact ⟨Linked_Reaches ps hd hL, fun hm => (hs hd hm).1 e1, fun hm => (hs tl hm).2 e2, hl1⟩

/-- In `exHeapCycle` the forward links from the nodes 0, 2 and 3 stay among
the nodes 2 and 3. -/
theorem exHeapCycle_no_exit :
    ∀ (ps : List Nat) (a : Nat), (a = 0 ∨ a = 2 ∨ a = 3) → ¬ Reaches exHeapCycle a ps 1 := by
  intro ps
  induction ps with
  | nil =>
    intro a ha hr
    rcases ha with rfl | rfl | rfl <;> exact absurd hr (by decide)
  | cons p ps ih =>
    intro a ha hr
    obtain ⟨h1, h2⟩ := hr
    rcases ha with rfl | rfl | rfl
    · have : p = 3 := by
        have e : nextOf exHeapCycle 0 = some 3 := by decide
        rw [e] at h1; exact (Option.some.inj h1).symm
      exact ih p (Or.inr (Or.inr this)) h2
    · have : p = 3 := by
        have e : nextOf exHeapCycle 2 = some 3 := by decide
        rw [e] at h1; exact (Option.some.inj h1).symm
      exact ih p (Or.inr (Or.inr this)) h2
    · have : p = 2 := by
        have e : nextOf exHeapCycle 3 = some 2 := by decide
        rw [e] at h1; exact (Option.some.inj h1).symm
      exact ih p (Or.inr (Or.inl this)) h2

end Lifecycle

section Claims
variable {α : Type}

/-- C1: for every sequence `S` (whose length is a `std::size_t` value), the
initializer-list constructor returns a well-formed list with `Size()` equal to
`length S`, whose forward traversal from head's successor to tail yields
exactly the elements of `S` in order. -/
theorem C1_init_size_and_traversal [Inhabited α] (S : List α) (h : Heap α)
    (hS : S.length < SIZE_RANGE) :
    ∃ l h2 ps, List_init S h = .ok (l, h2) ∧ WF l h2 ps ∧ Holds h2 ps S ∧
      Size l = S.length ∧ ∀ fuel, S.length < fuel → Print fuel l h2 = .ok S := by
  obtain ⟨h1, hrun1, hwf1, -, -⟩ := List_default_spec h
  obtain ⟨h2, hrun2, hwf2, hh2, -, -⟩ :=
    PushBackItems_spec S hwf1 (show Holds h1 [] ([] : List α) from rfl) (by simpa using hS)
  simp only [List.nil_append, List.length_nil, Nat.zero_add] at hrun2 hwf2 hh2
  refine ⟨_, h2, _, ?_, hwf2, hh2, rfl, fun fuel hf => Print_spec hwf2 hh2 hf⟩
  simp only [List_init, hrun1, ok_bind]
  exact hrun2

/-- Witness of C1 at `S = [1, 2, 3]` on the empty heap. -/
theorem C1_init_size_and_traversal_witness :
    [1, 2, 3].length < SIZE_RANGE ∧
    ∃ l h2 ps, List_init [1, 2, 3] ([] : Heap Nat) = .ok (l, h2) ∧ WF l h2 ps ∧
      Holds h2 ps [1, 2, 3] ∧ Size l = [1, 2, 3].length ∧
      ∀ fuel, [1, 2, 3].length < fuel → Print fuel l h2 = .ok [1, 2, 3] :=
  ⟨by decide, C1_init_size_and_traversal [1, 2, 3] [] (by decide)⟩

/-- C2: on a well-formed list with contents `xs` (whose count can grow by one
within `std::size_t`), `PushFront(v)` returns a well-formed list with contents
`v :: xs` and `Size()` equal to `length xs + 1`; `Front()` is then the newly
created node, and no existing node's value changes. -/
theorem C2_PushFront_value {l : DList} {h : Heap α} {ps : List Nat} {xs : List α} (v : α)
    (hwf : WF l h ps) (hh : Holds h ps xs) (hlen : xs.length + 1 < SIZE_RANGE) :
    ∃ l2 h2, PushFront l v h = .ok (l2, h2) ∧
      WF l2 h2 (h.length :: ps) ∧ Holds h2 (h.length :: ps) (v :: xs) ∧
      Size l2 = xs.length + 1 ∧
      Front l2 h2 = .ok (some h.length, l2, h2) ∧ dataOf h2 h.length = some v ∧
      (∀ a, a < h.length → dataOf h2 a = dataOf h a) ∧
      (∀ fuel, xs.length + 1 < fuel → Print fuel l2 h2 = .ok (v :: xs)) := by
  have hl := Holds_length hh
  obtain ⟨h2, hrun, hwf2, hh2, -, hd2, -, -⟩ := PushFront_spec v hwf hh (by rw [hl]; exact hlen)
  refine ⟨_, h2, hrun, hwf2, hh2, by simp [Size, hl], Front_spec hwf2, ?_, hd2, ?_⟩
  · obtain ⟨x, xs2, e, hx, -⟩ := (Holds_cons h2 _ ps _).mp hh2
    cases e
    exact hx
  · intro fuel hf
    exact Print_spec hwf2 hh2 (by simpa using hf)

/-- Witness of C2: pushing 6 in front of the list `[7, 8, 9]` of `exHeap`. -/
theorem C2_PushFront_value_witness :
    WF exList exHeap [2, 3, 4] ∧ Holds exHeap [2, 3, 4] [7, 8, 9] ∧
    [7, 8, 9].length + 1 < SIZE_RANGE ∧
    ∃ l2 h2, PushFront exList 6 exHeap = .ok (l2, h2) ∧
      WF l2 h2 (exHeap.length :: [2, 3, 4]) ∧
      Holds h2 (exHeap.length :: [2, 3, 4]) (6 :: [7, 8, 9]) ∧
      Size l2 = [7, 8, 9].length + 1 ∧
      Front l2 h2 = .ok (some exHeap.length, l2, h2) ∧ dataOf h2 exHeap.length = some 6 ∧
      (∀ a, a < exHeap.length → dataOf h2 a = dataOf exHeap a) ∧
      (∀ fuel, [7, 8, 9].length + 1 < fuel → Print fuel l2 h2 = .ok (6 :: [7, 8, 9])) :=
  ⟨by decide, by decide, by decide,
    C2_PushFront_value 6 (by decide) (by decide) (by decide)⟩

/-- C3: `PushBack(items)` is the left-to-right iteration of `PushBack(v)` over
`items`; on a well-formed list with contents `xs` (whose count can grow by
`length items` within `std::size_t`) it returns a well-formed list with
contents `xs ++ items` and `Size()` equal to `length xs + length items`, and
in particular `PushBack(v)` gives contents `xs ++ [v]`. -/
theorem C3_PushBack_items {l : DList} {h : Heap α} {ps : List Nat} {xs : List α}
    (items : List α) (hwf : WF l h ps) (hh : Holds h ps xs)
    (hlen : xs.length + items.length < SIZE_RANGE) :
    PushBackItems l items h = items.foldlM (fun s v => PushBack s.1 v s.2) (l, h) ∧
    (∃ l2 h2 ps2, PushBackItems l items h = .ok (l2, h2) ∧ WF l2 h2 ps2 ∧
      Holds h2 ps2 (xs ++ items) ∧ Size l2 = xs.length + items.length ∧
      ∀ fuel, xs.length + items.length < fuel → Print fuel l2 h2 = .ok (xs ++ items)) ∧
    (∀ v : α, xs.length + 1 < SIZE_RANGE →
      ∃ l3 h3 ps3, PushBack l v h = .ok (l3, h3) ∧ WF l3 h3 ps3 ∧
        Holds h3 ps3 (xs ++ [v]) ∧ Size l3 = xs.length + 1) := by
  have hl := Holds_length hh
  refine ⟨PushBackItems_eq_foldlM items l h, ?_, ?_⟩
  · obtain ⟨h2, hrun, hwf2, hh2, -, -⟩ := PushBackItems_spec items hwf hh (by rw [hl]; exact hlen)
    refine ⟨_, h2, _, hrun, hwf2, hh2, by simp [Size, hl], fun fuel hf => ?_⟩
    exact Print_spec hwf2 hh2 (by simpa using hf)
  · intro v hv
    obtain ⟨h3, hrun, hwf3, hh3, -⟩ := PushBack_spec v hwf hh (by rw [hl]; exact hv)
    exact ⟨_, h3, _, hrun, hwf3, hh3, by simp [Size, hl]⟩

/-- Witness of C3: appending `[10, 11]` to the list `[7, 8, 9]` of `exHeap`. -/
theorem C3_PushBack_items_witness :
    WF exList exHeap [2, 3, 4] ∧ Holds exHeap [2, 3, 4] [7, 8, 9] ∧
    [7, 8, 9].length + [10, 11].length < SIZE_RANGE ∧
    (PushBackItems exList [10, 11] exHeap =
      [10, 11].foldlM (fun s v => PushBack s.1 v s.2) (exList, exHeap) ∧
    (∃ l2 h2 ps2, PushBackItems exList [10, 11] exHeap = .ok (l2, h2) ∧ WF l2 h2 ps2 ∧
      Holds h2 ps2 ([7, 8, 9] ++ [10, 11]) ∧ Size l2 = [7, 8, 9].length + [10, 11].length ∧
      ∀ fuel, [7, 8, 9].length + [10, 11].length < fuel →
        Print fuel l2 h2 = .ok ([7, 8, 9] ++ [10, 11])) ∧
    (∀ v : Nat, [7, 8, 9].length + 1 < SIZE_RANGE →
      ∃ l3 h3 ps3, PushBack exList v exHeap = .ok (l3, h3) ∧ WF l3 h3 ps3 ∧
        Holds h3 ps3 ([7, 8, 9] ++ [v]) ∧ Size l3 = [7, 8, 9].length + 1)) :=
  ⟨by decide, by decide, by decide,
    C3_PushBack_items [10, 11] (show WF exList exHeap [2, 3, 4] by decide)
      (show Holds exHeap [2, 3, 4] [7, 8, 9] by decide) (by decide)⟩

/-- C4: on a well-formed list with contents `xs`, `Remove(h)` for a handle `h`
to the user node at position `i` returns a well-formed list whose nodes and
contents are the former ones with position `i` erased, with `Size()` equal to
`length xs - 1`; the removed node has both links cleared and its data is
still readable through the handle. -/
theorem C4_Remove_at {l : DList} {h : Heap α} {ps : List Nat} {xs : List α} {i p : Nat}
    (hwf : WF l h ps) (hh : Holds h ps xs) (hp : ps[i]? = some p) :
    ∃ l2 h2 x, Remove l (some p) h = .ok (l2, h2) ∧
      WF l2 h2 (ps.eraseIdx i) ∧ Holds h2 (ps.eraseIdx i) (xs.eraseIdx i) ∧
      Size l2 = xs.length - 1 ∧
      getNext h2 (some p) = .ok none ∧ getPrev h2 (some p) = .ok none ∧
      xs[i]? = some x ∧ getData h2 (some p) = .ok x := by
  obtain ⟨h2, hrun, hwf2, hl2, hd2, hn2, hp2, -, -⟩ := Remove_at hwf hp
  obtain ⟨x, hx, hdx⟩ := Holds_at hh hp
  have hplt : p < h2.length := by rw [hl2]; exact lt_of_dataOf hdx
  refine ⟨_, h2, x, hrun, hwf2, Holds_congr (fun q _ => hd2 q) (Holds_eraseIdx hh i), ?_,
    ?_, ?_, hx, getData_some (by rw [hd2, hdx])⟩
  · simp [Size, Holds_length hh]
  · rw [getNext_some hplt, hn2]
  · rw [getPrev_some hplt, hp2]

/-- Witness of C4: removing the node at position 1 of the list `[7, 8, 9]` of
`exHeap`. -/
theorem C4_Remove_at_witness :
    WF exList exHeap [2, 3, 4] ∧ Holds exHeap [2, 3, 4] [7, 8, 9] ∧
    [2, 3, 4][1]? = some 3 ∧
    ∃ l2 h2 x, Remove exList (some 3) exHeap = .ok (l2, h2) ∧
      WF l2 h2 ([2, 3, 4].eraseIdx 1) ∧ Holds h2 ([2, 3, 4].eraseIdx 1) ([7, 8, 9].eraseIdx 1) ∧
      Size l2 = [7, 8, 9].length - 1 ∧
      getNext h2 (some 3) = .ok none ∧ getPrev h2 (some 3) = .ok none ∧
      [7, 8, 9][1]? = some x ∧ getData h2 (some 3) = .ok x :=
  ⟨by decide, by decide, by decide,
    C4_Remove_at (show WF exList exHeap [2, 3, 4] by decide)
      (show Holds exHeap [2, 3, 4] [7, 8, 9] by decide) (show [2, 3, 4][1]? = some 3 by decide)⟩

/-- C5: on a well-formed list with contents `xs`, `Search(t)` returns (given
fuel for the scan) a handle to the user node at the smallest position holding
`t` when there is one, returns the null handle exactly when no element equals
`t`, never returns a sentinel, and leaves the list unchanged. -/
theorem C5_Search_first_match [DecidableEq α] {l : DList} {h : Heap α} {ps : List Nat}
    {xs : List α} (t : α) {fuel : Nat} (hwf : WF l h ps) (hh : Holds h ps xs)
    (hf : xs.length < fuel) :
    ∃ r, Search fuel l t h = .ok (r, l, h) ∧
      (r = none ↔ t ∉ xs) ∧
      (∀ i : Nat, xs[i]? = some t → (∀ j, j < i → xs[j]? ≠ some t) → r ≠ none ∧ r = ps[i]?) ∧
      r ≠ l.head ∧ r ≠ l.tail := by
  obtain ⟨hd, tl, e1, e2, -⟩ := (WF_iff l h ps).mp hwf
  by_cases ht : t ∈ xs
  · have hex : ∃ i : Nat, xs[i]? = some t := List.mem_iff_getElem?.mp ht
    have hmin0 : ∀ j, j < Nat.find hex → xs[j]? ≠ some t := fun j hj => Nat.find_min hex hj
    obtain ⟨p, hp, hrun⟩ := Search_found t hwf hh hf (Nat.find_spec hex) hmin0
    have hmem : p ∈ ps := List.getElem?_mem hp
    refine ⟨some p, hrun, by simp [ht], ?_, ?_, ?_⟩
    · intro i hi hmin
      obtain ⟨q, hq, hrun2⟩ := Search_found t hwf hh hf hi hmin
      rw [hrun] at hrun2
      have : p = q := by simpa using hrun2
      exact ⟨by simp, by rw [hq, this]⟩
    · exact fun e => (WF_sentinels hwf p hmem).1 e.symm
    · exact fun e => (WF_sentinels hwf p hmem).2 e.symm
  · refine ⟨none, Search_absent t hwf hh hf ht, by simp [ht], ?_, by simp [e1], by simp [e2]⟩
    intro i hi _
    exact absurd (List.getElem?_mem hi) ht

/-- Witness of C5: searching 8 in the list `[7, 8, 9]` of `exHeap`. -/
theorem C5_Search_first_match_witness :
    WF exList exHeap [2, 3, 4] ∧ Holds exHeap [2, 3, 4] [7, 8, 9] ∧ [7, 8, 9].length < 4 ∧
    ∃ r, Search 4 exList 8 exHeap = .ok (r, exList, exHeap) ∧
      (r = none ↔ 8 ∉ [7, 8, 9]) ∧
      (∀ i : Nat, [7, 8, 9][i]? = some 8 → (∀ j, j < i → [7, 8, 9][j]? ≠ some 8) →
        r ≠ none ∧ r = [2, 3, 4][i]?) ∧
      r ≠ exList.head ∧ r ≠ exList.tail :=
  ⟨by decide, by decide, by decide,
    C5_Search_first_match 8 (show WF exList exHeap [2, 3, 4] by decide)
      (show Holds exHeap [2, 3, 4] [7, 8, 9] by decide) (by decide)⟩

/-- C6: on a well-formed non-empty list with contents `xs`, `Front()` returns
the first user node, which holds the first element of `xs`, and `Back()`
returns the last user node, which holds the last element of `xs`; neither is
the head or the tail sentinel, and on a one-element list both are the same
node. -/
theorem C6_Front_Back_nonempty {l : DList} {h : Heap α} {ps : List Nat} {xs : List α}
    (hwf : WF l h ps) (hh : Holds h ps xs) (hne : xs ≠ []) :
    ∃ pf pb, Front l h = .ok (some pf, l, h) ∧ Back l h = .ok (some pb, l, h) ∧
      ps.head? = some pf ∧ ps.getLast? = some pb ∧
      dataOf h pf = xs.head? ∧ dataOf h pb = xs.getLast? ∧
      l.head ≠ some pf ∧ l.tail ≠ some pf ∧ l.head ≠ some pb ∧ l.tail ≠ some pb ∧
      (xs.length = 1 → pf = pb) := by
  have hlen := Holds_length hh
  have hpos : 0 < xs.length := List.length_pos.mpr hne
  have hps : ps ≠ [] := by
    intro e; rw [e] at hlen; simp at hlen; omega
  obtain ⟨pf, rest, e1⟩ := List.exists_cons_of_ne_nil hps
  obtain ⟨init, pb, e2⟩ : ∃ init pb, ps = init ++ [pb] := by
    rcases eq_nil_or_snoc ps with e | e
    · exact absurd e hps
    · exact e
  have hf0 : ps[0]? = some pf := by rw [e1]; simp
  have hb0 : ps[ps.length - 1]? = some pb := by rw [e2]; simp
  obtain ⟨x, hx, hdx⟩ := Holds_at hh hf0
  obtain ⟨y, hy, hdy⟩ := Holds_at hh hb0
  have hmf : pf ∈ ps := by rw [e1]; simp
  have hmb : pb ∈ ps := by rw [e2]; simp
  refine ⟨pf, pb, Front_spec (e1 ▸ hwf), Back_spec (e2 ▸ hwf), by rw [e1]; rfl,
    by rw [e2]; simp, ?_, ?_, (WF_sentinels hwf pf hmf).1, (WF_sentinels hwf pf hmf).2,
    (WF_sentinels hwf pb hmb).1, (WF_sentinels hwf pb hmb).2, ?_⟩
  · rw [hdx, List.head?_eq_getElem?, hx]
  · rw [hdy, List.getLast?_eq_getElem?, ← hlen, hy]
  · intro h1
    have h2 : ps.length = 1 := by rw [hlen]; exact h1
    rw [h2] at hb0
    rw [hf0] at hb0
    exact Option.some.inj hb0

/-- Witness of C6 on the list `[7, 8, 9]` of `exHeap`. -/
theorem C6_Front_Back_nonempty_witness :
    WF exList exHeap [2, 3, 4] ∧ Holds exHeap [2, 3, 4] [7, 8, 9] ∧ [7, 8, 9] ≠ [] ∧
    ∃ pf pb, Front exList exHeap = .ok (some pf, exList, exHeap) ∧
      Back exList exHeap = .ok (some pb, exList, exHeap) ∧
      [2, 3, 4].head? = some pf ∧ [2, 3, 4].getLast? = some pb ∧
      dataOf exHeap pf = [7, 8, 9].head? ∧ dataOf exHeap pb = [7, 8, 9].getLast? ∧
      exList.head ≠ some pf ∧ exList.tail ≠ some pf ∧
      exList.head ≠ some pb ∧ exList.tail ≠ some pb ∧
      ([7, 8, 9].length = 1 → pf = pb) :=
  ⟨by decide, by decide, by decide,
    C6_Front_Back_nonempty (show WF exList exHeap [2, 3, 4] by decide)
      (show Holds exHeap [2, 3, 4] [7, 8, 9] by decide) (by decide)⟩

/-- C7: on a well-formed list, `Front()` fails if and only if `Size()` is 0,
and so does `Back()`; every failure is the empty-list error, raised in the
unchanged state (same `head`, `tail`, `len` and heap). -/
theorem C7_Front_Back_fail_iff_empty {l : DList} {h : Heap α} {ps : List Nat}
    (hwf : WF l h ps) :
    ((∃ e, Front l h = .error e) ↔ Size l = 0) ∧
    ((∃ e, Back l h = .error e) ↔ Size l = 0) ∧
    (∀ e, Front l h = .error e → e = Fault.listIsEmpty l h) ∧
    (∀ e, Back l h = .error e → e = Fault.listIsEmpty l h) := by
  obtain ⟨hd, tl, -, -, -, -, hlen, -⟩ := (WF_iff l h ps).mp hwf
  rcases eq_nil_or_snoc ps with e | ⟨init, pb, e⟩
  · subst e
    obtain ⟨hF, hB⟩ := Front_Back_nil hwf
    have hz : Size l = 0 := by simp [Size, hlen]
    refine ⟨⟨fun _ => hz, fun _ => ⟨_, hF⟩⟩, ⟨fun _ => hz, fun _ => ⟨_, hB⟩⟩, ?_, ?_⟩
    · intro e he; rw [hF] at he; exact (Except.error.inj he).symm
    · intro e he; rw [hB] at he; exact (Except.error.inj he).symm
  · have hps : ps ≠ [] := by rw [e]; simp
    obtain ⟨pf, rest, e1⟩ := List.exists_cons_of_ne_nil hps
    have hF := Front_spec (e1 ▸ hwf)
    have hB := Back_spec (e ▸ hwf)
    have hz : Size l ≠ 0 := by
      have : 0 < ps.length := List.length_pos.mpr hps
      simp only [Size, hlen]; omega
    refine ⟨⟨?_, fun e0 => absurd e0 hz⟩, ⟨?_, fun e0 => absurd e0 hz⟩, ?_, ?_⟩
    · rintro ⟨e0, he⟩; rw [hF] at he; cases he
    · rintro ⟨e0, he⟩; rw [hB] at he; cases he
    · intro e0 he; rw [hF] at he; cases he
    · intro e0 he; rw [hB] at he; cases he

/-- Witness of C7 on the list `[7, 8, 9]` of `exHeap`. -/
theorem C7_Front_Back_fail_iff_empty_witness :
    WF exList exHeap [2, 3, 4] ∧
    ((∃ e, Front exList exHeap = .error e) ↔ Size exList = 0) ∧
    ((∃ e, Back exList exHeap = .error e) ↔ Size exList = 0) ∧
    (∀ e, Front exList exHeap = .error e → e = Fault.listIsEmpty exList exHeap) ∧
    (∀ e, Back exList exHeap = .error e → e = Fault.listIsEmpty exList exHeap) :=
  ⟨by decide, C7_Front_Back_fail_iff_empty (show WF exList exHeap [2, 3, 4] by decide)⟩

/-- C8: on a well-formed list with contents `xs` of any length, `Reverse()`
terminates (fuel above the length suffices) and leaves the contents equal to
`xs` reversed; `head`, `tail` and `len` are unchanged, the same nodes stay at
the same positions with the same forward and backward links, only payloads
of the list's nodes change, and the node at position `i` ends up holding the
value formerly at position `length xs - 1 - i`. -/
theorem C8_Reverse_in_place {l : DList} {h : Heap α} {ps : List Nat} {xs : List α}
    {fuel : Nat} (hwf : WF l h ps) (hh : Holds h ps xs) (hf : xs.length < fuel) :
    ∃ h2, Reverse fuel l h = .ok (l, h2) ∧ WF l h2 ps ∧ Holds h2 ps xs.reverse ∧
      (∀ a, nextOf h2 a = nextOf h a ∧ prevOf h2 a = prevOf h a) ∧
      h2.length = h.length ∧
      (∀ a, a ∉ ps → dataOf h2 a = dataOf h a) ∧
      (∀ (i p : Nat), ps[i]? = some p →
        i < xs.length ∧ dataOf h2 p = xs[xs.length - 1 - i]?) := by
  obtain ⟨h2, hrun, hwf2, hh2, hd2, hn2, hp2, hl2⟩ := Reverse_spec hwf hh hf
  refine ⟨h2, hrun, hwf2, hh2, fun a => ⟨hn2 a, hp2 a⟩, hl2, hd2, ?_⟩
  intro i p hp
  have hi : i < xs.length := by
    rw [← Holds_length hh]; exact (List.getElem?_eq_some.mp hp).1
  obtain ⟨x, hx, hdx⟩ := Holds_at hh2 hp
  rw [List.getElem?_reverse hi] at hx
  exact ⟨hi, by rw [hdx, hx]⟩

/-- Witness of C8: reversing the list `[7, 8, 9]` of `exHeap`. -/
theorem C8_Reverse_in_place_witness :
    WF exList exHeap [2, 3, 4] ∧ Holds exHeap [2, 3, 4] [7, 8, 9] ∧ [7, 8, 9].length < 4 ∧
    ∃ h2, Reverse 4 exList exHeap = .ok (exList, h2) ∧ WF exList h2 [2, 3, 4] ∧
      Holds h2 [2, 3, 4] [7, 8, 9].reverse ∧
      (∀ a, nextOf h2 a = nextOf exHeap a ∧ prevOf h2 a = prevOf exHeap a) ∧
      h2.length = exHeap.length ∧
      (∀ a, a ∉ [2, 3, 4] → dataOf h2 a = dataOf exHeap a) ∧
      (∀ (i p : Nat), [2, 3, 4][i]? = some p →
        i < [7, 8, 9].length ∧ dataOf h2 p = [7, 8, 9][[7, 8, 9].length - 1 - i]?) :=
  ⟨by decide, by decide, by decide,
    C8_Reverse_in_place (show WF exList exHeap [2, 3, 4] by decide)
      (show Holds exHeap [2, 3, 4] [7, 8, 9] by decide) (by decide)⟩

/-- C9: for two well-formed lists of one heap, given by the addresses `this`
and `rhs` of their `List` objects (equal addresses meaning the same
instance), `operator==` returns `true` if and only if the two lists have the
same length and pairwise equal contents in traversal order; it returns
`false` whenever the lengths differ and `true` on the same instance. -/
theorem C9_operator_eq [DecidableEq α] {objs : Nat → DList} {this rhs : Nat} {h : Heap α}
    {ps qs : List Nat} {xs ys : List α} {fuel : Nat}
    (hw1 : WF (objs this) h ps) (hw2 : WF (objs rhs) h qs)
    (hh1 : Holds h ps xs) (hh2 : Holds h qs ys) (hf : xs.length < fuel) :
    ∃ b, operator_eq fuel objs this rhs h = .ok b ∧
      (b = true ↔ (xs.length = ys.length ∧ ∀ i : Nat, i < xs.length → xs[i]? = ys[i]?)) ∧
      (xs.length ≠ ys.length → b = false) ∧ (this = rhs → b = true) := by
  have hrun := operator_eq_spec hw1 hw2 hh1 hh2 hf
  refine ⟨decide (xs = ys), hrun, ?_, ?_, ?_⟩
  · rw [decide_eq_true_iff]
    constructor
    · intro e; subst e; exact ⟨rfl, fun _ _ => rfl⟩
    · rintro ⟨hlen, hall⟩
      apply List.ext_getElem?
      intro i
      by_cases hi : i < xs.length
      · exact hall i hi
      · rw [List.getElem?_eq_none (Nat.le_of_not_lt hi),
          List.getElem?_eq_none (by rw [← hlen]; exact Nat.le_of_not_lt hi)]
  · intro hlen
    rw [decide_eq_false_iff_not]
    intro e; exact hlen (by rw [e])
  · intro e
    subst e
    have hrun2 : operator_eq fuel objs this this h = .ok true := by simp [operator_eq]
    rw [hrun] at hrun2
    exact Except.ok.inj hrun2

/-- Witness of C9: two `List` objects of `exObjs` over the list of `exHeap`. -/
theorem C9_operator_eq_witness :
    WF (exObjs 0) exHeap [2, 3, 4] ∧ WF (exObjs 1) exHeap [2, 3, 4] ∧
    Holds exHeap [2, 3, 4] [7, 8, 9] ∧ [7, 8, 9].length < 4 ∧
    ∃ b, operator_eq 4 exObjs 0 1 exHeap = .ok b ∧
      (b = true ↔ ([7, 8, 9].length = [7, 8, 9].length ∧
        ∀ i : Nat, i < [7, 8, 9].length → [7, 8, 9][i]? = [7, 8, 9][i]?)) ∧
      ([7, 8, 9].length ≠ [7, 8, 9].length → b = false) ∧ (0 = 1 → b = true) :=
  ⟨by decide, by decide, by decide, by decide,
    C9_operator_eq (show WF (exObjs 0) exHeap [2, 3, 4] by decide)
      (show WF (exObjs 1) exHeap [2, 3, 4] by decide)
      (show Holds exHeap [2, 3, 4] [7, 8, 9] by decide)
      (show Holds exHeap [2, 3, 4] [7, 8, 9] by decide) (by decide)⟩

/-- C10: on a well-formed list with contents `xs`, for the handle `p` of the
user node at position `i`, `MoveToFront(p)` returns a well-formed list with
contents `xs[i]` followed by `xs` without position `i`, and `MoveToBack(p)`
one with contents `xs` without position `i` followed by `xs[i]`; in both
cases `head`, `tail` and `len` are unchanged and `p` still holds its value;
both equal `Remove(p)` followed by `PushFront(p)` / `PushBack(p)`; and
`MoveToBack(Front())` followed by `MoveToFront(Back())` restores the original
nodes and contents. -/
theorem C10_MoveToFront_MoveToBack {l : DList} {h : Heap α} {ps : List Nat} {xs : List α}
    {i p : Nat} (hwf : WF l h ps) (hh : Holds h ps xs) (hp : ps[i]? = some p) :
    ∃ x, xs[i]? = some x ∧
      (∃ h2, MoveToFront l (some p) h = .ok (l, h2) ∧ WF l h2 (p :: ps.eraseIdx i) ∧
        Holds h2 (p :: ps.eraseIdx i) (x :: xs.eraseIdx i) ∧ dataOf h2 p = some x) ∧
      (∃ h3, MoveToBack l (some p) h = .ok (l, h3) ∧ WF l h3 (ps.eraseIdx i ++ [p]) ∧
        Holds h3 (ps.eraseIdx i ++ [p]) (xs.eraseIdx i ++ [x]) ∧ dataOf h3 p = some x) ∧
      MoveToFront l (some p) h =
        (Remove l (some p) h >>= fun s => PushFrontNode s.1 (some p) s.2) ∧
      MoveToBack l (some p) h =
        (Remove l (some p) h >>= fun s => PushBackNode s.1 (some p) s.2) ∧
      (∃ pf pb h4 h5, Front l h = .ok (some pf, l, h) ∧
        MoveToBack l (some pf) h = .ok (l, h4) ∧ Back l h4 = .ok (some pb, l, h4) ∧
        MoveToFront l (some pb) h4 = .ok (l, h5) ∧ WF l h5 ps ∧ Holds h5 ps xs) := by
  obtain ⟨x, hx, hdx⟩ := Holds_at hh hp
  have hs := split_at hp
  have hwf0 := hwf
  rw [hs] at hwf0
  have her : ps.eraseIdx i = ps.take i ++ ps.drop (i + 1) := List.eraseIdx_eq_take_drop_succ ps i
  have hhe : Holds h (ps.eraseIdx i) (xs.eraseIdx i) := Holds_eraseIdx hh i
  have hhp : Holds h [p] [x] := (Holds_cons h p [] [x]).mpr ⟨x, [], rfl, hdx, rfl⟩
  refine ⟨x, hx, ?_, ?_, ?_, ?_, ?_⟩
  · obtain ⟨h2, hrun, hwf2, -, hd2⟩ := MoveToFront_spec hwf0
    rw [← her] at hwf2
    refine ⟨h2, hrun, hwf2, ?_, by rw [hd2, hdx]⟩
    exact Holds_congr (fun q _ => hd2 q) (Holds_append hhp hhe)
  · obtain ⟨h3, hrun, hwf3, -, hd3⟩ := MoveToBack_spec hwf0
    rw [← her] at hwf3
    refine ⟨h3, hrun, hwf3, ?_, by rw [hd3, hdx]⟩
    exact Holds_congr (fun q _ => hd3 q) (Holds_append hhe hhp)
  · simp only [MoveToFront]
    rw [if_neg (by simp)]
  · simp only [MoveToBack]
    rw [if_neg (by simp)]
  · have hps : ps ≠ [] := by
      intro e; rw [e] at hp; simp at hp
    obtain ⟨pf, rest, e1⟩ := List.exists_cons_of_ne_nil hps
    subst e1
    obtain ⟨h4, hrun4, hwf4, -, hd4⟩ :=
      MoveToBack_spec (show WF l h ([] ++ pf :: rest) from hwf)
    have hwf4b : WF l h4 (rest ++ pf :: []) := by simpa using hwf4
    obtain ⟨h5, hrun5, hwf5, -, hd5⟩ := MoveToFront_spec hwf4b
    have hwf5b : WF l h5 (pf :: rest) := by simpa using hwf5
    refine ⟨pf, pf, h4, h5, Front_spec hwf, hrun4, Back_spec hwf4b, hrun5, hwf5b, ?_⟩
    exact Holds_congr (fun q _ => by rw [hd5, hd4]) hh

/-- Witness of C10: moving the node at position 1 of the list `[7, 8, 9]` of
`exHeap`. -/
theorem C10_MoveToFront_MoveToBack_witness :
    WF exList exHeap [2, 3, 4] ∧ Holds exHeap [2, 3, 4] [7, 8, 9] ∧ [2, 3, 4][1]? = some 3 ∧
    ∃ x, [7, 8, 9][1]? = some x ∧
      (∃ h2, MoveToFront exList (some 3) exHeap = .ok (exList, h2) ∧
        WF exList h2 (3 :: [2, 3, 4].eraseIdx 1) ∧
        Holds h2 (3 :: [2, 3, 4].eraseIdx 1) (x :: [7, 8, 9].eraseIdx 1) ∧
        dataOf h2 3 = some x) ∧
      (∃ h3, MoveToBack exList (some 3) exHeap = .ok (exList, h3) ∧
        WF exList h3 ([2, 3, 4].eraseIdx 1 ++ [3]) ∧
        Holds h3 ([2, 3, 4].eraseIdx 1 ++ [3]) ([7, 8, 9].eraseIdx 1 ++ [x]) ∧
        dataOf h3 3 = some x) ∧
      MoveToFront exList (some 3) exHeap =
        (Remove exList (some 3) exHeap >>= fun s => PushFrontNode s.1 (some 3) s.2) ∧
      MoveToBack exList (some 3) exHeap =
        (Remove exList (some 3) exHeap >>= fun s => PushBackNode s.1 (some 3) s.2) ∧
      (∃ pf pb h4 h5, Front exList exHeap = .ok (some pf, exList, exHeap) ∧
        MoveToBack exList (some pf) exHeap = .ok (exList, h4) ∧
        Back exList h4 = .ok (some pb, exList, h4) ∧
        MoveToFront exList (some pb) h4 = .ok (exList, h5) ∧ WF exList h5 [2, 3, 4] ∧
        Holds h5 [2, 3, 4] [7, 8, 9]) :=
  ⟨by decide, by decide, by decide,
    C10_MoveToFront_MoveToBack (show WF exList exHeap [2, 3, 4] by decide)
      (show Holds exHeap [2, 3, 4] [7, 8, 9] by decide)
      (show [2, 3, 4][1]? = some 3 by decide)⟩

/-- C11: the copy constructor, run on a well-formed list `src` with contents
`xs`, returns a well-formed list with the same contents in the same order and
the same `Size()`, no node of which (sentinels included) is a node of `src`;
`src` and every cell that existed before are unchanged; afterwards, writing a
payload through a handle to a user node of one of the two lists changes that
list's contents at that position only and leaves the other list's contents
as they were. -/
theorem C11_copy_independent [Inhabited α] {src : DList} {h : Heap α} {ps : List Nat}
    {xs : List α} {fuel : Nat} (hwf : WF src h ps) (hh : Holds h ps xs)
    (hf : xs.length < fuel) :
    ∃ cp h1 qs, List_copy fuel src h = .ok (cp, h1) ∧
      WF cp h1 qs ∧ Holds h1 qs xs ∧ Size cp = Size src ∧
      (∀ a, (cp.head = some a ∨ a ∈ qs ∨ cp.tail = some a) →
        ¬ (src.head = some a ∨ a ∈ ps ∨ src.tail = some a)) ∧
      WF src h1 ps ∧ Holds h1 ps xs ∧ SameBelow h.length h h1 ∧
      (∀ (i p : Nat) (d : α), ps[i]? = some p →
        ∃ h2, setData h1 (some p) d = .ok h2 ∧ Holds h2 ps (xs.set i d) ∧ Holds h2 qs xs ∧
          WF src h2 ps ∧ WF cp h2 qs) ∧
      (∀ (i q : Nat) (d : α), qs[i]? = some q →
        ∃ h2, setData h1 (some q) d = .ok h2 ∧ Holds h2 qs (xs.set i d) ∧ Holds h2 ps xs ∧
          WF src h2 ps ∧ WF cp h2 qs) := by
  obtain ⟨cp, h1, qs, hrun, hwfc, hhc, hlenc, hge, hsame, hwfs, hhs, hlen⟩ :=
    List_copy_spec hwf hh hf
  have hnodes := WF_nodes_lt hwf
  obtain ⟨-, -, -, -, -, -, hl1, -⟩ := (WF_iff src h ps).mp hwf
  have hdisj : ∀ a, a ∈ qs → a ∉ ps := fun a ha hm =>
    Nat.lt_irrefl _ (Nat.lt_of_lt_of_le (hnodes a (Or.inr (Or.inl hm))) (hge a (Or.inr (Or.inl ha))))
  refine ⟨cp, h1, qs, hrun, hwfc, hhc, ?_, ?_, hwfs, hhs, hsame, ?_, ?_⟩
  · simp only [Size]; rw [hlenc, hl1, Holds_length hh]
  · intro a ha hb
    exact Nat.lt_irrefl _ (Nat.lt_of_lt_of_le (hnodes a hb) (hge a ha))
  · intro i p d hp
    have hmem : p ∈ ps := List.getElem?_mem hp
    have hplt : p < h1.length := (WF_lt hwfs).1 p hmem
    exact ⟨updData h1 p d, setData_some hplt d,
      Holds_updData_at d hplt ps xs i hhs (WF_nodup hwfs) hp,
      Holds_updData_off d hplt hhc (fun hq => hdisj p hq hmem),
      WF_updData hwfs p d, WF_updData hwfc p d⟩
  · intro i q d hq
    have hmem : q ∈ qs := List.getElem?_mem hq
    have hqlt : q < h1.length := (WF_lt hwfc).1 q hmem
    exact ⟨updData h1 q d, setData_some hqlt d,
      Holds_updData_at d hqlt qs xs i hhc (WF_nodup hwfc) hq,
      Holds_updData_off d hqlt hhs (fun hp => hdisj q hmem hp),
      WF_updData hwfs q d, WF_updData hwfc q d⟩

/-- Witness of C11: copying the list `[7, 8, 9]` of `exHeap`. -/
theorem C11_copy_independent_witness :
    WF exList exHeap [2, 3, 4] ∧ Holds exHeap [2, 3, 4] [7, 8, 9] ∧ [7, 8, 9].length < 4 ∧
    ∃ cp h1 qs, List_copy 4 exList exHeap = .ok (cp, h1) ∧
      WF cp h1 qs ∧ Holds h1 qs [7, 8, 9] ∧ Size cp = Size exList ∧
      (∀ a, (cp.head = some a ∨ a ∈ qs ∨ cp.tail = some a) →
        ¬ (exList.head = some a ∨ a ∈ [2, 3, 4] ∨ exList.tail = some a)) ∧
      WF exList h1 [2, 3, 4] ∧ Holds h1 [2, 3, 4] [7, 8, 9] ∧
      SameBelow exHeap.length exHeap h1 ∧
      (∀ (i p : Nat) (d : Nat), [2, 3, 4][i]? = some p →
        ∃ h2, setData h1 (some p) d = .ok h2 ∧ Holds h2 [2, 3, 4] ([7, 8, 9].set i d) ∧
          Holds h2 qs [7, 8, 9] ∧ WF exList h2 [2, 3, 4] ∧ WF cp h2 qs) ∧
      (∀ (i q : Nat) (d : Nat), qs[i]? = some q →
        ∃ h2, setData h1 (some q) d = .ok h2 ∧ Holds h2 qs ([7, 8, 9].set i d) ∧
          Holds h2 [2, 3, 4] [7, 8, 9] ∧ WF exList h2 [2, 3, 4] ∧ WF cp h2 qs) :=
  ⟨by decide, by decide, by decide,
    C11_copy_independent (show WF exList exHeap [2, 3, 4] by decide)
      (show Holds exHeap [2, 3, 4] [7, 8, 9] by decide) (by decide)⟩

/-- C12: for a well-formed list `a` with contents `xs`, move-constructing a
list from `a`, and move-assigning `a` into an existing list `b`, both return
a well-formed list with contents `xs` and `Size()` equal to `length xs`, and
leave `a` with `Size()` equal to 0 (its sentinels are null). -/
theorem C12_move_transfers [Inhabited α] {a : DList} (b : DList) {h : Heap α}
    {ps : List Nat} {xs : List α} {fuel : Nat} (hwa : WF a h ps) (hha : Holds h ps xs)
    (hf : 0 < fuel) :
    (∃ b2 a2 h1, List_move a h = .ok (b2, a2, h1) ∧ WF b2 h1 ps ∧ Holds h1 ps xs ∧
      Size b2 = xs.length ∧ Size a2 = 0 ∧ a2.head = none ∧ a2.tail = none) ∧
    (∃ b2 a2 h1, move_assign fuel b a h = .ok (b2, a2, h1) ∧ WF b2 h1 ps ∧ Holds h1 ps xs ∧
      Size b2 = xs.length ∧ Size a2 = 0 ∧ a2.head = none ∧ a2.tail = none) := by
  obtain ⟨-, -, -, -, -, -, hl1, -⟩ := (WF_iff a h ps).mp hwa
  have hsz : Size a = xs.length := by simp only [Size]; rw [hl1, Holds_length hha]
  obtain ⟨k, rfl⟩ : ∃ k, fuel = k + 1 := ⟨fuel - 1, by omega⟩
  constructor
  · obtain ⟨h1, hrun, hw, hh, -⟩ := List_move_spec hwa hha
    exact ⟨_, _, h1, hrun, hw, hh, hsz, rfl, rfl, rfl⟩
  · obtain ⟨h1, hrun, hw, hh, -⟩ := move_assign_spec b k hwa hha
    exact ⟨_, _, h1, hrun, hw, hh, hsz, rfl, rfl, rfl⟩

/-- Witness of C12: moving the list `[7, 8, 9]` of `exHeapTwo`, and
move-assigning it into the empty list `exEmpty`. -/
theorem C12_move_transfers_witness :
    WF exList exHeapTwo [2, 3, 4] ∧ Holds exHeapTwo [2, 3, 4] [7, 8, 9] ∧ 0 < 1 ∧
    ((∃ b2 a2 h1, List_move exList exHeapTwo = .ok (b2, a2, h1) ∧ WF b2 h1 [2, 3, 4] ∧
      Holds h1 [2, 3, 4] [7, 8, 9] ∧
      Size b2 = [7, 8, 9].length ∧ Size a2 = 0 ∧ a2.head = none ∧ a2.tail = none) ∧
    (∃ b2 a2 h1, move_assign 1 exEmpty exList exHeapTwo = .ok (b2, a2, h1) ∧
      WF b2 h1 [2, 3, 4] ∧ Holds h1 [2, 3, 4] [7, 8, 9] ∧
      Size b2 = [7, 8, 9].length ∧ Size a2 = 0 ∧ a2.head = none ∧ a2.tail = none)) :=
  ⟨by decide, by decide, by decide,
    C12_move_transfers exEmpty (show WF exList exHeapTwo [2, 3, 4] by decide)
      (show Holds exHeapTwo [2, 3, 4] [7, 8, 9] by decide) (by decide)⟩

/-- C13: for a well-formed list, after taking a snapshot copy and applying
`Reverse()` twice, every node holds again the value it held originally (and
no link has changed), and the list compares equal to the snapshot. -/
theorem C13_Reverse_twice [Inhabited α] [DecidableEq α] {l : DList} {h : Heap α}
    {ps : List Nat} {xs : List α} {fuel : Nat} (hwf : WF l h ps) (hh : Holds h ps xs)
    (hf : xs.length < fuel) :
    ∃ snap h1 h2 h3, List_copy fuel l h = .ok (snap, h1) ∧
      Reverse fuel l h1 = .ok (l, h2) ∧ Reverse fuel l h2 = .ok (l, h3) ∧
      (∀ a, dataOf h3 a = dataOf h1 a ∧ nextOf h3 a = nextOf h1 a ∧
        prevOf h3 a = prevOf h1 a) ∧
      (∀ (objs : Nat → DList) (this rhs : Nat), objs this = l → objs rhs = snap →
        operator_eq fuel objs this rhs h3 = .ok true) := by
  obtain ⟨snap, h1, qs, hrun, hwfc, hhc, -, -, -, hwfs, hhs, -⟩ := List_copy_spec hwf hh hf
  obtain ⟨h2, h3, hrun2, hrun3, hwf3, hh3, hsame⟩ := Reverse_twice_spec hwfs hhs hf
  refine ⟨snap, h1, h2, h3, hrun, hrun2, hrun3, hsame, ?_⟩
  intro objs this rhs e1 e2
  have hwfc3 : WF snap h3 qs :=
    WF_same_links hwfc (fun a => (hsame a).2.1) (fun a => (hsame a).2.2)
  have hhc3 : Holds h3 qs xs := Holds_congr (fun q _ => (hsame q).1) hhc
  have := operator_eq_spec (e1 ▸ hwf3 : WF (objs this) h3 ps)
    (e2 ▸ hwfc3 : WF (objs rhs) h3 qs) hh3 hhc3 hf
  simpa using this

/-- Witness of C13 on the list `[7, 8, 9]` of `exHeap`. -/
theorem C13_Reverse_twice_witness :
    WF exList exHeap [2, 3, 4] ∧ Holds exHeap [2, 3, 4] [7, 8, 9] ∧ [7, 8, 9].length < 4 ∧
    ∃ snap h1 h2 h3, List_copy 4 exList exHeap = .ok (snap, h1) ∧
      Reverse 4 exList h1 = .ok (exList, h2) ∧ Reverse 4 exList h2 = .ok (exList, h3) ∧
      (∀ a, dataOf h3 a = dataOf h1 a ∧ nextOf h3 a = nextOf h1 a ∧
        prevOf h3 a = prevOf h1 a) ∧
      (∀ (objs : Nat → DList) (this rhs : Nat), objs this = exList → objs rhs = snap →
        operator_eq 4 objs this rhs h3 = .ok true) :=
  ⟨by decide, by decide, by decide,
    C13_Reverse_twice (show WF exList exHeap [2, 3, 4] by decide)
      (show Holds exHeap [2, 3, 4] [7, 8, 9] by decide) (by decide)⟩

/-- C14: `Remove`, `MoveToFront` and `MoveToBack` called with the null handle
return normally with the list object and the heap exactly as they were; in
particular a well-formed list still compares equal to a snapshot copy taken
before the call. -/
theorem C14_null_handle_noop [Inhabited α] [DecidableEq α] {l : DList} {h : Heap α}
    {ps : List Nat} {xs : List α} {fuel : Nat} (hwf : WF l h ps) (hh : Holds h ps xs)
    (hf : xs.length < fuel) :
    ∃ snap h1, List_copy fuel l h = .ok (snap, h1) ∧
      Remove l none h1 = .ok (l, h1) ∧ MoveToFront l none h1 = .ok (l, h1) ∧
      MoveToBack l none h1 = .ok (l, h1) ∧ WF l h1 ps ∧ Holds h1 ps xs ∧
      (∀ (objs : Nat → DList) (this rhs : Nat), objs this = l → objs rhs = snap →
        operator_eq fuel objs this rhs h1 = .ok true) := by
  obtain ⟨snap, h1, qs, hrun, hwfc, hhc, -, -, -, hwfs, hhs, -⟩ := List_copy_spec hwf hh hf
  refine ⟨snap, h1, hrun, rfl, rfl, rfl, hwfs, hhs, ?_⟩
  intro objs this rhs e1 e2
  have := operator_eq_spec (e1 ▸ hwfs : WF (objs this) h1 ps)
    (e2 ▸ hwfc : WF (objs rhs) h1 qs) hhs hhc hf
  simpa using this

/-- Witness of C14 on the list `[7, 8, 9]` of `exHeap`. -/
theorem C14_null_handle_noop_witness :
    WF exList exHeap [2, 3, 4] ∧ Holds exHeap [2, 3, 4] [7, 8, 9] ∧ [7, 8, 9].length < 4 ∧
    ∃ snap h1, List_copy 4 exList exHeap = .ok (snap, h1) ∧
      Remove exList none h1 = .ok (exList, h1) ∧ MoveToFront exList none h1 = .ok (exList, h1) ∧
      MoveToBack exList none h1 = .ok (exList, h1) ∧ WF exList h1 [2, 3, 4] ∧
      Holds h1 [2, 3, 4] [7, 8, 9] ∧
      (∀ (objs : Nat → DList) (this rhs : Nat), objs this = exList → objs rhs = snap →
        operator_eq 4 objs this rhs h1 = .ok true) :=
  ⟨by decide, by decide, by decide,
    C14_null_handle_noop (show WF exList exHeap [2, 3, 4] by decide)
      (show Holds exHeap [2, 3, 4] [7, 8, 9] by decide) (by decide)⟩

/-- C15: on a well-formed non-empty list, `MoveToFront(Front())` and
`MoveToBack(Back())` each return the same list object (same `Size()`) with
the same node at every position and the same contents in the same order. -/
theorem C15_move_end_noop {l : DList} {h : Heap α} {ps : List Nat} {xs : List α}
    (hwf : WF l h ps) (hh : Holds h ps xs) (hne : xs ≠ []) :
    ∃ pf pb h2 h3, Front l h = .ok (some pf, l, h) ∧
      MoveToFront l (some pf) h = .ok (l, h2) ∧ WF l h2 ps ∧ Holds h2 ps xs ∧
      Back l h = .ok (some pb, l, h) ∧
      MoveToBack l (some pb) h = .ok (l, h3) ∧ WF l h3 ps ∧ Holds h3 ps xs := by
  have hlen := Holds_length hh
  have hps : ps ≠ [] := by
    intro e; rw [e] at hlen
    exact hne (List.length_eq_zero.mp hlen.symm)
  obtain ⟨pf, rest, e1⟩ := List.exists_cons_of_ne_nil hps
  obtain ⟨init, pb, e2⟩ : ∃ init pb, ps = init ++ [pb] := by
    rcases eq_nil_or_snoc ps with e | e
    · exact absurd e hps
    · exact e
  obtain ⟨h2, hrun2, hwf2, -, hd2⟩ :=
    MoveToFront_spec (show WF l h ([] ++ pf :: rest) from e1 ▸ hwf)
  obtain ⟨h3, hrun3, hwf3, -, hd3⟩ :=
    MoveToBack_spec (show WF l h (init ++ pb :: []) from e2 ▸ hwf)
  refine ⟨pf, pb, h2, h3, Front_spec (e1 ▸ hwf), hrun2, ?_,
    Holds_congr (fun q _ => hd2 q) hh, Back_spec (e2 ▸ hwf), hrun3, ?_,
    Holds_congr (fun q _ => hd3 q) hh⟩
  · rw [e1]; simpa using hwf2
  · rw [e2]; simpa using hwf3

/-- Witness of C15 on the list `[7, 8, 9]` of `exHeap`. -/
theorem C15_move_end_noop_witness :
    WF exList exHeap [2, 3, 4] ∧ Holds exHeap [2, 3, 4] [7, 8, 9] ∧ [7, 8, 9] ≠ [] ∧
    ∃ pf pb h2 h3, Front exList exHeap = .ok (some pf, exList, exHeap) ∧
      MoveToFront exList (some pf) exHeap = .ok (exList, h2) ∧ WF exList h2 [2, 3, 4] ∧
      Holds h2 [2, 3, 4] [7, 8, 9] ∧
      Back exList exHeap = .ok (some pb, exList, exHeap) ∧
      MoveToBack exList (some pb) exHeap = .ok (exList, h3) ∧ WF exList h3 [2, 3, 4] ∧
      Holds h3 [2, 3, 4] [7, 8, 9] :=
  ⟨by decide, by decide, by decide,
    C15_move_end_noop (show WF exList exHeap [2, 3, 4] by decide)
      (show Holds exHeap [2, 3, 4] [7, 8, 9] by decide) (by decide)⟩

/-- C16: on a well-formed list the loop `while (!IsEmpty()) Remove(Front())`
returns normally after exactly `Size()` iterations (fuel above the length
suffices), never raising the empty-list error; it ends with `Size()` equal to
0, and the list then compares equal to a freshly constructed empty list. -/
theorem C16_drain_to_empty [Inhabited α] [DecidableEq α] {l : DList} {h : Heap α}
    {ps : List Nat} {fuel : Nat} (hwf : WF l h ps) (hf : ps.length < fuel) :
    ∃ l2 h2, drain fuel l h = .ok (Size l, l2, h2) ∧ Size l2 = 0 ∧ WF l2 h2 [] ∧
      ∃ e h3, List_default h2 = .ok (e, h3) ∧
        ∀ (objs : Nat → DList) (this rhs : Nat), objs this = l2 → objs rhs = e →
          operator_eq fuel objs this rhs h3 = .ok true := by
  obtain ⟨-, -, -, -, -, -, hl1, -⟩ := (WF_iff l h ps).mp hwf
  obtain ⟨h2, hrun, hwf2, -⟩ := drain_spec ps l h fuel hwf hf
  obtain ⟨h3, hrun3, hwf3, -, hfr⟩ := List_default_spec h2
  have hs : SameBelow h2.length h2 h3 := fun a ha => hfr a ha
  have hwf23 := WF_below hwf2 (WF_nodes_lt hwf2) hs
  refine ⟨{ l with len := 0 }, h2, by simp only [Size]; rw [hl1]; exact hrun, rfl, hwf2,
    _, h3, hrun3, ?_⟩
  intro objs this rhs e1 e2
  have := operator_eq_spec (e1 ▸ hwf23 : WF (objs this) h3 [])
    (e2 ▸ hwf3 : WF (objs rhs) h3 []) (show Holds h3 [] ([] : List α) from rfl)
    (show Holds h3 [] ([] : List α) from rfl) (Nat.lt_of_le_of_lt (Nat.zero_le _) hf)
  simpa using this

/-- Witness of C16: draining the list `[7, 8, 9]` of `exHeap`. -/
theorem C16_drain_to_empty_witness :
    WF exList exHeap [2, 3, 4] ∧ [2, 3, 4].length < 4 ∧
    ∃ l2 h2, drain 4 exList exHeap = .ok (Size exList, l2, h2) ∧ Size l2 = 0 ∧
      WF l2 h2 [] ∧
      ∃ e h3, List_default h2 = .ok (e, h3) ∧
        ∀ (objs : Nat → DList) (this rhs : Nat), objs this = l2 → objs rhs = e →
          operator_eq 4 objs this rhs h3 = .ok true :=
  ⟨by decide, by decide,
    C16_drain_to_empty (show WF exList exHeap [2, 3, 4] by decide) (by decide)⟩

/-- C17, as stated, fails: on the well-formed list `[7, 8, 9]` of `exHeap`,
`PushFront(node)` with the node at position 1, which is linked in the list,
returns a state in which head's forward chain never reaches tail. -/
theorem C17_linked_node_counterexample :
    WF exList exHeap [2, 3, 4] ∧ [2, 3, 4][1]? = some 3 ∧
    PushFrontNode exList (some 3) exHeap =
      .ok ({ head := some 0, tail := some 1, len := 4 }, exHeapCycle) ∧
    ∀ ps, ¬ Reaches exHeapCycle 0 ps 1 ∧
      ¬ FwdInv { head := some 0, tail := some 1, len := 4 } exHeapCycle ps := by
  refine ⟨by decide, by decide, by decide, fun ps => ?_⟩
  have hr : ¬ Reaches exHeapCycle 0 ps 1 := exHeapCycle_no_exit ps 0 (Or.inl rfl)
  exact ⟨hr, fun hinv => hr hinv.1⟩

/-- C17, amended: on a well-formed list (whose count can grow by one within
`std::size_t`), for a non-null handle to an allocated node that is not
linked in the list (a new node, or an existing node that is neither a
sentinel nor a user node of the list), `PushFront(node)` makes it the node
immediately after head, increases the count by exactly 1, and leaves the
list well-formed, so that head's forward chain reaches tail and the count
equals the number of user nodes on it. -/
theorem C17_PushFront_detached_node {l : DList} {h : Heap α} {ps : List Nat} {A : Nat}
    (hwf : WF l h ps) (hA : A < h.length) (hAh : l.head ≠ some A) (hAt : l.tail ≠ some A)
    (hAps : A ∉ ps) (hlen : ps.length + 1 < SIZE_RANGE) :
    ∃ l2 h2, PushFrontNode l (some A) h = .ok (l2, h2) ∧
      getNext h2 l2.head = .ok (some A) ∧ Size l2 = Size l + 1 ∧
      WF l2 h2 (A :: ps) ∧ FwdInv l2 h2 (A :: ps) := by
  obtain ⟨hd, tl, e1, e2, -, -, hl1, -⟩ := (WF_iff l h ps).mp hwf
  obtain ⟨h2, hrun, hwf2, -⟩ := PushFrontNode_spec hwf hA hAh hAt hAps hlen
  have hF := Front_spec hwf2
  refine ⟨_, h2, hrun, ?_, by simp [Size, hl1], hwf2, WF_FwdInv hwf2⟩
  obtain ⟨hd2, tl2, e3, -, hL2, -⟩ := (WF_iff _ h2 (A :: ps)).mp hwf2
  simp only [List.cons_append, Linked_cons_cons] at hL2
  rw [e3, getNext_some (lt_of_nextOf hL2.1.1), hL2.1.1]

/-- Witness of the amended C17: pushing the spare node 5 of `exHeapSpare` in
front of the list `[7, 8, 9]`. -/
theorem C17_PushFront_detached_node_witness :
    WF exList exHeapSpare [2, 3, 4] ∧ 5 < exHeapSpare.length ∧ exList.head ≠ some 5 ∧
    exList.tail ≠ some 5 ∧ 5 ∉ [2, 3, 4] ∧ [2, 3, 4].length + 1 < SIZE_RANGE ∧
    ∃ l2 h2, PushFrontNode exList (some 5) exHeapSpare = .ok (l2, h2) ∧
      getNext h2 l2.head = .ok (some 5) ∧ Size l2 = Size exList + 1 ∧
      WF l2 h2 (5 :: [2, 3, 4]) ∧ FwdInv l2 h2 (5 :: [2, 3, 4]) :=
  ⟨by decide, by decide, by decide, by decide, by decide, by decide,
    C17_PushFront_detached_node (show WF exList exHeapSpare [2, 3, 4] by decide) (by decide)
      (by decide) (by decide) (by decide) (by decide)⟩

/-- C18: every mutating operation returns normally (no null dereference) and
preserves well-formedness: on a well-formed list, the default constructor,
`PushFront(value)`, `PushBack(value)` and `PushBack(sequence)` (when the new
count fits `std::size_t`), `Reverse()` (fuel above the length suffices), and
`Remove`, `MoveToFront`, `MoveToBack` with a null handle or a handle to a
user node of the list, all return a well-formed list. -/
theorem C18_WF_preserved [Inhabited α] {l : DList} {h : Heap α} {ps : List Nat}
    (hwf : WF l h ps) :
    (∃ l2 h2, List_default h = .ok (l2, h2) ∧ WF l2 h2 [] ∧ WF l h2 ps) ∧
    (∀ v : α, ps.length + 1 < SIZE_RANGE →
      ∃ l2 h2 ps2, PushFront l v h = .ok (l2, h2) ∧ WF l2 h2 ps2) ∧
    (∀ v : α, ps.length + 1 < SIZE_RANGE →
      ∃ l2 h2 ps2, PushBack l v h = .ok (l2, h2) ∧ WF l2 h2 ps2) ∧
    (∀ items : List α, ps.length + items.length < SIZE_RANGE →
      ∃ l2 h2 ps2, PushBackItems l items h = .ok (l2, h2) ∧ WF l2 h2 ps2) ∧
    (∀ fuel, ps.length < fuel → ∃ h2, Reverse fuel l h = .ok (l, h2) ∧ WF l h2 ps) ∧
    (∀ node : ItemPtr, (node = none ∨ ∃ p ∈ ps, node = some p) →
      (∃ l2 h2 ps2, Remove l node h = .ok (l2, h2) ∧ WF l2 h2 ps2) ∧
      (∃ l2 h2 ps2, MoveToFront l node h = .ok (l2, h2) ∧ WF l2 h2 ps2) ∧
      (∃ l2 h2 ps2, MoveToBack l node h = .ok (l2, h2) ∧ WF l2 h2 ps2)) := by
  obtain ⟨xs, hh⟩ := WF_contents hwf
  have hlx := Holds_length hh
  refine ⟨?_, ?_, ?_, ?_, ?_, ?_⟩
  · obtain ⟨h2, hrun, hwf2, -, hfr⟩ := List_default_spec h
    exact ⟨_, h2, hrun, hwf2, WF_below hwf (WF_nodes_lt hwf) (fun a ha => hfr a ha)⟩
  · intro v hlen
    obtain ⟨h2, hrun, hwf2, -⟩ := PushFront_spec v hwf hh hlen
    exact ⟨_, h2, _, hrun, hwf2⟩
  · intro v hlen
    obtain ⟨h2, hrun, hwf2, -⟩ := PushBack_spec v hwf hh hlen
    exact ⟨_, h2, _, hrun, hwf2⟩
  · intro items hlen
    obtain ⟨h2, hrun, hwf2, -⟩ := PushBackItems_spec items hwf hh hlen
    exact ⟨_, h2, _, hrun, hwf2⟩
  · intro fuel hf
    obtain ⟨h2, hrun, hwf2, -⟩ := Reverse_spec hwf hh (by rw [← hlx]; exact hf)
    exact ⟨h2, hrun, hwf2⟩
  · intro node hnode
    rcases hnode with rfl | ⟨p, hp, rfl⟩
    · exact ⟨⟨l, h, ps, rfl, hwf⟩, ⟨l, h, ps, rfl, hwf⟩, ⟨l, h, ps, rfl, hwf⟩⟩
    · obtain ⟨i, hi⟩ := List.mem_iff_getElem?.mp hp
      have hs := split_at hi
      have hwf0 := hwf
      rw [hs] at hwf0
      obtain ⟨h2, hrun2, hwf2, -⟩ := Remove_spec hwf0
      obtain ⟨h3, hrun3, hwf3, -⟩ := MoveToFront_spec hwf0
      obtain ⟨h4, hrun4, hwf4, -⟩ := MoveToBack_spec hwf0
      exact ⟨⟨_, h2, _, hrun2, hwf2⟩, ⟨_, h3, _, hrun3, hwf3⟩, ⟨_, h4, _, hrun4, hwf4⟩⟩

/-- Witness of C18 on the list `[7, 8, 9]` of `exHeap`. -/
theorem C18_WF_preserved_witness :
    WF exList exHeap [2, 3, 4] ∧
    ((∃ l2 h2, List_default exHeap = .ok (l2, h2) ∧ WF l2 h2 [] ∧ WF exList h2 [2, 3, 4]) ∧
    (∀ v : Nat, [2, 3, 4].length + 1 < SIZE_RANGE →
      ∃ l2 h2 ps2, PushFront exList v exHeap = .ok (l2, h2) ∧ WF l2 h2 ps2) ∧
    (∀ v : Nat, [2, 3, 4].length + 1 < SIZE_RANGE →
      ∃ l2 h2 ps2, PushBack exList v exHeap = .ok (l2, h2) ∧ WF l2 h2 ps2) ∧
    (∀ items : List Nat, [2, 3, 4].length + items.length < SIZE_RANGE →
      ∃ l2 h2 ps2, PushBackItems exList items exHeap = .ok (l2, h2) ∧ WF l2 h2 ps2) ∧
    (∀ fuel, [2, 3, 4].length < fuel →
      ∃ h2, Reverse fuel exList exHeap = .ok (exList, h2) ∧ WF exList h2 [2, 3, 4]) ∧
    (∀ node : ItemPtr, (node = none ∨ ∃ p ∈ [2, 3, 4], node = some p) →
      (∃ l2 h2 ps2, Remove exList node exHeap = .ok (l2, h2) ∧ WF l2 h2 ps2) ∧
      (∃ l2 h2 ps2, MoveToFront exList node exHeap = .ok (l2, h2) ∧ WF l2 h2 ps2) ∧
      (∃ l2 h2 ps2, MoveToBack exList node exHeap = .ok (l2, h2) ∧ WF l2 h2 ps2))) :=
  ⟨by decide, C18_WF_preserved (show WF exList exHeap [2, 3, 4] by decide)⟩

/-- C19, as stated, fails: for the two well-formed lists `exList` and
`exEmpty` of `exHeapTwo`, after `exList.Swap(exEmpty)` the second list does
not hold the first one's former head, tail and count: its head and tail are
null and its count is 0, so it is not a well-formed list. -/
theorem C19_Swap_counterexample :
    WF exList exHeapTwo [2, 3, 4] ∧ WF exEmpty exHeapTwo [] ∧
    (Swap exList exEmpty).2 ≠ exList ∧
    (Swap exList exEmpty).2 = { head := none, tail := none, len := 0 } ∧
    ∀ ps, ¬ WF (Swap exList exEmpty).2 exHeapTwo ps := by
  refine ⟨by decide, by decide, by decide, rfl, fun ps hw => ?_⟩
  obtain ⟨hd, tl, e1, -⟩ := (WF_iff _ exHeapTwo ps).mp hw
  simp [Swap] at e1

/-- C19, amended: `a.Swap(b)` on two distinct list objects, `b` well-formed,
leaves `a` holding the former head, tail and count of `b`, hence well-formed
on the nodes of `b`, and leaves `b` with null head, null tail and count 0,
which is not a well-formed list; the body of `operator=` is this call on the
temporary, so that the assignment `a = b` leaves `a` a well-formed list on
fresh nodes with the contents of `b`, and `b` as it was. -/
theorem C19_Swap_moves [Inhabited α] (a : DList) {b : DList} {h : Heap α} {qs : List Nat}
    {ys : List α} {fuel : Nat} (hwb : WF b h qs) (hhb : Holds h qs ys)
    (hf : ys.length < fuel) :
    Swap a b = (b, { head := none, tail := none, len := 0 }) ∧
    operator_assign a b = (b, { head := none, tail := none, len := 0 }) ∧
    WF (Swap a b).1 h qs ∧ (∀ ps, ¬ WF (Swap a b).2 h ps) ∧
    ∃ a2 h2 qs2, copy_assign fuel a b h = .ok (a2, h2) ∧ WF a2 h2 qs2 ∧ Holds h2 qs2 ys ∧
      (∀ q ∈ qs2, q ∉ qs) ∧ WF b h2 qs ∧ Holds h2 qs ys := by
  have hsw : Swap a b = (b, { head := none, tail := none, len := 0 }) := by
    simp [Swap, DList_eta]
  refine ⟨hsw, hsw, by rw [hsw]; exact hwb, ?_, ?_⟩
  · intro ps hw
    rw [hsw] at hw
    obtain ⟨hd, tl, e1, -⟩ := (WF_iff _ h ps).mp hw
    simp at e1
  · obtain ⟨k, rfl⟩ : ∃ k, fuel = k + 1 := ⟨fuel - 1, by omega⟩
    obtain ⟨cp, h2, qs2, hrun, hwfc, hhc, -, hge, -, hwfs, hhs, -⟩ := List_copy_spec hwb hhb hf
    have hnodes := WF_nodes_lt hwb
    refine ⟨cp, h2, qs2, ?_, hwfc, hhc, ?_, hwfs, hhs⟩
    · simp only [copy_assign, hrun, ok_bind, operator_assign, Swap, DList_eta,
        List_destroy_null]
      rfl
    · intro q hq hm
      exact Nat.lt_irrefl _
        (Nat.lt_of_lt_of_le (hnodes q (Or.inr (Or.inl hm))) (hge q (Or.inr (Or.inl hq))))

/-- Witness of the amended C19: `exEmpty.Swap(exList)` and `exEmpty = exList`
on `exHeapTwo`. -/
theorem C19_Swap_moves_witness :
    WF exList exHeapTwo [2, 3, 4] ∧ Holds exHeapTwo [2, 3, 4] [7, 8, 9] ∧
    [7, 8, 9].length < 4 ∧
    (Swap exEmpty exList = (exList, { head := none, tail := none, len := 0 }) ∧
    operator_assign exEmpty exList = (exList, { head := none, tail := none, len := 0 }) ∧
    WF (Swap exEmpty exList).1 exHeapTwo [2, 3, 4] ∧
    (∀ ps, ¬ WF (Swap exEmpty exList).2 exHeapTwo ps) ∧
    ∃ a2 h2 qs2, copy_assign 4 exEmpty exList exHeapTwo = .ok (a2, h2) ∧ WF a2 h2 qs2 ∧
      Holds h2 qs2 [7, 8, 9] ∧ (∀ q ∈ qs2, q ∉ [2, 3, 4]) ∧ WF exList h2 [2, 3, 4] ∧
      Holds h2 [2, 3, 4] [7, 8, 9]) :=
  ⟨by decide, by decide, by decide,
    C19_Swap_moves exEmpty (show WF exList exHeapTwo [2, 3, 4] by decide)
      (show Holds exHeapTwo [2, 3, 4] [7, 8, 9] by decide) (by decide)⟩

/-- C20: on a well-formed list the emptiness indicators agree: `IsEmpty()`
returns `true` if and only if `Size()` is 0, and `Size()` is 0 if and only if
the backward link of tail targets head. -/
theorem C20_emptiness_agree {l : DList} {h : Heap α} {ps : List Nat} (hwf : WF l h ps) :
    ∃ b, IsEmpty l h = .ok b ∧ (b = true ↔ Size l = 0) ∧
      (Size l = 0 ↔ getPrev h l.tail = .ok l.head) := by
  obtain ⟨-, -, -, -, -, -, hl1, -⟩ := (WF_iff l h ps).mp hwf
  have hsz : Size l = 0 ↔ ps = [] := by
    simp only [Size, hl1]; exact List.length_eq_zero
  obtain ⟨hd, tl, j, e1, e2, hj, hprev⟩ := WF_tail_prev hwf
  refine ⟨decide (ps = []), IsEmpty_spec hwf, by rw [decide_eq_true_iff, hsz], ?_⟩
  rw [hsz, e2, hprev, e1]
  constructor
  · intro e
    subst e
    simp at hj
    rw [hj]
  · intro e
    have hjd : j = hd := by simpa using e
    by_contra hne
    obtain ⟨P, m, e3⟩ : ∃ P m, ps = P ++ [m] := by
      rcases eq_nil_or_snoc ps with e | e
      · exact absurd e hne
      · exact e
    have : hd :: ps = (hd :: P) ++ [m] := by rw [e3]; simp
    rw [this, List.getLast?_concat] at hj
    have hm : m = j := Option.some.inj hj
    have hmem : hd ∈ ps := by rw [e3, ← hjd, ← hm]; simp
    exact (WF_sentinels hwf hd hmem).1 e1

/-- Witness of C20 on the list `[7, 8, 9]` of `exHeap`. -/
theorem C20_emptiness_agree_witness :
    WF exList exHeap [2, 3, 4] ∧
    ∃ b, IsEmpty exList exHeap = .ok b ∧ (b = true ↔ Size exList = 0) ∧
      (Size exList = 0 ↔ getPrev exHeap exList.tail = .ok exList.head) :=
  ⟨by decide, C20_emptiness_agree (show WF exList exHeap [2, 3, 4] by decide)⟩

end Claims

end DoubleList
